import Mathlib

/-!
The template-path resolution engine of hulak (`pkg/yamlparser/translateTypes.go`).

A shallow embedding of the placeholder classifier, the path parser, the
discovery walk, the path applier and the orchestrator; the properties proved
about them follow the definitions.

Conventions of the embedding:

* a Go `string` is a list of code points (`Str`); the byte offsets the source
  slices at (2, 3, `len-3`, `len-2`) are only reached after the ASCII
  delimiters have been checked, so they fall on character boundaries, and the
  bytes `0x7B`, `0x7D` never occur inside a multi-byte encoding;
* a Go `map[string]any` is an association list, iterated in list order (Go
  leaves the order unspecified), read at the first entry of a key;
* a Go `error` return is `Except.error` of a `Fault`, a runtime panic is
  `Except.error Fault.panic`.
-/

namespace Hulak

/-! ## Strings -/

/-- Go strings, as lists of code points. -/
abbrev Str := List Char

/-- Go `len(s)`: the length in bytes of the UTF-8 encoding. -/
def utf8Len (s : Str) : Nat := (s.map Char.utf8Size).sum

/-- Go `unicode.IsSpace`, which `strings.TrimSpace` trims with. -/
def isSpace (c : Char) : Bool :=
  c = ' ' || c = '\t' || c = '\n' || c = '\x0b' || c = '\x0c' || c = '\r' ||
  c.toNat = 0x85 || c.toNat = 0xA0 || c.toNat = 0x1680 ||
  (0x2000 ≤ c.toNat && c.toNat ≤ 0x200A) ||
  c.toNat = 0x2028 || c.toNat = 0x2029 || c.toNat = 0x202F ||
  c.toNat = 0x205F || c.toNat = 0x3000

/-- The class `\s` of Go's `regexp` (RE2): tab, newline, form feed, carriage
return and space. -/
def isReSpace (c : Char) : Bool :=
  c = '\t' || c = '\n' || c = '\x0c' || c = '\r' || c = ' '

/-- Go `regexp.MustCompile("^\\s+$").Match`. -/
def matchOnlySpace (s : Str) : Bool := !s.isEmpty && s.all isReSpace

/-- Go `strings.TrimSpace`. -/
def trimSpace (s : Str) : Str := (s.dropWhile isSpace).rdropWhile isSpace

/-- Go `strings.HasPrefix`. -/
def hasPrefix (s pre : Str) : Bool := pre.isPrefixOf s

/-- Go `strings.HasSuffix`. -/
def hasSuffix (s suf : Str) : Bool := suf.reverse.isPrefixOf s.reverse

/-- Go `strings.TrimPrefix`. -/
def trimPrefix (s pre : Str) : Str := if hasPrefix s pre then s.drop pre.length else s

/-- Puts a character in front of the first piece of a split. -/
def consHead (c : Char) : List Str → List Str
  | [] => [[c]]
  | h :: t => (c :: h) :: t

/-- The scan of `strings.Split` for a non-empty separator: `skip` counts the
characters of a separator just found that are still to be passed over. -/
def splitGo (sep : Str) : Nat → Str → List Str
  | _, [] => [[]]
  | k + 1, _ :: cs => splitGo sep k cs
  | 0, c :: cs =>
    if sep.isPrefixOf (c :: cs) then [] :: splitGo sep (sep.length - 1) cs
    else consHead c (splitGo sep 0 cs)

/-- Go `strings.Split(s, sep)` for a non-empty `sep`: the pieces between the
successive leftmost, non-overlapping occurrences of `sep`. -/
def stringsSplit (s sep : Str) : List Str := splitGo sep 0 s

/-- The three characters `cleanStrings` deletes: double quote, backtick, single quote. -/
def isQuote (c : Char) : Bool := c = '\x22' || c = '\x60' || c = '\x27'

/-- One digit of `%d`. -/
def digitChar (d : Nat) : Char := Char.ofNat (48 + d)

/-- Decimal digits of a natural number, most significant first, in front of `acc`. -/
def natDigits : Nat → Nat → Str → Str
  | 0, _, acc => acc
  | fuel + 1, n, acc =>
    if n < 10 then digitChar n :: acc
    else natDigits fuel (n / 10) (digitChar (n % 10) :: acc)

/-- Go `%d` of a non-negative integer. -/
def itoa (n : Nat) : Str := natDigits (n + 1) n []

/-- Go `%d` / `%v` of an `int`. -/
def itoaInt : Int → Str
  | Int.ofNat n => itoa n
  | Int.negSucc n => '-' :: itoa (n + 1)

/-- ASCII decimal digit. -/
def isDigit (c : Char) : Bool := 48 ≤ c.toNat && c.toNat ≤ 57

/-- Value of a string of decimal digits (`strconv.Atoi` on `\d+`). -/
def atoi (s : Str) : Nat := s.foldl (fun acc c => acc * 10 + (c.toNat - 48)) 0

/-! ## Placeholder classification -/

/-- The source's `actionType` constants. -/
inductive actionType where
  | DotString
  | GetValueOf
  | Invalid
  deriving DecidableEq, Repr

/-- The source's `action` struct; `Typ` is its field `Type`. -/
structure action where
  Typ : actionType
  DotString : Str
  GetValueOf : List Str
  deriving DecidableEq, Repr

/-- `stringHasDelimiter` (translateTypes.go:30-50). -/
def stringHasDelimiter (value : Str) : Bool × Str :=
  if utf8Len value < 4 || !hasPrefix value "\x7b\x7b".toList
      || !hasSuffix value "\x7d\x7d".toList then
    (false, [])
  else if (value.take 3).count '\x7b' > 2
      || (value.drop (value.length - 3)).count '\x7d' > 2 then
    (false, [])
  else
    let content := (value.drop 2).take (value.length - 4)
    let onlyHasEmptySpace := matchOnlySpace value
    if content.length = 0 || onlyHasEmptySpace then
      (false, [])
    else
      let content := trimSpace content
      (decide (content.length > 0), content)

/-- `cleanStrings` (translateTypes.go:272-279): the replacer deletes every
double quote, backtick and single quote of each string. -/
def cleanStrings (stringsToClean : List Str) : List Str :=
  stringsToClean.map (fun str => str.filter (fun c => !isQuote c))

/-- `delimiterLogicAndCleanup` (translateTypes.go:56-81). -/
def delimiterLogicAndCleanup (delimiterString : Str) : action :=
  let r := stringHasDelimiter delimiterString
  if !r.1 then
    ⟨actionType.Invalid, [], []⟩
  else
    let innerStrChunks := stringsSplit r.2 " ".toList
    if innerStrChunks.length = 1 && hasPrefix (innerStrChunks.getD 0 []) ".".toList then
      ⟨actionType.DotString, trimPrefix (innerStrChunks.getD 0 []) ".".toList, []⟩
    else if innerStrChunks.length = 3 && innerStrChunks.getD 0 [] = "getValueOf".toList then
      ⟨actionType.GetValueOf, [],
        innerStrChunks.getD 0 [] :: cleanStrings (innerStrChunks.drop 1)⟩
    else
      ⟨actionType.Invalid, [], []⟩

/-! ## Documents -/

/-- Go `any` as it occurs in a decoded YAML/JSON document: scalars, `[]any`
and `map[string]any`. Numbers are the integers (a `float64` has no exact
counterpart here); every sequence is the `[]any` that decoding produces, so
the source's separate case for a Go-typed `[]map[string]any`, which runs the
same loop over a slice whose elements are all maps, has no constructor of its
own. Values are trees: no two places share a map or a slice. -/
inductive Value where
  | null
  | bool (b : Bool)
  | num (n : Int)
  | str (s : Str)
  | list (xs : List Value)
  | map (kvs : List (Str × Value))

/-- Go `map[string]any`. -/
abbrev Doc := List (Str × Value)

mutual
/-- Structural equality test on values. -/
def Value.beq : Value → Value → Bool
  | .null, .null => true
  | .bool a, .bool b => decide (a = b)
  | .num a, .num b => decide (a = b)
  | .str a, .str b => decide (a = b)
  | .list a, .list b => Value.beqList a b
  | .map a, .map b => Value.beqMap a b
  | _, _ => false
/-- Structural equality test on sequences. -/
def Value.beqList : List Value → List Value → Bool
  | [], [] => true
  | a :: as, b :: bs => Value.beq a b && Value.beqList as bs
  | _, _ => false
/-- Structural equality test on mappings. -/
def Value.beqMap : List (Str × Value) → List (Str × Value) → Bool
  | [], [] => true
  | (k, a) :: as, (l, b) :: bs => decide (k = l) && Value.beq a b && Value.beqMap as bs
  | _, _ => false
end

mutual
theorem Value.beq_iff : ∀ (a b : Value), Value.beq a b = true ↔ a = b
  | .null, b => by cases b <;> simp [Value.beq]
  | .bool a, b => by cases b <;> simp [Value.beq]
  | .num a, b => by cases b <;> simp [Value.beq]
  | .str a, b => by cases b <;> simp [Value.beq]
  | .list a, b => by
      cases b <;> simp [Value.beq]
      exact Value.beqList_iff a _
  | .map a, b => by
      cases b <;> simp [Value.beq]
      exact Value.beqMap_iff a _
theorem Value.beqList_iff : ∀ (a b : List Value), Value.beqList a b = true ↔ a = b
  | [], b => by cases b <;> simp [Value.beqList]
  | a :: as, b => by
      cases b with
      | nil => simp [Value.beqList]
      | cons b bs => simp [Value.beqList, Value.beq_iff a b, Value.beqList_iff as bs]
theorem Value.beqMap_iff : ∀ (a b : List (Str × Value)), Value.beqMap a b = true ↔ a = b
  | [], b => by cases b <;> simp [Value.beqMap]
  | (k, a) :: as, b => by
      cases b with
      | nil => simp [Value.beqMap]
      | cons b bs =>
        obtain ⟨l, b⟩ := b
        simp [Value.beqMap, Value.beq_iff a b, Value.beqMap_iff as bs, and_assoc]
end

instance : DecidableEq Value := fun a b => decidable_of_iff _ (Value.beq_iff a b)

/-- Go `m[k]` with the comma-ok form: the value at the first entry of `k`. -/
def lookup (k : Str) : Doc → Option Value
  | [] => none
  | (k', v) :: rest => if k' = k then some v else lookup k rest

/-- Go `m[k] = v`: overwrites the entry of `k`, or adds one when `k` is absent. -/
def setKey (k : Str) (v : Value) : Doc → Doc
  | [] => [(k, v)]
  | (k', v') :: rest => if k' = k then (k, v) :: rest else (k', v') :: setKey k v rest

/-- Byte-wise order on strings, by which `fmt` sorts map keys. -/
def strLt : Str → Str → Bool
  | [], [] => false
  | [], _ :: _ => true
  | _ :: _, [] => false
  | a :: as, b :: bs => a.toNat < b.toNat || (a = b && strLt as bs)

/-- Insertion of a rendered map entry in key order. -/
def insertField (e : Str × Str) : List (Str × Str) → List (Str × Str)
  | [] => [e]
  | f :: rest => if strLt f.1 e.1 then f :: insertField e rest else e :: f :: rest

/-- Joins rendered pieces with single spaces. -/
def joinSpace : List Str → Str
  | [] => []
  | [a] => a
  | a :: rest => a ++ ' ' :: joinSpace rest

mutual
/-- Go `fmt.Sprintf("%v", v)`. -/
def sprintV : Value → Str
  | .null => "<nil>".toList
  | .bool b => if b then "true".toList else "false".toList
  | .num n => itoaInt n
  | .str s => s
  | .list xs => "[".toList ++ joinSpace (sprintList xs) ++ "]".toList
  | .map kvs =>
    "map[".toList
      ++ joinSpace (((sprintFields kvs).foldr insertField []).map (fun e => e.1 ++ ':' :: e.2))
      ++ "]".toList
/-- The `%v` renderings of the elements of a slice. -/
def sprintList : List Value → List Str
  | [] => []
  | v :: rest => sprintV v :: sprintList rest
/-- The keys of a map with the `%v` renderings of their values. -/
def sprintFields : List (Str × Value) → List (Str × Str)
  | [] => []
  | (k, v) :: rest => (k, sprintV v) :: sprintFields rest
end

/-! ## Path parsing -/

/-- An element of the `[]any` that `parsePath` builds: a mapping key (`string`)
or a sequence index (`int`). -/
inductive Token where
  | key (s : Str)
  | idx (i : Int)
  deriving DecidableEq, Repr

/-- Failures: the two errors of `parsePath`, the wrapping of one by
`translateType` (`utils.ColorError("#TranslateType ", err)`), and a runtime
panic (failed type assertion, index out of range). -/
inductive Fault where
  | emptyPath
  | emptyKey (position : Nat)
  | inTranslateType (cause : Fault)
  | panic
  deriving DecidableEq, Repr

instance : DecidableEq (Except Fault (List Token)) := fun a b =>
  match a, b with
  | .ok x, .ok y => decidable_of_iff (x = y) (by simp)
  | .error x, .error y => decidable_of_iff (x = y) (by simp)
  | .ok _, .error _ => isFalse (by simp)
  | .error _, .ok _ => isFalse (by simp)

instance : DecidableEq (Except Fault Value) := fun a b =>
  match a, b with
  | .ok x, .ok y => decidable_of_iff (x = y) (by simp)
  | .error x, .error y => decidable_of_iff (x = y) (by simp)
  | .ok _, .error _ => isFalse (by simp)
  | .error _, .ok _ => isFalse (by simp)

instance : DecidableEq (Except Fault Doc) := fun a b =>
  match a, b with
  | .ok x, .ok y => decidable_of_iff (x = y) (by simp)
  | .error x, .error y => decidable_of_iff (x = y) (by simp)
  | .ok _, .error _ => isFalse (by simp)
  | .error _, .ok _ => isFalse (by simp)

/-- Modelled from the spec: `utils.ParseArrayKey`, which `parsePath` calls and
whose source is not among the files. The spec has a segment become a key token
followed by an index token "if it matches `name[idx]`", "detecting a trailing
`[idx]` suffix per segment": the segment ends in `[`, one or more decimal
digits, `]`, and `name` is the non-empty text before that bracket. The result
is the flag, the name and the index, as at the call site
`isArrayKey, keyPart, index := utils.ParseArrayKey(trimmedKey)`. -/
def ParseArrayKey (key : Str) : Bool × Str × Int :=
  let r := key.reverse
  let digits := (r.drop 1).takeWhile isDigit
  let before := (r.drop 1).dropWhile isDigit
  if r.head? = some ']' && before.head? = some '[' && !digits.isEmpty
      && !(before.drop 1).isEmpty then
    (true, (before.drop 1).reverse, Int.ofNat (atoi digits.reverse))
  else
    (false, [], -1)

/-- The loop of `parsePath` (translateTypes.go:291-306) over the raw segments
from position `i` on, with the tokens collected so far; `arrayKey` is the
matcher the loop calls, `utils.ParseArrayKey`. -/
def parseSegments (arrayKey : Str → Bool × Str × Int) :
    List Str → Nat → List Token → Except Fault (List Token)
  | [], _, keys => .ok keys
  | segment :: rest, i, keys =>
    let trimmedKey := trimSpace segment
    if trimmedKey = [] then
      .error (Fault.emptyKey (i + 1))
    else
      let r := arrayKey trimmedKey
      if r.1 then
        parseSegments arrayKey rest (i + 1) (keys ++ [Token.key r.2.1] ++ [Token.idx r.2.2])
      else
        parseSegments arrayKey rest (i + 1) (keys ++ [Token.key trimmedKey])

/-- The body of `parsePath` (translateTypes.go:283-309) around a given matcher. -/
def parsePathWith (arrayKey : Str → Bool × Str × Int) (path : Str) :
    Except Fault (List Token) :=
  if utf8Len path = 0 then
    .error Fault.emptyPath
  else
    parseSegments arrayKey (stringsSplit path "->".toList) 0 []

/-- `parsePath` (translateTypes.go:283-309). -/
def parsePath (path : Str) : Except Fault (List Token) :=
  parsePathWith ParseArrayKey path

/-! ## Discovery -/

/-- The source's `EachGetValueofAction`. -/
structure EachGetValueofAction where
  Path : Str
  KeyName : Str
  FileName : Str
  deriving DecidableEq, Repr

/-- The source's `EachDotStringAction`. -/
structure EachDotStringAction where
  Path : Str
  KeyName : Str
  deriving DecidableEq, Repr

/-- The source's `Path`: the catalogue of discovered placeholders. -/
structure Path where
  DotStrings : List EachDotStringAction
  GetValueOfs : List EachGetValueofAction
  deriving DecidableEq, Repr

/-- Both `append(cmprt.DotStrings, ...)` and `append(cmprt.GetValueOfs, ...)`. -/
def Path.append (a b : Path) : Path :=
  ⟨a.DotStrings ++ b.DotStrings, a.GetValueOfs ++ b.GetValueOfs⟩

/-- The `case string` of `findPathFromMap` (translateTypes.go:115-140). -/
def findPathString (bTypeVal currentKey : Str) : Path :=
  let action := delimiterLogicAndCleanup bTypeVal
  match action.Typ with
  | actionType.DotString => ⟨[⟨currentKey, action.DotString⟩], []⟩
  | actionType.GetValueOf =>
    ⟨[], [⟨currentKey, action.GetValueOf.getD 1 [], action.GetValueOf.getD 2 []⟩]⟩
  | actionType.Invalid => ⟨[], []⟩

mutual
/-- `findPathFromMap` (translateTypes.go:102-169): the entries of `beforeMap`
in iteration order. -/
def findPathFromMap : List (Str × Value) → Str → Path
  | [], _ => ⟨[], []⟩
  | (bKey, bValue) :: rest, parentKey =>
    let currentKey := if parentKey ≠ [] then parentKey ++ " -> ".toList ++ bKey else bKey
    (findPathValue bValue currentKey).append (findPathFromMap rest parentKey)
/-- The type switch on one value of the map (translateTypes.go:114-165). -/
def findPathValue : Value → Str → Path
  | .str bTypeVal, currentKey => findPathString bTypeVal currentKey
  | .map bTypeVal, currentKey => findPathFromMap bTypeVal currentKey
  | .list bTypeVal, currentKey => findPathSlice bTypeVal currentKey 0
  | .null, _ => ⟨[], []⟩
  | .bool _, _ => ⟨[], []⟩
  | .num _, _ => ⟨[], []⟩
/-- The loop of the `case []any` (translateTypes.go:146-154) from index `idx` on. -/
def findPathSlice : List Value → Str → Nat → Path
  | [], _, _ => ⟨[], []⟩
  | val :: rest, currentKey, idx =>
    let arrayKey := currentKey ++ "[".toList ++ itoa idx ++ "]".toList
    (match val with
      | .map mapVal => findPathFromMap mapVal arrayKey
      | _ => ⟨[], []⟩).append (findPathSlice rest currentKey (idx + 1))
end

/-! ## Application -/

/-- `swapValue` (translateTypes.go:261-268). -/
def swapValue (val1 : Str) (val2 : Value) : Value :=
  if val1 = sprintV val2 then val2 else Value.str val1

/-- The value written at the terminal token: the candidate, passed through
`swapValue` when the slot holds a string (translateTypes.go:186-188, 199-201). -/
def guarded (slot : Option Value) (replaceWith : Value) : Value :=
  match slot with
  | some (Value.str val) => swapValue val replaceWith
  | _ => replaceWith

/-- The loop of `setValueOnAfterMap` (translateTypes.go:180-209) from the
current token on: the result is `current` after the in-place write. A failed
type assertion or an index out of range is a panic. -/
def setValueAt : List Token → Value → Value → Except Fault Value
  | [], current, _ => .ok current
  | Token.key val :: rest, current, replaceWith =>
    match current with
    | .map currentMap =>
      if rest.isEmpty then
        .ok (.map (setKey val (guarded (lookup val currentMap) replaceWith) currentMap))
      else
        match lookup val currentMap with
        | some next =>
          match setValueAt rest next replaceWith with
          | .ok next' => .ok (.map (setKey val next' currentMap))
          | .error e => .error e
        | none =>
          match setValueAt rest .null replaceWith with
          | .ok _ => .ok (.map currentMap)
          | .error e => .error e
    | _ => .error Fault.panic
  | Token.idx val :: rest, current, replaceWith =>
    match current with
    | .list currentSlice =>
      if val < 0 ∨ (currentSlice.length : Int) ≤ val then
        .error Fault.panic
      else if rest.isEmpty then
        .ok (.list (currentSlice.set val.toNat
          (guarded currentSlice[val.toNat]? replaceWith)))
      else
        match setValueAt rest (currentSlice[val.toNat]?.getD .null) replaceWith with
        | .ok next' => .ok (.list (currentSlice.set val.toNat next'))
        | .error e => .error e
    | _ => .error Fault.panic

/-- `setValueOnAfterMap` (translateTypes.go:173-212). -/
def setValueOnAfterMap (path : List Token) (afterMap : Doc) (replaceWith : Value) :
    Except Fault Doc :=
  match setValueAt path (.map afterMap) replaceWith with
  | .ok (.map m) => .ok m
  | .ok _ => .error Fault.panic
  | .error e => .error e

/-! ## Orchestration -/

/-- The first loop of `translateType` (translateTypes.go:223-239). -/
def translateDotStrings (secretsMap : Doc) : List EachDotStringAction → Doc → Except Fault Doc
  | [], afterMap => .ok afterMap
  | dotStringActionObj :: rest, afterMap =>
    match parsePath dotStringActionObj.Path with
    | .error err => .error (Fault.inTranslateType err)
    | .ok path =>
      if path.length = 0 then
        translateDotStrings secretsMap rest afterMap
      else
        match lookup dotStringActionObj.KeyName secretsMap with
        | none => translateDotStrings secretsMap rest afterMap
        | some secretVal =>
          match setValueOnAfterMap path afterMap secretVal with
          | .ok afterMap' => translateDotStrings secretsMap rest afterMap'
          | .error e => .error e

/-- The second loop of `translateType` (translateTypes.go:242-254). -/
def translateGetValueOfs (getValueOf : Str → Str → Value) :
    List EachGetValueofAction → Doc → Except Fault Doc
  | [], afterMap => .ok afterMap
  | getValueOfActionObj :: rest, afterMap =>
    match parsePath getValueOfActionObj.Path with
    | .error err => .error (Fault.inTranslateType err)
    | .ok path =>
      if path.length = 0 then
        translateGetValueOfs getValueOf rest afterMap
      else
        match setValueOnAfterMap path afterMap
            (getValueOf getValueOfActionObj.KeyName getValueOfActionObj.FileName) with
        | .ok afterMap' => translateGetValueOfs getValueOf rest afterMap'
        | .error e => .error e

/-- `translateType` (translateTypes.go:216-257). -/
def translateType (beforeMap afterMap secretsMap : Doc) (getValueOf : Str → Str → Value) :
    Except Fault Doc :=
  let pathMap := findPathFromMap beforeMap []
  match translateDotStrings secretsMap pathMap.DotStrings afterMap with
  | .error e => .error e
  | .ok afterMap' => translateGetValueOfs getValueOf pathMap.GetValueOfs afterMap'

/-- The text between the two-character delimiters: Go `value[2 : len(value)-2]`
(translateTypes.go:39). -/
def interior (value : Str) : Str := (value.drop 2).take (value.length - 4)

/-- Whether `->` occurs in a string: some `-` is immediately followed by `>`. -/
def hasArrow : Str → Bool
  | [] => false
  | c :: cs => (c = '-' && cs.head? = some '>') || hasArrow cs

/-- A segment of a rendered path: a mapping key, with the index of the element
taken when the key holds a sequence. -/
structure Segment where
  key : Str
  index : Option Nat
  deriving DecidableEq, Repr

/-- A segment as discovery writes it: `key`, or `key[index]` by
`fmt.Sprintf("%s[%d]", currentKey, idx)` (translateTypes.go:147). -/
def renderSegment (s : Segment) : Str :=
  match s.index with
  | none => s.key
  | some i => s.key ++ "[".toList ++ itoa i ++ "]".toList

/-- Rendered segments joined with ` -> ` (translateTypes.go:111). -/
def joinArrow : List Str → Str
  | [] => []
  | [a] => a
  | a :: b :: rest => a ++ " -> ".toList ++ joinArrow (b :: rest)

/-- The tokens a segment stands for: its key, then its index if it has one. -/
def segmentTokens (s : Segment) : List Token :=
  match s.index with
  | none => [Token.key s.key]
  | some i => [Token.key s.key, Token.idx (Int.ofNat i)]

/-- The token list of a list of segments. -/
def flattenSegments : List Segment → List Token
  | [] => []
  | s :: rest => segmentTokens s ++ flattenSegments rest

/-- A mapping key that survives the rendering of paths: not empty, no
whitespace at either end, no `->` inside, and not itself of the form
`name[idx]`. -/
def goodKey (k : Str) : Bool :=
  !k.isEmpty && !(k.head?.any isSpace) && !(k.getLast?.any isSpace) && !hasArrow k
    && !(ParseArrayKey k).1

/-- The keys of the claim on `parsePath`: a non-empty identifier without
whitespace, brackets or `->`. -/
def plainKey (k : Str) : Bool :=
  !k.isEmpty && k.all (fun c => !isSpace c && !decide (c = '[') && !decide (c = ']'))
    && !hasArrow k

/-- The value a token path addresses: a string token selects a mapping key,
an integer token selects a sequence index. -/
def follow : List Token → Value → Option Value
  | [], v => some v
  | Token.key k :: rest, .map m =>
    match lookup k m with
    | some v => follow rest v
    | none => none
  | Token.idx i :: rest, .list xs =>
    if i < 0 then none
    else
      match xs[i.toNat]? with
      | some v => follow rest v
      | none => none
  | _ :: _, _ => none

/-- The dot-reference placeholder text for an identifier, with one space of
padding on either side: `{{ .identifier }}`. -/
def dotPlaceholder (identifier : Str) : Str :=
  "\x7b\x7b .".toList ++ identifier ++ " \x7d\x7d".toList

/-- The document `{"h": {"auth": leaf}}` of the round-trip example. -/
def authDoc (leaf : Value) : Doc :=
  [("h".toList, .map [("auth".toList, leaf)])]

/-! ## The placeholders of a document, as the specification describes them -/

/-- A string leaf `s` that is a mapping value, reached from the root mapping
through mappings and through sequence elements that are themselves mappings;
the segments name the keys passed, with the index where a key holds a
sequence. -/
inductive Reaches : Doc → List Segment → Str → Prop where
  | leaf {m : Doc} {k s : Str} :
      (k, Value.str s) ∈ m → Reaches m [⟨k, none⟩] s
  | inMap {m m' : Doc} {k s : Str} {p : List Segment} :
      (k, Value.map m') ∈ m → Reaches m' p s → Reaches m (⟨k, none⟩ :: p) s
  | inSeq {m m' : Doc} {k s : Str} {xs : List Value} {i : Nat} {p : List Segment} :
      (k, Value.list xs) ∈ m → xs[i]? = some (Value.map m') → Reaches m' p s →
      Reaches m (⟨k, some i⟩ :: p) s

mutual
/-- The reachable string leaves of a mapping, each with its position. -/
def leaves : List (Str × Value) → List (List Segment × Str)
  | [] => []
  | (k, v) :: rest => leavesValue k v ++ leaves rest
/-- The reachable string leaves under one key of a mapping. -/
def leavesValue (k : Str) : Value → List (List Segment × Str)
  | .str s => [([⟨k, none⟩], s)]
  | .map m => (leaves m).map (fun e => ((⟨k, none⟩ : Segment) :: e.1, e.2))
  | .list xs => leavesSlice k xs 0
  | .null => []
  | .bool _ => []
  | .num _ => []
/-- The reachable string leaves under the elements of a sequence, from index `i` on. -/
def leavesSlice (k : Str) : List Value → Nat → List (List Segment × Str)
  | [], _ => []
  | v :: rest, i =>
    (match v with
      | .map m => (leaves m).map (fun e => ((⟨k, some i⟩ : Segment) :: e.1, e.2))
      | _ => []) ++ leavesSlice k rest (i + 1)
end

/-- The path string after one more segment, as discovery builds it: the key
joined to the parent path by ` -> ` unless the parent path is empty
(translateTypes.go:109-112), then `[index]` for an element (line 147). -/
def extendPath (parentKey : Str) (s : Segment) : Str :=
  let currentKey := if parentKey ≠ [] then parentKey ++ " -> ".toList ++ s.key else s.key
  match s.index with
  | none => currentKey
  | some i => currentKey ++ "[".toList ++ itoa i ++ "]".toList

/-- The path string of a position below a parent path. -/
def pathString (parentKey : Str) (p : List Segment) : Str := p.foldl extendPath parentKey

/-- The dot-reference entry of a leaf, if the leaf classifies as one. -/
def dotEntry (parentKey : Str) (e : List Segment × Str) : Option EachDotStringAction :=
  if (delimiterLogicAndCleanup e.2).Typ = actionType.DotString then
    some ⟨pathString parentKey e.1, (delimiterLogicAndCleanup e.2).DotString⟩
  else none

/-- The cross-document entry of a leaf, if the leaf classifies as one. -/
def getEntry (parentKey : Str) (e : List Segment × Str) : Option EachGetValueofAction :=
  if (delimiterLogicAndCleanup e.2).Typ = actionType.GetValueOf then
    some ⟨pathString parentKey e.1, (delimiterLogicAndCleanup e.2).GetValueOf.getD 1 [],
      (delimiterLogicAndCleanup e.2).GetValueOf.getD 2 []⟩
  else none

/-- The catalogue the specification asks for: one entry per reachable leaf
that classifies as a placeholder, in the list of its kind. -/
def catalogue (parentKey : Str) (ls : List (List Segment × Str)) : Path :=
  ⟨ls.filterMap (dotEntry parentKey), ls.filterMap (getEntry parentKey)⟩

mutual
/-- No mapping of the document has two entries of one key (as in any Go map). -/
def uniqueKeys : List (Str × Value) → Bool
  | [] => true
  | (k, v) :: rest => rest.all (fun e => !decide (e.1 = k)) && uniqueKeysValue v && uniqueKeys rest
/-- No mapping inside the value has two entries of one key. -/
def uniqueKeysValue : Value → Bool
  | .map m => uniqueKeys m
  | .list xs => uniqueKeysSlice xs
  | _ => true
/-- No mapping inside the elements has two entries of one key. -/
def uniqueKeysSlice : List Value → Bool
  | [] => true
  | v :: rest => uniqueKeysValue v && uniqueKeysSlice rest
end

mutual
/-- Every mapping key of the document, at every depth, is a good key. -/
def goodKeys : List (Str × Value) → Bool
  | [] => true
  | (k, v) :: rest => goodKey k && goodKeysValue v && goodKeys rest
/-- Every mapping key inside the value is a good key. -/
def goodKeysValue : Value → Bool
  | .map m => goodKeys m
  | .list xs => goodKeysSlice xs
  | _ => true
/-- Every mapping key inside the elements is a good key. -/
def goodKeysSlice : List Value → Bool
  | [] => true
  | v :: rest => goodKeysValue v && goodKeysSlice rest
end

/-! ## One step of a token path -/

/-- Whether a token can be applied to a value without a panic: a string token
needs a mapping, an integer token a sequence that has the index. -/
def slotOk : Token → Value → Bool
  | Token.key _, .map _ => true
  | Token.idx i, .list xs => decide (0 ≤ i ∧ i < (xs.length : Int))
  | _, _ => false

/-- The value a single token selects. -/
def child : Token → Value → Option Value
  | Token.key k, .map m => lookup k m
  | Token.idx i, .list xs => if i < 0 then none else xs[i.toNat]?
  | _, _ => none

/-- The container after a write at the slot of a single token. -/
def put : Token → Value → Value → Value
  | Token.key k, x, .map m => .map (setKey k x m)
  | Token.idx i, x, .list xs => .list (xs.set i.toNat x)
  | _, _, cur => cur

/-- Two token paths neither of which is a prefix of the other: they address
slots that do not contain one another. -/
def Incomparable (p q : List Token) : Prop := ¬ p <+: q ∧ ¬ q <+: p

/-! ## The writes of a run -/

/-- A list of writes, done one after another as the loops of `translateType` do. -/
def applyOps : List (List Token × Value) → Doc → Except Fault Doc
  | [], afterMap => .ok afterMap
  | op :: rest, afterMap =>
    match setValueOnAfterMap op.1 afterMap op.2 with
    | .ok afterMap' => applyOps rest afterMap'
    | .error e => .error e

/-- The write a dot-reference entry leads to, if any: none when its path is
empty or its identifier is not in the table (translateTypes.go:229-236). -/
def dotOp (secretsMap : Doc) (e : EachDotStringAction) : Option (List Token × Value) :=
  match parsePath e.Path with
  | .ok path =>
    if path.length = 0 then none
    else
      match lookup e.KeyName secretsMap with
      | some secretVal => some (path, secretVal)
      | none => none
  | .error _ => none

/-- The write a cross-document entry leads to, if any (translateTypes.go:248-253). -/
def getOp (getValueOf : Str → Str → Value) (e : EachGetValueofAction) :
    Option (List Token × Value) :=
  match parsePath e.Path with
  | .ok path =>
    if path.length = 0 then none
    else some (path, getValueOf e.KeyName e.FileName)
  | .error _ => none

/-- A token as it may be written in a placeholder: bare, or wrapped in a pair
of one quote character. -/
def wrapQuote (q : Option Char) (s : Str) : Str :=
  match q with
  | none => s
  | some c => c :: s ++ [c]

/-- The placeholder text `{{ getValueOf <key> <doc> }}` with single spaces. -/
def getValueOfPlaceholder (writtenKey writtenDoc : Str) : Str :=
  "\x7b\x7b getValueOf ".toList ++ writtenKey ++ " ".toList ++ writtenDoc
    ++ " \x7d\x7d".toList

/-- The placeholder text `{{ getValueOf<sep1><key><sep2><doc> }}` with given
separators. -/
def getValueOfWith (sep1 key sep2 doc : Str) : Str :=
  "\x7b\x7b getValueOf".toList ++ sep1 ++ key ++ sep2 ++ doc ++ " \x7d\x7d".toList

instance (p q : List Token) : Decidable (Incomparable p q) := by
  unfold Incomparable
  infer_instance

/-- The tokens one raw segment contributes in the loop of `parsePath`
(translateTypes.go:299-305). -/
def segmentToks (arrayKey : Str → Bool × Str × Int) (segment : Str) : List Token :=
  if (arrayKey (trimSpace segment)).1 then
    [Token.key (arrayKey (trimSpace segment)).2.1, Token.idx (arrayKey (trimSpace segment)).2.2]
  else
    [Token.key (trimSpace segment)]

/-- The tokens of a list of raw segments. -/
def allToks (arrayKey : Str → Bool × Str × Int) : List Str → List Token
  | [] => []
  | segment :: rest => segmentToks arrayKey segment ++ allToks arrayKey rest

/-- Every integer token comes immediately after a string token; `prevIsKey`
tells whether the token in front of the list is a string token. -/
def keyedFrom (prevIsKey : Bool) : List Token → Bool
  | [] => true
  | Token.key _ :: rest => keyedFrom true rest
  | Token.idx _ :: rest => prevIsKey && keyedFrom false rest

/-- Whether a token path addresses an existing slot of the destination. -/
def present (d : Doc) (p : List Token) : Bool := (follow p (.map d)).isSome

/-- The destination is aligned with the source: the position of every
placeholder leaf of the source addresses an existing slot of the destination. -/
def aligned (beforeMap afterMap : Doc) : Bool :=
  (leaves beforeMap).all (fun x =>
    decide ((delimiterLogicAndCleanup x.2).Typ = actionType.Invalid)
      || present afterMap (flattenSegments x.1))

/-- The writes of a run of `translateType`, in the order of the run:
dot-references first. -/
def discoveredOps (beforeMap secretsMap : Doc) (getValueOf : Str → Str → Value) :
    List (List Token × Value) :=
  (findPathFromMap beforeMap []).DotStrings.filterMap (dotOp secretsMap)
    ++ (findPathFromMap beforeMap []).GetValueOfs.filterMap (getOp getValueOf)

/-- Go `strings.ToLower` for a given lower-casing of runes (`unicode.ToLower`),
applied rune by rune. -/
def stringsToLower (toLowerRune : Char → Char) (s : Str) : Str := s.map toLowerRune

mutual
/-- The `for key, val := range dict` loop of `ConvertKeysToLowerCase`
(utils.go:138-156) over the entries still to visit, with `loweredMap` as built
so far. -/
def convertLoop (toLowerRune : Char → Char) : List (Str × Value) → Doc → Doc
  | [], loweredMap => loweredMap
  | (key, val) :: rest, loweredMap =>
    if key = "variables".toList then
      convertLoop toLowerRune rest (setKey key val loweredMap)
    else
      convertLoop toLowerRune rest
        (setKey (stringsToLower toLowerRune key) (convertValue toLowerRune val) loweredMap)
/-- The type switch on `val` (utils.go:149-154): a `map[string]any` is
converted by the recursive call, every other value is stored as it is. -/
def convertValue (toLowerRune : Char → Char) : Value → Value
  | .map almostFinalValue => .map (convertLoop toLowerRune almostFinalValue [])
  | .null => .null
  | .bool b => .bool b
  | .num n => .num n
  | .str s => .str s
  | .list xs => .list xs
end

/-- `ConvertKeysToLowerCase` (utils.go:136-158): the loop run from an empty
`loweredMap`. -/
def ConvertKeysToLowerCase (toLowerRune : Char → Char) (dict : Doc) : Doc :=
  convertLoop toLowerRune dict []

mutual
/-- Spec side: every key of the mapping, and of the mappings met below it
through mappings only and not under a key `variables`, is `variables` or is
left unchanged by lowercasing. -/
def loweredKeys (toLowerRune : Char → Char) : List (Str × Value) → Bool
  | [] => true
  | (k, v) :: rest =>
    (decide (k = "variables".toList)
      || (decide (stringsToLower toLowerRune k = k) && loweredKeysValue toLowerRune v))
    && loweredKeys toLowerRune rest
/-- Spec side: `loweredKeys` for a value; only mappings are looked into. -/
def loweredKeysValue (toLowerRune : Char → Char) : Value → Bool
  | .map m => loweredKeys toLowerRune m
  | .null => true
  | .bool _ => true
  | .num _ => true
  | .str _ => true
  | .list _ => true
end

/-- Spec side: the key under which the loop stores the entry of `k`. -/
def loweredKey (toLowerRune : Char → Char) (k : Str) : Str :=
  if k = "variables".toList then k else stringsToLower toLowerRune k

/-! # Properties -/

theorem utf8Len_cons (c : Char) (s : Str) : utf8Len (c :: s) = c.utf8Size + utf8Len s := by
  simp [utf8Len]

theorem length_le_utf8Len (s : Str) : s.length ≤ utf8Len s := by
  induction s with
  | nil => simp [utf8Len]
  | cons c s ih =>
    rw [utf8Len_cons]
    have := Char.utf8Size_pos c
    simp only [List.length_cons]
    omega

theorem utf8Len_eq_zero (s : Str) : utf8Len s = 0 ↔ s = [] := by
  constructor
  · intro h
    have := length_le_utf8Len s
    exact List.length_eq_zero.mp (by omega)
  · rintro rfl; rfl

theorem hasPrefix_iff (s pre : Str) : hasPrefix s pre = true ↔ pre <+: s := by
  simp [hasPrefix]

theorem hasSuffix_iff (s suf : Str) : hasSuffix s suf = true ↔ suf <:+ s := by
  simp [hasSuffix, List.reverse_prefix]

/-- A string that starts with the opening and ends with the closing delimiter
is the two delimiters around an interior. -/
theorem delimited_shape (value : Str)
    (hp : "\x7b\x7b".toList <+: value) (hs : "\x7d\x7d".toList <:+ value) :
    ∃ mid, value = '\x7b' :: '\x7b' :: (mid ++ ['\x7d', '\x7d']) := by
  obtain ⟨t, rfl⟩ := hp
  obtain ⟨u, hu⟩ := hs
  have hcases : t = [] ∨ (∃ a, t = [a]) ∨ ∃ m, t = m ++ ['\x7d', '\x7d'] := by
    rcases List.eq_nil_or_concat t with h | ⟨t1, a, h⟩
    · exact Or.inl h
    · rcases List.eq_nil_or_concat t1 with h1 | ⟨t2, b, h1⟩
      · right; left; exact ⟨a, by simp [h, h1]⟩
      · right; right
        subst h h1
        have h2 : u ++ "\x7d\x7d".toList = ("\x7b\x7b".toList ++ t2) ++ [b, a] := by
          rw [hu]; simp
        have h3 := List.append_inj' h2 (by simp)
        refine ⟨t2, ?_⟩
        have h4 : [b, a] = ['\x7d', '\x7d'] := h3.2.symm
        simp only [List.cons.injEq, and_true] at h4
        simp [h4.1, h4.2]
  rcases hcases with h | ⟨a, h⟩ | ⟨m, h⟩
  · subst h
    have h2 : u ++ ['\x7d', '\x7d'] = [] ++ ['\x7b', '\x7b'] := by simpa using hu
    have h3 := List.append_inj' h2 (by simp)
    exact absurd h3.2 (by decide)
  · subst h
    have h2 : u ++ ['\x7d', '\x7d'] = ['\x7b'] ++ ['\x7b', a] := by simpa using hu
    have h3 := List.append_inj' h2 (by simp)
    have h4 := h3.2
    simp only [List.cons.injEq, and_true] at h4
    exact absurd h4.1 (by decide)
  · exact ⟨m, by simp [h]⟩


theorem interior_shape (mid : Str) :
    interior ('\x7b' :: '\x7b' :: (mid ++ ['\x7d', '\x7d'])) = mid := by
  simp [interior, List.take_append_eq_append_take]

theorem count_open_take3 (mid : Str) :
    ((('\x7b' :: '\x7b' :: (mid ++ ['\x7d', '\x7d'])).take 3).count '\x7b' > 2)
      ↔ mid.head? = some '\x7b' := by
  cases mid with
  | nil => decide
  | cons c m =>
    by_cases h : c = '\x7b'
    · subst h; simp
    · have h' : ¬ ('\x7b' = c) := fun e => h e.symm
      simp [List.count_cons, h, h']

theorem count_close_last3 (mid : Str) :
    ((('\x7b' :: '\x7b' :: (mid ++ ['\x7d', '\x7d'])).drop
        (('\x7b' :: '\x7b' :: (mid ++ ['\x7d', '\x7d'])).length - 3)).count '\x7d' > 2)
      ↔ mid.getLast? = some '\x7d' := by
  rcases List.eq_nil_or_concat mid with h | ⟨init, l, h⟩
  · subst h; decide
  · subst h
    rw [List.concat_eq_append]
    have e : ('\x7b' :: '\x7b' :: (init ++ [l] ++ ['\x7d', '\x7d']))
        = ('\x7b' :: '\x7b' :: init) ++ [l, '\x7d', '\x7d'] := by simp
    rw [e, List.drop_left' (by simp)]
    by_cases h : l = '\x7d'
    · subst h; simp
    · have h' : ¬ ('\x7d' = l) := fun e => h e.symm
      simp [List.count_cons, h, h']

/-- `stringHasDelimiter` on a string of the delimited shape. -/
theorem stringHasDelimiter_shape (mid : Str) :
    stringHasDelimiter ('\x7b' :: '\x7b' :: (mid ++ ['\x7d', '\x7d'])) =
      if mid.head? = some '\x7b' ∨ mid.getLast? = some '\x7d' then (false, [])
      else (decide (trimSpace mid ≠ []), trimSpace mid) := by
  have hlen : ¬ utf8Len ('\x7b' :: '\x7b' :: (mid ++ ['\x7d', '\x7d'])) < 4 := by
    have := length_le_utf8Len ('\x7b' :: '\x7b' :: (mid ++ ['\x7d', '\x7d']))
    simp at this
    omega
  have hp : hasPrefix ('\x7b' :: '\x7b' :: (mid ++ ['\x7d', '\x7d'])) "\x7b\x7b".toList = true := by
    rw [hasPrefix_iff]; exact ⟨mid ++ ['\x7d', '\x7d'], rfl⟩
  have hs : hasSuffix ('\x7b' :: '\x7b' :: (mid ++ ['\x7d', '\x7d'])) "\x7d\x7d".toList = true := by
    rw [hasSuffix_iff]; exact ⟨'\x7b' :: '\x7b' :: mid, by simp⟩
  have hre : matchOnlySpace ('\x7b' :: '\x7b' :: (mid ++ ['\x7d', '\x7d'])) = false := by
    simp [matchOnlySpace, isReSpace]
  have hc : ((('\x7b' :: '\x7b' :: (mid ++ ['\x7d', '\x7d'])).drop 2).take
      (('\x7b' :: '\x7b' :: (mid ++ ['\x7d', '\x7d'])).length - 4)) = mid := interior_shape mid
  unfold stringHasDelimiter
  rw [hp, hs, hre, hc]
  simp only [hlen, decide_False, Bool.not_true, Bool.or_false, Bool.false_eq_true, if_false]
  have h1 := count_open_take3 mid
  have h2 := count_close_last3 mid
  simp only [h1, h2]
  by_cases a : mid.head? = some '\x7b'
  · simp only [a, true_or, decide_True, Bool.true_or, if_true]
  · by_cases b : mid.getLast? = some '\x7d'
    · simp only [b, or_true, decide_True, Bool.or_true, if_true]
    · simp only [a, b, decide_False, Bool.or_false, Bool.false_eq_true, if_false, or_self]
      by_cases hm : mid = []
      · subst hm; simp [trimSpace]
      · have : ¬ (mid.length = 0) := fun h => hm (List.length_eq_zero.mp h)
        simp [this, List.length_pos]


theorem third_char_shape (mid : Str) :
    ('\x7b' :: '\x7b' :: (mid ++ ['\x7d', '\x7d']))[2]? = some '\x7b'
      ↔ mid.head? = some '\x7b' := by
  cases mid with
  | nil => decide
  | cons c m => simp

theorem third_last_shape (mid : Str) :
    ('\x7b' :: '\x7b' :: (mid ++ ['\x7d', '\x7d'])).reverse[2]? = some '\x7d'
      ↔ mid.getLast? = some '\x7d' := by
  rcases List.eq_nil_or_concat mid with h | ⟨init, l, h⟩
  · subst h; decide
  · subst h
    simp [List.concat_eq_append]

theorem stringHasDelimiter_of_not (value : Str)
    (h : ¬ ("\x7b\x7b".toList <+: value ∧ "\x7d\x7d".toList <:+ value)) :
    stringHasDelimiter value = (false, []) := by
  unfold stringHasDelimiter
  have : (decide (utf8Len value < 4) || !hasPrefix value "\x7b\x7b".toList
      || !hasSuffix value "\x7d\x7d".toList) = true := by
    by_cases hp : "\x7b\x7b".toList <+: value
    · have hs : ¬ "\x7d\x7d".toList <:+ value := fun hs => h ⟨hp, hs⟩
      have : hasSuffix value "\x7d\x7d".toList = false := by
        rw [← Bool.not_eq_true, hasSuffix_iff]; exact hs
      rw [this]; simp
    · have : hasPrefix value "\x7b\x7b".toList = false := by
        rw [← Bool.not_eq_true, hasPrefix_iff]; exact hp
      rw [this]; simp
  rw [if_pos this]

/-- C9. `stringHasDelimiter` accepts exactly the strings of at least four
characters that start with two opening braces not followed by a third, end with
two closing braces not preceded by a third, and whose interior is not blank;
on acceptance the content is the trimmed interior, on rejection it is empty.
The four examples of the specification are included. -/
theorem stringHasDelimiter_exact (value : Str) :
    ((stringHasDelimiter value).1 = true ↔
        4 ≤ value.length ∧ "\x7b\x7b".toList <+: value ∧ value[2]? ≠ some '\x7b'
          ∧ "\x7d\x7d".toList <:+ value ∧ value.reverse[2]? ≠ some '\x7d'
          ∧ trimSpace (interior value) ≠ [])
    ∧ ((stringHasDelimiter value).1 = true →
        (stringHasDelimiter value).2 = trimSpace (interior value))
    ∧ ((stringHasDelimiter value).1 = false → (stringHasDelimiter value).2 = [])
    ∧ stringHasDelimiter "\x7b\x7b .value \x7d\x7d".toList = (true, ".value".toList)
    ∧ (stringHasDelimiter "\x7b\x7b  \x7d\x7d".toList).1 = false
    ∧ (stringHasDelimiter "plain text".toList).1 = false
    ∧ (stringHasDelimiter "\x7b\x7b\x7bx\x7d\x7d".toList).1 = false := by
  refine ⟨?_, ?_, ?_, by decide, by decide, by decide, by decide⟩
  · by_cases h : "\x7b\x7b".toList <+: value ∧ "\x7d\x7d".toList <:+ value
    · obtain ⟨mid, rfl⟩ := delimited_shape value h.1 h.2
      rw [stringHasDelimiter_shape, interior_shape]
      have t1 := third_char_shape mid
      have t2 := third_last_shape mid
      by_cases a : mid.head? = some '\x7b'
      · simp only [a, true_or, if_true]
        exact ⟨fun hf => absurd hf (by simp), fun hc => absurd (t1.mpr a) hc.2.2.1⟩
      · by_cases b : mid.getLast? = some '\x7d'
        · simp only [b, or_true, if_true]
          exact ⟨fun hf => absurd hf (by simp), fun hc => absurd (t2.mpr b) hc.2.2.2.2.1⟩
        · have n1 := mt t1.mp a
          have n2 := mt t2.mp b
          simp only [a, b, or_self, if_false, decide_eq_true_eq]
          constructor
          · intro ht
            exact ⟨by simp, h.1, n1, h.2, n2, ht⟩
          · intro ht
            exact ht.2.2.2.2.2
    · rw [stringHasDelimiter_of_not value h]
      constructor
      · intro hf; exact absurd hf (by simp)
      · intro hc; exact absurd ⟨hc.2.1, hc.2.2.2.1⟩ h
  · by_cases h : "\x7b\x7b".toList <+: value ∧ "\x7d\x7d".toList <:+ value
    · obtain ⟨mid, rfl⟩ := delimited_shape value h.1 h.2
      rw [stringHasDelimiter_shape, interior_shape]
      split <;> simp
    · rw [stringHasDelimiter_of_not value h]; simp
  · by_cases h : "\x7b\x7b".toList <+: value ∧ "\x7d\x7d".toList <:+ value
    · obtain ⟨mid, rfl⟩ := delimited_shape value h.1 h.2
      rw [stringHasDelimiter_shape]
      split
      · simp
      · intro hf
        simpa using hf
    · rw [stringHasDelimiter_of_not value h]; simp

theorem delimiterLogicAndCleanup_of_not (value : Str)
    (h : ¬ ("\x7b\x7b".toList <+: value ∧ "\x7d\x7d".toList <:+ value)) :
    delimiterLogicAndCleanup value = ⟨actionType.Invalid, [], []⟩ := by
  unfold delimiterLogicAndCleanup
  rw [stringHasDelimiter_of_not value h]
  simp

/-- C10, as the code has it. The classifier looks at the leaf as given and
never trims it: a leaf with whitespace in front of or behind the braces is
Invalid, whatever stands between the whitespace. -/
theorem delimiterLogicAndCleanup_outer_space (s w1 w2 : Str)
    (hw1 : ∀ c ∈ w1, isSpace c = true) (hw2 : ∀ c ∈ w2, isSpace c = true)
    (hne : w1 ≠ [] ∨ w2 ≠ []) :
    delimiterLogicAndCleanup (w1 ++ s ++ w2) = ⟨actionType.Invalid, [], []⟩ := by
  apply delimiterLogicAndCleanup_of_not
  rintro ⟨hp, hs⟩
  rcases hne with h | h
  · obtain ⟨c, w, rfl⟩ := List.exists_cons_of_ne_nil h
    have hc := hw1 c (by simp)
    obtain ⟨t, ht⟩ := hp
    have : c = '\x7b' := by
      have := congrArg List.head? ht
      simpa using this.symm
    subst this
    exact absurd hc (by decide)
  · rcases List.eq_nil_or_concat w2 with h2 | ⟨w, c, h2⟩
    · exact h h2
    · subst h2
      have hc := hw2 c (by simp)
      obtain ⟨t, ht⟩ := hs
      have : c = '\x7d' := by
        have := congrArg List.getLast? ht
        simp [List.concat_eq_append, List.getLast?_append] at this
        exact this.symm
      subst this
      exact absurd hc (by decide)

theorem delimiterLogicAndCleanup_outer_space_witness :
    delimiterLogicAndCleanup (" ".toList ++ "\x7b\x7b .user \x7d\x7d".toList ++ "\t".toList)
      = ⟨actionType.Invalid, [], []⟩ :=
  delimiterLogicAndCleanup_outer_space "\x7b\x7b .user \x7d\x7d".toList " ".toList "\t".toList
    (by decide) (by decide) (by decide)

/-- C10 fails as stated: the leaf with a space on either side of the braces
is Invalid, while the same leaf without them is a dot-reference to `user`. -/
theorem delimiterLogicAndCleanup_trim_counterexample :
    delimiterLogicAndCleanup (" ".toList ++ "\x7b\x7b .user \x7d\x7d".toList ++ " ".toList)
        = ⟨actionType.Invalid, [], []⟩
      ∧ delimiterLogicAndCleanup "\x7b\x7b .user \x7d\x7d".toList
        = ⟨actionType.DotString, "user".toList, []⟩
      ∧ delimiterLogicAndCleanup (" ".toList ++ "\x7b\x7b .user \x7d\x7d".toList ++ " ".toList)
        ≠ delimiterLogicAndCleanup "\x7b\x7b .user \x7d\x7d".toList := by
  decide

/-- The loop of `parsePath` fails exactly when one of the segments is blank. -/
theorem parseSegments_error_iff (arrayKey : Str → Bool × Str × Int) (segs : List Str) :
    ∀ (i : Nat) (keys : List Token),
      (∃ e, parseSegments arrayKey segs i keys = .error e)
        ↔ ∃ seg ∈ segs, trimSpace seg = [] := by
  induction segs with
  | nil => intro i keys; simp [parseSegments]
  | cons seg rest ih =>
    intro i keys
    unfold parseSegments
    by_cases h : trimSpace seg = []
    · simp [h]
    · simp only [h, if_false]
      by_cases a : (arrayKey (trimSpace seg)).1 = true
      · simp only [a, if_true]
        rw [ih]
        simp [h]
      · simp only [a, Bool.false_eq_true, if_false]
        rw [ih]
        simp [h]

theorem except_ok_or_error {ε α : Type} (x : Except ε α) :
    (∃ a, x = .ok a) ∨ ∃ e, x = .error e := by
  cases x with
  | ok a => exact Or.inl ⟨a, rfl⟩
  | error e => exact Or.inr ⟨e, rfl⟩

/-- C8. `parsePath` returns an error exactly when the path is empty or one of
its `->`-separated pieces is blank, whatever the array-key matcher does, and
returns a token list in every other case; the two failing examples of the
specification are included. -/
theorem parsePath_error_iff (arrayKey : Str → Bool × Str × Int) (p : Str) :
    ((∃ e, parsePathWith arrayKey p = .error e)
        ↔ p = [] ∨ ∃ seg ∈ stringsSplit p "->".toList, trimSpace seg = [])
    ∧ ((∃ e, parsePath p = .error e)
        ↔ p = [] ∨ ∃ seg ∈ stringsSplit p "->".toList, trimSpace seg = [])
    ∧ (¬ (p = [] ∨ ∃ seg ∈ stringsSplit p "->".toList, trimSpace seg = [])
        → ∃ toks, parsePath p = .ok toks)
    ∧ parsePath "".toList = .error Fault.emptyPath
    ∧ parsePath "a ->  -> c".toList = .error (Fault.emptyKey 2) := by
  have key : ∀ ak : Str → Bool × Str × Int, (∃ e, parsePathWith ak p = .error e)
        ↔ p = [] ∨ ∃ seg ∈ stringsSplit p "->".toList, trimSpace seg = [] := by
    intro ak
    unfold parsePathWith
    by_cases h : p = []
    · subst h; simp [utf8Len]
    · have h0 : ¬ utf8Len p = 0 := fun e => h ((utf8Len_eq_zero p).mp e)
      simp only [h0, if_false, h, false_or]
      exact parseSegments_error_iff ak _ 0 []
  refine ⟨key arrayKey, key ParseArrayKey, ?_, by decide, by decide⟩
  intro hn
  rcases except_ok_or_error (parsePath p) with h | h
  · exact h
  · exact absurd ((key ParseArrayKey).mp h) hn

theorem parsePath_error_iff_witness : ∃ toks, parsePath "a -> b".toList = .ok toks :=
  (parsePath_error_iff ParseArrayKey "a -> b".toList).2.2.1 (by decide)

/-! ### Decimal rendering -/

theorem digitChar_toNat (d : Nat) (h : d < 10) : (digitChar d).toNat = 48 + d := by
  interval_cases d <;> rfl

theorem isDigit_digitChar (d : Nat) (h : d < 10) : isDigit (digitChar d) = true := by
  interval_cases d <;> rfl

theorem atoi_append_single (ds : Str) (c : Char) :
    atoi (ds ++ [c]) = atoi ds * 10 + (c.toNat - 48) := by
  simp [atoi, List.foldl_append]

theorem natDigits_spec : ∀ (fuel n : Nat) (acc : Str), n < fuel →
    ∃ ds, natDigits fuel n acc = ds ++ acc ∧ ds ≠ [] ∧ (∀ c ∈ ds, isDigit c = true)
      ∧ atoi ds = n := by
  intro fuel
  induction fuel with
  | zero => intro n acc h; omega
  | succ f ih =>
    intro n acc h
    unfold natDigits
    by_cases hn : n < 10
    · refine ⟨[digitChar n], ?_, by simp, ?_, ?_⟩
      · simp [hn]
      · intro c hc
        simp only [List.mem_singleton] at hc
        subst hc
        exact isDigit_digitChar n hn
      · simp [atoi, digitChar_toNat n hn]
    · simp only [hn, if_false]
      have h1 : n / 10 < f := by omega
      obtain ⟨ds, e, hne, hd, ha⟩ := ih (n / 10) (digitChar (n % 10) :: acc) h1
      have hm : n % 10 < 10 := Nat.mod_lt _ (by omega)
      refine ⟨ds ++ [digitChar (n % 10)], ?_, by simp, ?_, ?_⟩
      · rw [e]; simp
      · intro c hc
        rcases List.mem_append.mp hc with h2 | h2
        · exact hd c h2
        · simp only [List.mem_singleton] at h2
          subst h2
          exact isDigit_digitChar _ hm
      · rw [atoi_append_single, ha, digitChar_toNat _ hm]
        omega

theorem itoa_spec (n : Nat) :
    itoa n ≠ [] ∧ (∀ c ∈ itoa n, isDigit c = true) ∧ atoi (itoa n) = n := by
  obtain ⟨ds, e, hne, hd, ha⟩ := natDigits_spec (n + 1) n [] (by omega)
  have : itoa n = ds := by simpa [itoa] using e
  rw [this]
  exact ⟨hne, hd, ha⟩

/-! ### Trimming -/

theorem dropWhile_space_append (w r : Str) (hw : ∀ c ∈ w, isSpace c = true)
    (hh : ∀ c, r.head? = some c → isSpace c = false) :
    (w ++ r).dropWhile isSpace = r := by
  induction w with
  | nil =>
    cases r with
    | nil => rfl
    | cons c r' =>
      have := hh c rfl
      simp [List.dropWhile_cons, this]
  | cons a w ih =>
    have ha := hw a (by simp)
    simp only [List.cons_append, List.dropWhile_cons, ha, if_true]
    exact ih (fun c hc => hw c (by simp [hc]))

theorem rdropWhile_space_append (r w : Str) (hw : ∀ c ∈ w, isSpace c = true)
    (hl : ∀ c, r.getLast? = some c → isSpace c = false) :
    (r ++ w).rdropWhile isSpace = r := by
  induction w using List.reverseRecOn with
  | nil =>
    rcases List.eq_nil_or_concat r with h | ⟨r', c, h⟩
    · subst h; rfl
    · subst h
      have := hl c (by simp [List.concat_eq_append])
      simp [List.concat_eq_append, List.rdropWhile_concat, this]
  | append_singleton w a ih =>
    have ha := hw a (by simp)
    rw [← List.append_assoc, List.rdropWhile_concat, if_pos ha]
    exact ih (fun c hc => hw c (by simp [hc]))

/-- Trimming removes whitespace around a text that neither starts nor ends with it. -/
theorem trimSpace_pad (w1 r w2 : Str)
    (hw1 : ∀ c ∈ w1, isSpace c = true) (hw2 : ∀ c ∈ w2, isSpace c = true)
    (hh : ∀ c, r.head? = some c → isSpace c = false)
    (hl : ∀ c, r.getLast? = some c → isSpace c = false) :
    trimSpace (w1 ++ r ++ w2) = r := by
  unfold trimSpace
  by_cases hr : r = []
  · subst hr
    have e : (w1 ++ [] ++ w2).dropWhile isSpace = [] := by
      have := dropWhile_space_append (w1 ++ w2) [] (by
        intro c hc
        rcases List.mem_append.mp hc with h | h
        · exact hw1 c h
        · exact hw2 c h) (by simp)
      simpa using this
    rw [e]; rfl
  · have e : (w1 ++ r ++ w2).dropWhile isSpace = r ++ w2 := by
      rw [List.append_assoc]
      apply dropWhile_space_append w1 (r ++ w2) hw1
      intro c hc
      apply hh c
      cases r with
      | nil => exact absurd rfl hr
      | cons a r' => simpa using hc
    rw [e]
    exact rdropWhile_space_append r w2 hw2 hl

theorem trimSpace_self (r : Str)
    (hh : ∀ c, r.head? = some c → isSpace c = false)
    (hl : ∀ c, r.getLast? = some c → isSpace c = false) :
    trimSpace r = r := by
  have := trimSpace_pad [] r [] (by simp) (by simp) hh hl
  simpa using this

/-! ### Splitting on the arrow -/

theorem isPrefixOf_arrow (c : Char) (cs : Str) :
    "->".toList.isPrefixOf (c :: cs) = (decide (c = '-') && decide (cs.head? = some '>')) := by
  cases cs with
  | nil =>
    by_cases h : c = '-' <;> simp [List.isPrefixOf, h]
  | cons d ds =>
    by_cases h : c = '-' <;> by_cases h2 : d = '>' <;> simp [List.isPrefixOf, h, h2]
    · exact fun e => h2 e.symm
    · exact fun e => h e.symm
    · exact fun e => absurd e.symm h


theorem splitGo_succ (sep : Str) (k : Nat) (c : Char) (cs : Str) :
    splitGo sep (k + 1) (c :: cs) = splitGo sep k cs := by
  rw [splitGo]

theorem splitGo_zero (sep : Str) (c : Char) (cs : Str) :
    splitGo sep 0 (c :: cs) =
      if sep.isPrefixOf (c :: cs) then [] :: splitGo sep (sep.length - 1) cs
      else consHead c (splitGo sep 0 cs) := by
  rw [splitGo]

theorem splitGo_skip (sep : Str) (pre rest : Str) (k : Nat) (h : pre.length = k) :
    splitGo sep k (pre ++ rest) = splitGo sep 0 rest := by
  induction pre generalizing k with
  | nil => subst h; rfl
  | cons c pre ih =>
    subst h
    simp only [List.cons_append, List.length_cons]
    rw [splitGo_succ]
    exact ih _ rfl

theorem hasArrow_cons (c : Char) (cs : Str) :
    hasArrow (c :: cs) = ((decide (c = '-') && decide (cs.head? = some '>')) || hasArrow cs) := by
  rw [hasArrow]

/-- A string without an arrow is a single piece. -/
theorem splitArrow_single (s : Str) (h : hasArrow s = false) :
    splitGo "->".toList 0 s = [s] := by
  induction s with
  | nil => rfl
  | cons c s ih =>
    rw [hasArrow_cons, Bool.or_eq_false_iff] at h
    rw [splitGo_zero, isPrefixOf_arrow, h.1]
    simp only [Bool.false_eq_true, if_false]
    rw [ih h.2]
    rfl

/-- The first arrow after an arrow-free text ends the first piece. -/
theorem splitArrow_append (s rest : Str) (h : hasArrow s = false) :
    splitGo "->".toList 0 (s ++ '-' :: '>' :: rest) = s :: splitGo "->".toList 0 rest := by
  induction s with
  | nil =>
    simp only [List.nil_append]
    rw [splitGo_zero, isPrefixOf_arrow]
    simp only [List.head?_cons, decide_True, Bool.and_self, if_true]
    have : "->".toList.length - 1 = 1 := rfl
    rw [this, splitGo_succ]
  | cons c s ih =>
    rw [hasArrow_cons, Bool.or_eq_false_iff] at h
    simp only [List.cons_append]
    rw [splitGo_zero, isPrefixOf_arrow]
    have hb : (decide (c = '-') && decide ((s ++ '-' :: '>' :: rest).head? = some '>')) = false := by
      cases s with
      | nil => simp
      | cons d s' => simpa using h.1
    rw [hb]
    simp only [Bool.false_eq_true, if_false]
    rw [ih h.2]
    rfl

theorem hasArrow_append (a b : Str) (ha : hasArrow a = false) (hb : hasArrow b = false)
    (hj : a.getLast? ≠ some '-' ∨ b.head? ≠ some '>') : hasArrow (a ++ b) = false := by
  induction a with
  | nil => simpa using hb
  | cons c a ih =>
    rw [hasArrow_cons, Bool.or_eq_false_iff] at ha
    simp only [List.cons_append]
    rw [hasArrow_cons, Bool.or_eq_false_iff]
    cases a with
    | nil =>
      refine ⟨?_, by simpa using hb⟩
      rcases hj with h | h
      · have : ¬ c = '-' := by simpa using h
        simp [this]
      · simp only [List.nil_append]
        simp [h]
    | cons d a' =>
      refine ⟨by simpa using ha.1, ?_⟩
      apply ih ha.2
      rcases hj with h | h
      · left; simpa [List.getLast?_cons_cons] using h
      · right; exact h

theorem hasArrow_of_no_dash (s : Str) (h : ∀ c ∈ s, c ≠ '-') : hasArrow s = false := by
  induction s with
  | nil => rfl
  | cons c s ih =>
    rw [hasArrow_cons, Bool.or_eq_false_iff]
    have hc : ¬ c = '-' := h c (by simp)
    exact ⟨by simp [hc], ih (fun x hx => h x (by simp [hx]))⟩

theorem takeWhile_append_stop {α : Type} (p : α → Bool) (a : List α) (b : α) (c : List α)
    (ha : ∀ x ∈ a, p x = true) (hb : p b = false) :
    (a ++ b :: c).takeWhile p = a ∧ (a ++ b :: c).dropWhile p = b :: c := by
  induction a with
  | nil => simp [List.takeWhile_cons, List.dropWhile_cons, hb]
  | cons x a ih =>
    have hx := ha x (by simp)
    have := ih (fun y hy => ha y (by simp [hy]))
    simp [List.takeWhile_cons, List.dropWhile_cons, hx, this.1, this.2]

/-- The modelled `ParseArrayKey` recognises a rendered `key[index]`. -/
theorem ParseArrayKey_render (k : Str) (i : Nat) (hk : k ≠ []) :
    ParseArrayKey (k ++ "[".toList ++ itoa i ++ "]".toList) = (true, k, Int.ofNat i) := by
  obtain ⟨hne, hd, ha⟩ := itoa_spec i
  have hrev : (k ++ "[".toList ++ itoa i ++ "]".toList).reverse
      = ']' :: ((itoa i).reverse ++ '[' :: k.reverse) := by
    simp
  have hs := takeWhile_append_stop isDigit (itoa i).reverse '[' k.reverse
    (fun x hx => hd x (List.mem_reverse.mp hx)) (by decide)
  unfold ParseArrayKey
  simp only [hrev, List.drop_succ_cons, List.drop_zero, hs.1, hs.2, List.head?_cons,
    List.reverse_reverse, ha]
  simp [hne, hk]

theorem goodKey_iff (k : Str) :
    goodKey k = true ↔
      k ≠ [] ∧ (∀ c, k.head? = some c → isSpace c = false)
        ∧ (∀ c, k.getLast? = some c → isSpace c = false)
        ∧ hasArrow k = false ∧ (ParseArrayKey k).1 = false := by
  unfold goodKey
  cases k with
  | nil => simp
  | cons a k =>
    simp only [Bool.and_eq_true, Bool.not_eq_true', ne_eq, not_false_eq_true,
      true_and, List.isEmpty_cons, reduceCtorEq]
    constructor
    · rintro ⟨⟨⟨h1, h2⟩, h3⟩, h4⟩
      refine ⟨?_, ?_, h3, h4⟩
      · intro c hc
        simp only [List.head?_cons, Option.some.injEq] at hc
        subst hc
        simpa using h1
      · intro c hc
        rw [hc] at h2
        simpa using h2
    · rintro ⟨h1, h2, h3, h4⟩
      refine ⟨⟨⟨?_, ?_⟩, h3⟩, h4⟩
      · simpa using h1 a rfl
      · cases hl : (a :: k).getLast? with
        | none => rfl
        | some c => simpa using h2 c hl

theorem plainKey_good (k : Str) (h : plainKey k = true) : goodKey k = true := by
  unfold plainKey at h
  simp only [Bool.and_eq_true, Bool.not_eq_true', List.all_eq_true, decide_eq_false_iff_not] at h
  obtain ⟨⟨h1, h2⟩, h3⟩ := h
  rw [goodKey_iff]
  have hne : k ≠ [] := by
    intro e; subst e; simp at h1
  refine ⟨hne, ?_, ?_, h3, ?_⟩
  · intro c hc
    exact (h2 c (List.mem_of_mem_head? hc)).1.1
  · intro c hc
    exact (h2 c (List.mem_of_mem_getLast? hc)).1.1
  · unfold ParseArrayKey
    have : ¬ (k.reverse.head? = some ']') := by
      intro e
      have hm : ']' ∈ k := by
        have := List.mem_of_mem_head? e
        exact List.mem_reverse.mp this
      exact (h2 ']' hm).2 rfl
    simp only [this, decide_False, Bool.false_and, Bool.false_eq_true, if_false]

/-- What a rendered segment of a good key looks like to the parser. -/
theorem renderSegment_facts (s : Segment) (hg : goodKey s.key = true) :
    (∀ c, (renderSegment s).head? = some c → isSpace c = false)
      ∧ (∀ c, (renderSegment s).getLast? = some c → isSpace c = false)
      ∧ hasArrow (renderSegment s) = false
      ∧ renderSegment s ≠ []
      ∧ (if (ParseArrayKey (renderSegment s)).1 then
            [Token.key (ParseArrayKey (renderSegment s)).2.1,
              Token.idx (ParseArrayKey (renderSegment s)).2.2]
          else [Token.key (renderSegment s)]) = segmentTokens s := by
  obtain ⟨k, oi⟩ := s
  obtain ⟨hne, hh, hl, ha, hp⟩ := (goodKey_iff k).mp hg
  cases oi with
  | none =>
    simp only [renderSegment, segmentTokens]
    exact ⟨hh, hl, ha, hne, by simp [hp]⟩
  | some i =>
    obtain ⟨ine, idg, _⟩ := itoa_spec i
    simp only [renderSegment, segmentTokens]
    refine ⟨?_, ?_, ?_, ?_, ?_⟩
    · intro c hc
      apply hh c
      cases k with
      | nil => exact absurd rfl hne
      | cons a k => simpa using hc
    · intro c hc
      have e : (k ++ "[".toList ++ itoa i ++ "]".toList).getLast? = some ']' :=
        List.getLast?_concat _
      rw [e] at hc
      cases hc
      decide
    · rw [List.append_assoc, List.append_assoc]
      apply hasArrow_append k _ ha
      · apply hasArrow_of_no_dash
        intro c hc
        simp only [List.mem_append, String.toList, List.mem_singleton] at hc
        rcases hc with h | h | h
        · subst h; decide
        · intro e; subst e
          exact absurd (idg _ h) (by decide)
        · subst h; decide
      · right; simp
    · simp
    · rw [ParseArrayKey_render k i hne]
      simp

theorem parseSegments_step (seg : Str) (rest : List Str) (i : Nat) (acc : List Token)
    (s : Segment) (hg : goodKey s.key = true) (ht : trimSpace seg = renderSegment s) :
    parseSegments ParseArrayKey (seg :: rest) i acc
      = parseSegments ParseArrayKey rest (i + 1) (acc ++ segmentTokens s) := by
  obtain ⟨_, _, _, hne, hp⟩ := renderSegment_facts s hg
  rw [parseSegments]
  simp only [ht, hne, if_false]
  rw [← hp]
  split <;> simp

theorem space_facts (w : Str) (hw : ∀ c ∈ w, c = ' ') :
    (∀ c ∈ w, isSpace c = true) ∧ hasArrow w = false ∧ w.getLast? ≠ some '-' := by
  refine ⟨?_, ?_, ?_⟩
  · intro c hc; rw [hw c hc]; rfl
  · apply hasArrow_of_no_dash
    intro c hc; rw [hw c hc]; decide
  · intro e
    have := hw _ (List.mem_of_mem_getLast? e)
    exact absurd this (by decide)

/-- The loop of `parsePath`, run on the pieces of a rendered path, gives back
the tokens of the segments. -/
theorem parseSegments_render (segs : List Segment) (hne : segs ≠ [])
    (hg : ∀ s ∈ segs, goodKey s.key = true) :
    ∀ (w : Str) (_ : ∀ c ∈ w, c = ' ') (i : Nat) (acc : List Token),
      parseSegments ParseArrayKey
          (splitGo "->".toList 0 (w ++ joinArrow (segs.map renderSegment))) i acc
        = .ok (acc ++ flattenSegments segs) := by
  induction segs with
  | nil => exact absurd rfl hne
  | cons s rest ih =>
    intro w hw i acc
    obtain ⟨wsp, warr, wlast⟩ := space_facts w hw
    have hs := hg s (by simp)
    obtain ⟨rh, rl, ra, rne, _⟩ := renderSegment_facts s hs
    cases rest with
    | nil =>
      simp only [List.map_cons, List.map_nil, joinArrow, flattenSegments, List.append_nil]
      rw [splitArrow_single _ (hasArrow_append w _ warr ra (Or.inl wlast))]
      rw [parseSegments_step _ _ _ _ s hs (by
        have := trimSpace_pad w (renderSegment s) [] wsp (by simp) rh rl
        simpa using this)]
      rw [parseSegments]
    | cons s2 rest2 =>
      have e : w ++ joinArrow ((s :: s2 :: rest2).map renderSegment)
          = (w ++ renderSegment s ++ [' ']) ++ '-' :: '>' ::
              ([' '] ++ joinArrow ((s2 :: rest2).map renderSegment)) := by
        simp [joinArrow]
      have hpre : hasArrow (w ++ renderSegment s ++ [' ']) = false := by
        apply hasArrow_append _ _ (hasArrow_append w _ warr ra (Or.inl wlast)) (by decide)
        right; decide
      rw [e, splitArrow_append _ _ hpre]
      rw [parseSegments_step _ _ _ _ s hs
        (trimSpace_pad w (renderSegment s) [' '] wsp (by decide) rh rl)]
      rw [ih (by simp) (fun x hx => hg x (by simp [hx])) [' '] (by simp) (i + 1)]
      simp [flattenSegments]

theorem joinArrow_ne_nil (rs : List Str) (hne : rs ≠ []) (h : ∀ r ∈ rs, r ≠ []) :
    joinArrow rs ≠ [] := by
  cases rs with
  | nil => exact absurd rfl hne
  | cons a rest =>
    have ha := h a (by simp)
    cases rest with
    | nil => simpa [joinArrow] using ha
    | cons b rest2 => simp [joinArrow, ha]

/-- `parsePath` gives back the tokens of a path rendered from good keys. -/
theorem parsePath_render (segs : List Segment) (hne : segs ≠ [])
    (hg : ∀ s ∈ segs, goodKey s.key = true) :
    parsePath (joinArrow (segs.map renderSegment)) = .ok (flattenSegments segs) := by
  unfold parsePath parsePathWith
  have h0 : ¬ utf8Len (joinArrow (segs.map renderSegment)) = 0 := by
    rw [utf8Len_eq_zero]
    apply joinArrow_ne_nil _ (by simpa using hne)
    intro r hr
    obtain ⟨s, hs, rfl⟩ := List.mem_map.mp hr
    exact (renderSegment_facts s (hg s hs)).2.2.2.1
  simp only [h0, if_false, stringsSplit]
  have := parseSegments_render segs hne hg [] (by simp) 0 []
  simpa using this

/-- C7. `parsePath` inverts the rendering of paths: a non-empty list of
segments with plain keys, each rendered as `key` or `key[index]` and joined
with ` -> `, parses to exactly its tokens, each index right after its key;
the specification's example is included. -/
theorem parsePath_inverts_render (segs : List Segment) (hne : segs ≠ [])
    (hk : ∀ s ∈ segs, plainKey s.key = true) :
    parsePath (joinArrow (segs.map renderSegment)) = .ok (flattenSegments segs)
      ∧ parsePath "a -> b[2] -> c".toList
          = .ok [Token.key "a".toList, Token.key "b".toList, Token.idx 2, Token.key "c".toList] :=
  ⟨parsePath_render segs hne (fun s hs => plainKey_good _ (hk s hs)), by decide⟩

theorem parsePath_inverts_render_witness :
    parsePath (joinArrow ([⟨"a".toList, none⟩, ⟨"b".toList, some 2⟩, ⟨"c".toList, none⟩].map
        renderSegment))
      = .ok (flattenSegments [⟨"a".toList, none⟩, ⟨"b".toList, some 2⟩, ⟨"c".toList, none⟩]) :=
  (parsePath_inverts_render [⟨"a".toList, none⟩, ⟨"b".toList, some 2⟩, ⟨"c".toList, none⟩]
    (by decide) (by decide)).1

theorem lookup_setKey_self (k : Str) (v : Value) (m : Doc) :
    lookup k (setKey k v m) = some v := by
  induction m with
  | nil => simp [setKey, lookup]
  | cons e m ih =>
    obtain ⟨k', v'⟩ := e
    by_cases h : k' = k
    · simp [setKey, lookup, h]
    · simp [setKey, lookup, h, ih]

theorem follow_key (k : Str) (rest : List Token) (m : Doc) :
    follow (Token.key k :: rest) (.map m)
      = match lookup k m with
        | some v => follow rest v
        | none => none := by
  rw [follow]

theorem follow_idx (i : Int) (rest : List Token) (xs : List Value) :
    follow (Token.idx i :: rest) (.list xs)
      = if i < 0 then none
        else match xs[i.toNat]? with
          | some v => follow rest v
          | none => none := by
  rw [follow]

theorem follow_key_inv (k : Str) (rest : List Token) (cur old : Value)
    (h : follow (Token.key k :: rest) cur = some old) :
    ∃ m v, cur = .map m ∧ lookup k m = some v ∧ follow rest v = some old := by
  cases cur with
  | map m =>
    rw [follow_key] at h
    cases hl : lookup k m with
    | none => rw [hl] at h; exact absurd h (by simp)
    | some v => rw [hl] at h; exact ⟨m, v, rfl, hl, h⟩
  | null => simp [follow] at h
  | bool b => simp [follow] at h
  | num n => simp [follow] at h
  | str s => simp [follow] at h
  | list xs => simp [follow] at h

theorem follow_idx_inv (i : Int) (rest : List Token) (cur old : Value)
    (h : follow (Token.idx i :: rest) cur = some old) :
    ∃ xs v, cur = .list xs ∧ 0 ≤ i ∧ i.toNat < xs.length ∧ xs[i.toNat]? = some v
      ∧ follow rest v = some old := by
  cases cur with
  | list xs =>
    rw [follow_idx] at h
    by_cases hi : i < 0
    · simp [hi] at h
    · simp only [hi, if_false] at h
      cases hl : xs[i.toNat]? with
      | none => rw [hl] at h; exact absurd h (by simp)
      | some v =>
        rw [hl] at h
        have hlt : i.toNat < xs.length := by
          obtain ⟨hlt, _⟩ := List.getElem?_eq_some_iff.mp hl
          exact hlt
        exact ⟨xs, v, rfl, by omega, hlt, hl, h⟩
  | null => simp [follow] at h
  | bool b => simp [follow] at h
  | num n => simp [follow] at h
  | str s => simp [follow] at h
  | map m => simp [follow] at h

/-- The write of `setValueOnAfterMap` at an addressed slot: it succeeds, and
the slot then holds the guarded candidate. -/
theorem setValueAt_follow (c : Value) :
    ∀ (path : List Token) (cur old : Value), path ≠ [] → follow path cur = some old →
      ∃ cur', setValueAt path cur c = .ok cur'
        ∧ follow path cur' = some (guarded (some old) c)
        ∧ ((∃ m, cur = .map m) → ∃ m', cur' = .map m') := by
  intro path
  induction path with
  | nil => intro cur old h; exact absurd rfl h
  | cons t rest ih =>
    intro cur old _ hf
    cases t with
    | key k =>
      obtain ⟨m, v, rfl, hl, hr⟩ := follow_key_inv k rest cur old hf
      rw [setValueAt]
      by_cases hrest : rest = []
      · subst hrest
        simp only [follow] at hr
        cases hr
        refine ⟨.map (setKey k (guarded (lookup k m) c) m), by simp, ?_, fun _ => ⟨_, rfl⟩⟩
        rw [follow_key, lookup_setKey_self, hl]
        simp [follow]
      · obtain ⟨v', hs, hf', _⟩ := ih v old hrest hr
        have he : rest.isEmpty = false := by
          cases rest with
          | nil => exact absurd rfl hrest
          | cons _ _ => rfl
        refine ⟨.map (setKey k v' m), ?_, ?_, fun _ => ⟨_, rfl⟩⟩
        · simp [he, hl, hs]
        · rw [follow_key, lookup_setKey_self]
          exact hf'
    | idx i =>
      obtain ⟨xs, v, rfl, h0, hlt, hl, hr⟩ := follow_idx_inv i rest cur old hf
      have hg : ¬ (i < 0 ∨ (xs.length : Int) ≤ i) := by omega
      have hi : ¬ i < 0 := by omega
      rw [setValueAt]
      by_cases hrest : rest = []
      · subst hrest
        simp only [follow] at hr
        cases hr
        refine ⟨.list (xs.set i.toNat (guarded xs[i.toNat]? c)), by simp [hg], ?_, fun h => ?_⟩
        · rw [follow_idx]
          simp [hi, hl, hlt, follow]
        · obtain ⟨m, hm⟩ := h
          cases hm
      · obtain ⟨v', hs, hf', _⟩ := ih v old hrest hr
        have he : rest.isEmpty = false := by
          cases rest with
          | nil => exact absurd rfl hrest
          | cons _ _ => rfl
        have hd : xs[i.toNat]?.getD Value.null = v := by
          simp [hl]
        refine ⟨.list (xs.set i.toNat v'), ?_, ?_, fun h => ?_⟩
        · simp only [hg, he, if_false, Bool.false_eq_true, hd, hs]
        · rw [follow_idx]
          simp [hi, hlt, hf']
        · obtain ⟨m, hm⟩ := h
          cases hm

theorem setValueOnAfterMap_follow (path : List Token) (afterMap : Doc) (c old : Value)
    (hne : path ≠ []) (hf : follow path (.map afterMap) = some old) :
    ∃ m', setValueOnAfterMap path afterMap c = .ok m'
      ∧ follow path (.map m') = some (guarded (some old) c) := by
  obtain ⟨cur', hs, hf', hm⟩ := setValueAt_follow c path (.map afterMap) old hne hf
  obtain ⟨m', rfl⟩ := hm ⟨afterMap, rfl⟩
  exact ⟨m', by simp [setValueOnAfterMap, hs], hf'⟩

/-- C2. For a token path that addresses an existing slot of the destination
and any candidate, `setValueOnAfterMap` returns normally, and afterwards the
slot holds the candidate if it held the candidate's `%v` text, its previous
string if it held another string, and the candidate if it held a value that is
not a string. The last conjunct is the example: the text `42` under a number
candidate 42 becomes the number. -/
theorem setValueOnAfterMap_slot (path : List Token) (afterMap : Doc) (c old : Value)
    (hne : path ≠ []) (hf : follow path (.map afterMap) = some old) :
    (∃ m', setValueOnAfterMap path afterMap c = .ok m'
      ∧ (∀ s, old = .str s → s = sprintV c → follow path (.map m') = some c)
      ∧ (∀ s, old = .str s → s ≠ sprintV c → follow path (.map m') = some (.str s))
      ∧ ((∀ s, old ≠ .str s) → follow path (.map m') = some c))
    ∧ setValueOnAfterMap [Token.key "n".toList] [("n".toList, .str "42".toList)] (.num 42)
        = .ok [("n".toList, .num 42)] := by
  refine ⟨?_, by decide⟩
  obtain ⟨m', hs, hf'⟩ := setValueOnAfterMap_follow path afterMap c old hne hf
  refine ⟨m', hs, ?_, ?_, ?_⟩
  · intro s ho he
    rw [hf', ho]
    simp [guarded, swapValue, he]
  · intro s ho he
    rw [hf', ho]
    simp [guarded, swapValue, he]
  · intro ho
    rw [hf']
    cases old with
    | str s => exact absurd rfl (ho s)
    | null => rfl
    | bool b => rfl
    | num n => rfl
    | list xs => rfl
    | map m => rfl

theorem setValueOnAfterMap_slot_witness :
    ∃ m', setValueOnAfterMap [Token.key "items".toList, Token.idx 0, Token.key "v".toList]
        [("items".toList, .list [.map [("v".toList, .str "7".toList)]])] (.num 7) = .ok m'
      ∧ follow [Token.key "items".toList, Token.idx 0, Token.key "v".toList] (.map m')
          = some (.num 7) := by
  obtain ⟨m', hs, h1, _, _⟩ :=
    (setValueOnAfterMap_slot [Token.key "items".toList, Token.idx 0, Token.key "v".toList]
      [("items".toList, .list [.map [("v".toList, .str "7".toList)]])] (.num 7)
      (.str "7".toList) (by decide) (by decide)).1
  exact ⟨m', hs, h1 "7".toList rfl (by decide)⟩

/-- One dot-reference whose identifier is not in the table: the loop goes on
with the destination as it was. -/
theorem translateDotStrings_skip (secretsMap : Doc) (e : EachDotStringAction)
    (rest : List EachDotStringAction) (afterMap : Doc)
    (hk : lookup e.KeyName secretsMap = none) (hp : (parsePath e.Path).toBool = true) :
    translateDotStrings secretsMap (e :: rest) afterMap
      = translateDotStrings secretsMap rest afterMap := by
  obtain ⟨toks, ht⟩ : ∃ toks, parsePath e.Path = .ok toks := by
    cases h : parsePath e.Path with
    | ok t => exact ⟨t, rfl⟩
    | error x => rw [h] at hp; exact absurd hp (by simp [Except.toBool])
  rw [translateDotStrings]
  simp only [ht, hk]
  split <;> rfl

theorem translateDotStrings_all_missing (secretsMap : Doc) (es : List EachDotStringAction)
    (afterMap : Doc)
    (hk : ∀ e ∈ es, lookup e.KeyName secretsMap = none)
    (hp : ∀ e ∈ es, (parsePath e.Path).toBool = true) :
    translateDotStrings secretsMap es afterMap = .ok afterMap := by
  induction es with
  | nil => rfl
  | cons e rest ih =>
    rw [translateDotStrings_skip secretsMap e rest afterMap (hk e (by simp)) (hp e (by simp))]
    exact ih (fun x hx => hk x (by simp [hx])) (fun x hx => hp x (by simp [hx]))

/-- C3. A dot-reference whose identifier is not a key of the table is skipped
without error and without a write; when every placeholder of the source is
such a dot-reference and every discovered path parses, `translateType` returns
the destination exactly as it was, with a nil error. -/
theorem translateType_missing_keys (beforeMap afterMap secretsMap : Doc)
    (getValueOf : Str → Str → Value)
    (hg : (findPathFromMap beforeMap []).GetValueOfs = [])
    (hk : ∀ e ∈ (findPathFromMap beforeMap []).DotStrings, lookup e.KeyName secretsMap = none)
    (hp : ∀ e ∈ (findPathFromMap beforeMap []).DotStrings, (parsePath e.Path).toBool = true) :
    translateType beforeMap afterMap secretsMap getValueOf = .ok afterMap
      ∧ ∀ (e : EachDotStringAction) (rest : List EachDotStringAction),
          lookup e.KeyName secretsMap = none → ((parsePath e.Path).toBool = true) →
          translateDotStrings secretsMap (e :: rest) afterMap
            = translateDotStrings secretsMap rest afterMap := by
  refine ⟨?_, fun e rest h1 h2 => translateDotStrings_skip secretsMap e rest afterMap h1 h2⟩
  unfold translateType
  simp only [translateDotStrings_all_missing secretsMap _ afterMap hk hp, hg]
  rfl

theorem translateType_missing_keys_witness :
    translateType
        [("h".toList, .map [("auth".toList, .str "\x7b\x7b .token \x7d\x7d".toList)])]
        [("h".toList, .map [("auth".toList, .str "\x7b\x7b .token \x7d\x7d".toList)])]
        [("user".toList, .str "abc123".toList)] (fun _ _ => .null)
      = .ok [("h".toList, .map [("auth".toList, .str "\x7b\x7b .token \x7d\x7d".toList)])] :=
  (translateType_missing_keys
    [("h".toList, .map [("auth".toList, .str "\x7b\x7b .token \x7d\x7d".toList)])]
    [("h".toList, .map [("auth".toList, .str "\x7b\x7b .token \x7d\x7d".toList)])]
    [("user".toList, .str "abc123".toList)] (fun _ _ => .null)
    (by decide) (by decide) (by decide)).1

/-! ### Dot-references -/

theorem splitSpace_single (s : Str) (h : ∀ c ∈ s, c ≠ ' ') :
    splitGo " ".toList 0 s = [s] := by
  induction s with
  | nil => rfl
  | cons c s ih =>
    have hc : ¬ c = ' ' := h c (by simp)
    have hc' : ¬ ' ' = c := fun e => hc e.symm
    rw [splitGo_zero]
    have : " ".toList.isPrefixOf (c :: s) = false := by
      simp [List.isPrefixOf, hc']
    rw [this]
    simp only [Bool.false_eq_true, if_false]
    rw [ih (fun x hx => h x (by simp [hx]))]
    rfl

/-- A dot followed by an identifier without whitespace, padded with
whitespace inside the braces, is classified as a dot-reference to the
identifier, provided the closing braces are not directly preceded by a
third one. -/
theorem delimiterLogicAndCleanup_dot (pad1 ident pad2 : Str)
    (h1 : ∀ c ∈ pad1, isSpace c = true) (h2 : ∀ c ∈ pad2, isSpace c = true)
    (hid : ∀ c ∈ ident, isSpace c = false)
    (hlast : (pad1 ++ '.' :: ident ++ pad2).getLast? ≠ some '\x7d') :
    delimiterLogicAndCleanup
        ('\x7b' :: '\x7b' :: ((pad1 ++ '.' :: ident ++ pad2) ++ ['\x7d', '\x7d']))
      = ⟨actionType.DotString, ident, []⟩ := by
  have hhead : (pad1 ++ '.' :: ident ++ pad2).head? ≠ some '\x7b' := by
    cases pad1 with
    | nil => simp
    | cons a p =>
      have := h1 a (by simp)
      intro e
      simp only [List.cons_append, List.head?_cons, Option.some.injEq] at e
      subst e
      exact absurd this (by decide)
  have htrim : trimSpace (pad1 ++ '.' :: ident ++ pad2) = '.' :: ident := by
    have := trimSpace_pad pad1 ('.' :: ident) pad2 h1 h2
      (by
        intro c hc
        simp only [List.head?_cons, Option.some.injEq] at hc
        subst hc; rfl)
      (by
        intro c hc
        have hm := List.mem_of_mem_getLast? hc
        rcases List.mem_cons.mp hm with h | h
        · subst h; rfl
        · exact hid c h)
    simpa using this
  have hsplit : stringsSplit ('.' :: ident) " ".toList = ['.' :: ident] := by
    apply splitSpace_single
    intro c hc
    rcases List.mem_cons.mp hc with h | h
    · subst h; decide
    · intro e
      subst e
      exact absurd (hid _ h) (by decide)
  unfold delimiterLogicAndCleanup
  rw [stringHasDelimiter_shape]
  simp only [hhead, hlast, or_self, if_false, htrim, hsplit]
  simp [hasPrefix, trimPrefix]

theorem delimiterLogicAndCleanup_dotPlaceholder (k : Str) (hk : ∀ c ∈ k, isSpace c = false) :
    delimiterLogicAndCleanup (dotPlaceholder k) = ⟨actionType.DotString, k, []⟩ := by
  have := delimiterLogicAndCleanup_dot [' '] k [' '] (by decide) (by decide) hk
    (by rw [List.getLast?_concat]; decide)
  have e : dotPlaceholder k
      = '\x7b' :: '\x7b' :: (([' '] ++ '.' :: k ++ [' ']) ++ ['\x7d', '\x7d']) := by
    simp [dotPlaceholder]
  rw [e]
  exact this

theorem findPathFromMap_authDoc (k : Str) (hk : ∀ c ∈ k, isSpace c = false) :
    findPathFromMap (authDoc (.str (dotPlaceholder k))) []
      = ⟨[⟨"h -> auth".toList, k⟩], []⟩ := by
  simp [authDoc, findPathFromMap, findPathValue, findPathString,
    delimiterLogicAndCleanup_dotPlaceholder k hk, Path.append]

/-- C1, as the code has it. With source `{"h":{"auth":"{{ .k }}"}}` and table
`{k: v}`, `translateType` returns without error, but against a structural copy
of the source it hands the destination back unchanged: the guard of
`swapValue` keeps a string that differs from the candidate's text. The value
at `h.auth` becomes the table value when the destination holds the `%v` text
of that value there. -/
theorem translateType_structural_copy (k v : Str) (getValueOf : Str → Str → Value)
    (hk : ∀ c ∈ k, isSpace c = false) :
    translateType (authDoc (.str (dotPlaceholder k))) (authDoc (.str (dotPlaceholder k)))
        [(k, .str v)] getValueOf
      = .ok (authDoc (.str (dotPlaceholder k)))
    ∧ ∀ c : Value,
        translateType (authDoc (.str (dotPlaceholder k))) (authDoc (.str (sprintV c)))
            [(k, c)] getValueOf
          = .ok (authDoc c) := by
  have hp : parsePath "h -> auth".toList
      = .ok [Token.key "h".toList, Token.key "auth".toList] := by decide
  constructor
  · unfold translateType
    rw [findPathFromMap_authDoc k hk]
    simp only [translateDotStrings, translateGetValueOfs, hp, lookup]
    by_cases e : dotPlaceholder k = v
    · simp [authDoc, setValueOnAfterMap, setValueAt, lookup, setKey, guarded, swapValue,
        sprintV, e]
    · simp [authDoc, setValueOnAfterMap, setValueAt, lookup, setKey, guarded, swapValue,
        sprintV, e]
  · intro c
    unfold translateType
    rw [findPathFromMap_authDoc k hk]
    simp only [translateDotStrings, translateGetValueOfs, hp, lookup]
    simp [authDoc, setValueOnAfterMap, setValueAt, lookup, setKey, guarded, swapValue]

theorem translateType_structural_copy_witness :
    translateType (authDoc (.str (dotPlaceholder "token".toList)))
        (authDoc (.str (dotPlaceholder "token".toList)))
        [("token".toList, .str "abc123".toList)] (fun _ _ => .null)
      = .ok (authDoc (.str (dotPlaceholder "token".toList))) :=
  (translateType_structural_copy "token".toList "abc123".toList (fun _ _ => .null)
    (by decide)).1

/-- C1 fails as stated: with `k = token`, `v = abc123` and the destination a
structural copy of the source, `translateType` succeeds and the value at
`h.auth` is still the placeholder text, not `abc123`. -/
theorem translateType_round_trip_counterexample :
    translateType
        [("h".toList, .map [("auth".toList, .str "\x7b\x7b .token \x7d\x7d".toList)])]
        [("h".toList, .map [("auth".toList, .str "\x7b\x7b .token \x7d\x7d".toList)])]
        [("token".toList, .str "abc123".toList)] (fun _ _ => .null)
      = .ok [("h".toList, .map [("auth".toList, .str "\x7b\x7b .token \x7d\x7d".toList)])]
    ∧ translateType
        [("h".toList, .map [("auth".toList, .str "\x7b\x7b .token \x7d\x7d".toList)])]
        [("h".toList, .map [("auth".toList, .str "\x7b\x7b .token \x7d\x7d".toList)])]
        [("token".toList, .str "abc123".toList)] (fun _ _ => .null)
      ≠ .ok [("h".toList, .map [("auth".toList, .str "abc123".toList)])] := by
  decide

theorem catalogue_nil (parent : Str) : catalogue parent [] = ⟨[], []⟩ := rfl

theorem catalogue_append (parent : Str) (a b : List (List Segment × Str)) :
    catalogue parent (a ++ b) = (catalogue parent a).append (catalogue parent b) := by
  simp [catalogue, Path.append, List.filterMap_append]

theorem catalogue_cons_segment (parent : Str) (s : Segment) (ls : List (List Segment × Str)) :
    catalogue parent (ls.map (fun e => (s :: e.1, e.2)))
      = catalogue (extendPath parent s) ls := by
  simp only [catalogue, List.filterMap_map]
  congr 1

theorem currentKey_eq (parent k : Str) :
    (if parent ≠ [] then parent ++ " -> ".toList ++ k else k) = extendPath parent ⟨k, none⟩ := by
  simp [extendPath]

theorem arrayKey_eq (parent k : Str) (i : Nat) :
    (if parent ≠ [] then parent ++ " -> ".toList ++ k else k) ++ "[".toList ++ itoa i
        ++ "]".toList = extendPath parent ⟨k, some i⟩ := by
  simp [extendPath]

theorem findPathString_eq (parent k s : Str) :
    findPathString s (extendPath parent ⟨k, none⟩) = catalogue parent [([⟨k, none⟩], s)] := by
  unfold findPathString catalogue
  cases h : (delimiterLogicAndCleanup s).Typ <;>
    simp [dotEntry, getEntry, h, pathString]

mutual
/-- Discovery yields the catalogue of the reachable leaves. -/
theorem findPathFromMap_catalogue : ∀ (m : List (Str × Value)) (parent : Str),
    findPathFromMap m parent = catalogue parent (leaves m)
  | [], parent => by simp [findPathFromMap, leaves, catalogue]
  | (k, v) :: rest, parent => by
    rw [findPathFromMap, leaves, catalogue_append, currentKey_eq,
      findPathValue_catalogue v k parent, findPathFromMap_catalogue rest parent]
theorem findPathValue_catalogue : ∀ (v : Value) (k parent : Str),
    findPathValue v (extendPath parent ⟨k, none⟩) = catalogue parent (leavesValue k v)
  | .str s, k, parent => by
    rw [findPathValue, leavesValue, findPathString_eq]
  | .map m, k, parent => by
    rw [findPathValue, leavesValue, catalogue_cons_segment,
      findPathFromMap_catalogue m _]
  | .list xs, k, parent => by
    rw [findPathValue, leavesValue]
    exact findPathSlice_catalogue xs k parent 0
  | .null, k, parent => by simp [findPathValue, leavesValue, catalogue]
  | .bool _, k, parent => by simp [findPathValue, leavesValue, catalogue]
  | .num _, k, parent => by simp [findPathValue, leavesValue, catalogue]
theorem findPathSlice_catalogue : ∀ (xs : List Value) (k parent : Str) (i : Nat),
    findPathSlice xs (extendPath parent ⟨k, none⟩) i = catalogue parent (leavesSlice k xs i)
  | [], k, parent, i => by simp [findPathSlice, leavesSlice, catalogue]
  | v :: rest, k, parent, i => by
    have ih := findPathSlice_catalogue rest k parent (i + 1)
    cases v with
    | map m =>
      rw [findPathSlice, leavesSlice, catalogue_append, ih]
      rw [catalogue_cons_segment, findPathFromMap_catalogue m _]
      simp [extendPath]
    | null => simp [findPathSlice, leavesSlice, ih, catalogue, Path.append]
    | bool _ => simp [findPathSlice, leavesSlice, ih, catalogue, Path.append]
    | num _ => simp [findPathSlice, leavesSlice, ih, catalogue, Path.append]
    | str _ => simp [findPathSlice, leavesSlice, ih, catalogue, Path.append]
    | list _ => simp [findPathSlice, leavesSlice, ih, catalogue, Path.append]
end

/-! ### The enumeration of leaves is the reachability relation -/

theorem leaves_cons (k : Str) (v : Value) (rest : List (Str × Value)) :
    leaves ((k, v) :: rest) = leavesValue k v ++ leaves rest := by
  rw [leaves]

theorem leavesSlice_cons_map (k : Str) (m : Doc) (rest : List Value) (i : Nat) :
    leavesSlice k (.map m :: rest) i
      = (leaves m).map (fun e => ((⟨k, some i⟩ : Segment) :: e.1, e.2))
          ++ leavesSlice k rest (i + 1) := by
  rw [leavesSlice]

theorem leavesSlice_cons_other (k : Str) (v : Value) (rest : List Value) (i : Nat)
    (h : ∀ m, v ≠ .map m) :
    leavesSlice k (v :: rest) i = leavesSlice k rest (i + 1) := by
  cases v with
  | map m => exact absurd rfl (h m)
  | null => simp [leavesSlice]
  | bool _ => simp [leavesSlice]
  | num _ => simp [leavesSlice]
  | str _ => simp [leavesSlice]
  | list _ => simp [leavesSlice]

theorem Reaches.mono {m m' : Doc} {p : List Segment} {s : Str}
    (h : ∀ e ∈ m, e ∈ m') (r : Reaches m p s) : Reaches m' p s := by
  cases r with
  | leaf hm => exact Reaches.leaf (h _ hm)
  | inMap hm r' => exact Reaches.inMap (h _ hm) r'
  | inSeq hm hx r' => exact Reaches.inSeq (h _ hm) hx r'

mutual
theorem leaves_sound : ∀ (m : List (Str × Value)) (p : List Segment) (s : Str),
    (p, s) ∈ leaves m → Reaches m p s
  | [], p, s, h => by simp [leaves] at h
  | (k, v) :: rest, p, s, h => by
    rw [leaves_cons] at h
    rcases List.mem_append.mp h with h1 | h1
    · exact leavesValue_sound v k p s h1 _ (by simp)
    · exact Reaches.mono (fun e he => by simp [he]) (leaves_sound rest p s h1)
theorem leavesValue_sound : ∀ (v : Value) (k : Str) (p : List Segment) (s : Str),
    (p, s) ∈ leavesValue k v → ∀ m0 : Doc, (k, v) ∈ m0 → Reaches m0 p s
  | .str t, k, p, s, h, m0, hm => by
    simp only [leavesValue, List.mem_singleton, Prod.mk.injEq] at h
    obtain ⟨rfl, rfl⟩ := h
    exact Reaches.leaf hm
  | .map m, k, p, s, h, m0, hm => by
    simp only [leavesValue, List.mem_map] at h
    obtain ⟨⟨p', s'⟩, he, heq⟩ := h
    simp only [Prod.mk.injEq] at heq
    obtain ⟨rfl, rfl⟩ := heq
    exact Reaches.inMap hm (leaves_sound m p' s' he)
  | .list xs, k, p, s, h, m0, hm => by
    rw [leavesValue] at h
    obtain ⟨j, m', p', hx, rfl, hr⟩ := leavesSlice_sound xs k 0 p s h
    rw [Nat.zero_add]
    exact Reaches.inSeq hm hx hr
  | .null, k, p, s, h, m0, hm => by simp [leavesValue] at h
  | .bool _, k, p, s, h, m0, hm => by simp [leavesValue] at h
  | .num _, k, p, s, h, m0, hm => by simp [leavesValue] at h
theorem leavesSlice_sound : ∀ (xs : List Value) (k : Str) (i0 : Nat) (p : List Segment) (s : Str),
    (p, s) ∈ leavesSlice k xs i0 →
      ∃ j m' p', xs[j]? = some (.map m') ∧ p = ⟨k, some (i0 + j)⟩ :: p' ∧ Reaches m' p' s
  | [], k, i0, p, s, h => by simp [leavesSlice] at h
  | v :: rest, k, i0, p, s, h => by
    have ih := leavesSlice_sound rest k (i0 + 1) p s
    cases v with
    | map m =>
      rw [leavesSlice_cons_map] at h
      rcases List.mem_append.mp h with h1 | h1
      · simp only [List.mem_map] at h1
        obtain ⟨⟨p', s'⟩, he, heq⟩ := h1
        simp only [Prod.mk.injEq] at heq
        obtain ⟨rfl, rfl⟩ := heq
        exact ⟨0, m, p', by simp, by simp, leaves_sound m p' s' he⟩
      · obtain ⟨j, m', p', hx, hp, hr⟩ := ih h1
        exact ⟨j + 1, m', p', by simpa using hx, by rw [hp, Nat.add_assoc, Nat.add_comm 1 j], hr⟩
    | null =>
      rw [leavesSlice_cons_other _ _ _ _ (by simp)] at h
      obtain ⟨j, m', p', hx, hp, hr⟩ := ih h
      exact ⟨j + 1, m', p', by simpa using hx, by rw [hp, Nat.add_assoc, Nat.add_comm 1 j], hr⟩
    | bool _ =>
      rw [leavesSlice_cons_other _ _ _ _ (by simp)] at h
      obtain ⟨j, m', p', hx, hp, hr⟩ := ih h
      exact ⟨j + 1, m', p', by simpa using hx, by rw [hp, Nat.add_assoc, Nat.add_comm 1 j], hr⟩
    | num _ =>
      rw [leavesSlice_cons_other _ _ _ _ (by simp)] at h
      obtain ⟨j, m', p', hx, hp, hr⟩ := ih h
      exact ⟨j + 1, m', p', by simpa using hx, by rw [hp, Nat.add_assoc, Nat.add_comm 1 j], hr⟩
    | str _ =>
      rw [leavesSlice_cons_other _ _ _ _ (by simp)] at h
      obtain ⟨j, m', p', hx, hp, hr⟩ := ih h
      exact ⟨j + 1, m', p', by simpa using hx, by rw [hp, Nat.add_assoc, Nat.add_comm 1 j], hr⟩
    | list _ =>
      rw [leavesSlice_cons_other _ _ _ _ (by simp)] at h
      obtain ⟨j, m', p', hx, hp, hr⟩ := ih h
      exact ⟨j + 1, m', p', by simpa using hx, by rw [hp, Nat.add_assoc, Nat.add_comm 1 j], hr⟩
end

theorem mem_leaves_of_mem (m : Doc) (k : Str) (v : Value) (e : List Segment × Str)
    (hm : (k, v) ∈ m) (he : e ∈ leavesValue k v) : e ∈ leaves m := by
  induction m with
  | nil => simp at hm
  | cons a rest ih =>
    obtain ⟨k', v'⟩ := a
    rw [leaves_cons]
    rcases List.mem_cons.mp hm with h | h
    · cases h
      exact List.mem_append_left _ he
    · exact List.mem_append_right _ (ih h)

theorem mem_leavesSlice_of_getElem (k : Str) (xs : List Value) :
    ∀ (i0 j : Nat) (m' : Doc) (e : List Segment × Str), xs[j]? = some (.map m') →
      e ∈ leaves m' → ((⟨k, some (i0 + j)⟩ : Segment) :: e.1, e.2) ∈ leavesSlice k xs i0 := by
  induction xs with
  | nil => intro i0 j m' e h; simp at h
  | cons v rest ih =>
    intro i0 j m' e hx he
    cases j with
    | zero =>
      simp only [List.getElem?_cons_zero, Option.some.injEq] at hx
      subst hx
      rw [leavesSlice_cons_map]
      apply List.mem_append_left
      exact List.mem_map.mpr ⟨e, he, by simp⟩
    | succ j =>
      simp only [List.getElem?_cons_succ] at hx
      have := ih (i0 + 1) j m' e hx he
      have e2 : i0 + (j + 1) = i0 + 1 + j := by omega
      rw [e2]
      cases v with
      | map m => rw [leavesSlice_cons_map]; exact List.mem_append_right _ this
      | null => rw [leavesSlice_cons_other _ _ _ _ (by simp)]; exact this
      | bool _ => rw [leavesSlice_cons_other _ _ _ _ (by simp)]; exact this
      | num _ => rw [leavesSlice_cons_other _ _ _ _ (by simp)]; exact this
      | str _ => rw [leavesSlice_cons_other _ _ _ _ (by simp)]; exact this
      | list _ => rw [leavesSlice_cons_other _ _ _ _ (by simp)]; exact this

theorem leaves_complete {m : Doc} {p : List Segment} {s : Str} (r : Reaches m p s) :
    (p, s) ∈ leaves m := by
  induction r with
  | leaf hm => exact mem_leaves_of_mem _ _ _ _ hm (by simp [leavesValue])
  | inMap hm _ ih =>
    apply mem_leaves_of_mem _ _ _ _ hm
    rw [leavesValue]
    exact List.mem_map.mpr ⟨_, ih, rfl⟩
  | @inSeq m0 m' k s xs i p hm hx _ ih =>
    apply mem_leaves_of_mem _ _ _ _ hm
    rw [leavesValue]
    have := mem_leavesSlice_of_getElem k xs 0 i m' (p, s) hx ih
    simpa using this

/-- The enumerated leaves are exactly the reachable ones. -/
theorem mem_leaves_iff (m : Doc) (p : List Segment) (s : Str) :
    (p, s) ∈ leaves m ↔ Reaches m p s :=
  ⟨leaves_sound m p s, leaves_complete⟩

/-! ### Distinct leaves have distinct positions -/

theorem uniqueKeys_cons (k : Str) (v : Value) (rest : List (Str × Value)) :
    uniqueKeys ((k, v) :: rest) = true ↔
      (∀ e ∈ rest, e.1 ≠ k) ∧ uniqueKeysValue v = true ∧ uniqueKeys rest = true := by
  simp only [uniqueKeys, Bool.and_eq_true, List.all_eq_true, Bool.not_eq_true',
    decide_eq_false_iff_not, and_assoc, ne_eq]

theorem uniqueKeysSlice_cons (v : Value) (rest : List Value) :
    uniqueKeysSlice (v :: rest) = true ↔
      uniqueKeysValue v = true ∧ uniqueKeysSlice rest = true := by
  simp only [uniqueKeysSlice, Bool.and_eq_true]

theorem head_of_leavesSlice (k : Str) (xs : List Value) (i0 : Nat) (p : List Segment) (s : Str)
    (h : (p, s) ∈ leavesSlice k xs i0) : ∃ j p', p = ⟨k, some (i0 + j)⟩ :: p' := by
  obtain ⟨j, _, p', _, hp, _⟩ := leavesSlice_sound xs k i0 p s h
  exact ⟨j, p', hp⟩

theorem head_of_leavesValue (k : Str) (v : Value) (p : List Segment) (s : Str)
    (h : (p, s) ∈ leavesValue k v) : ∃ seg p', p = seg :: p' ∧ seg.key = k := by
  cases v with
  | str t =>
    simp only [leavesValue, List.mem_singleton, Prod.mk.injEq] at h
    exact ⟨_, _, h.1, rfl⟩
  | map m =>
    simp only [leavesValue, List.mem_map, Prod.mk.injEq] at h
    obtain ⟨e, _, he, _⟩ := h
    exact ⟨_, _, he.symm, rfl⟩
  | list xs =>
    rw [leavesValue] at h
    obtain ⟨j, p', hp⟩ := head_of_leavesSlice k xs 0 p s h
    exact ⟨_, _, hp, rfl⟩
  | null => simp [leavesValue] at h
  | bool _ => simp [leavesValue] at h
  | num _ => simp [leavesValue] at h

theorem head_of_leaves (m : Doc) (p : List Segment) (s : Str) (h : (p, s) ∈ leaves m) :
    ∃ seg p', p = seg :: p' ∧ ∃ v, (seg.key, v) ∈ m := by
  have r := leaves_sound m p s h
  cases r with
  | leaf hm => exact ⟨_, _, rfl, _, hm⟩
  | inMap hm _ => exact ⟨_, _, rfl, _, hm⟩
  | inSeq hm _ _ => exact ⟨_, _, rfl, _, hm⟩

theorem nodup_map_cons (seg : Segment) (ls : List (List Segment × Str))
    (h : (ls.map Prod.fst).Nodup) :
    ((ls.map (fun e => (seg :: e.1, e.2))).map Prod.fst).Nodup := by
  have e : (ls.map (fun e => (seg :: e.1, e.2))).map Prod.fst
      = (ls.map Prod.fst).map (fun p => seg :: p) := by
    simp [List.map_map, Function.comp]
  rw [e]
  exact h.map (fun a b hab => by simpa using hab)

mutual
theorem nodup_leaves : ∀ (m : List (Str × Value)), uniqueKeys m = true →
    ((leaves m).map Prod.fst).Nodup
  | [], _ => by simp [leaves]
  | (k, v) :: rest, h => by
    obtain ⟨hk, hv, hr⟩ := (uniqueKeys_cons k v rest).mp h
    rw [leaves_cons, List.map_append, List.nodup_append]
    refine ⟨nodup_leavesValue v k hv, nodup_leaves rest hr, ?_⟩
    intro p hp1 hp2
    obtain ⟨⟨p1, s1⟩, h1, rfl⟩ := List.mem_map.mp hp1
    obtain ⟨⟨p2, s2⟩, h2, e2⟩ := List.mem_map.mp hp2
    simp only at e2
    subst e2
    obtain ⟨seg, p', hp, hkey⟩ := head_of_leavesValue k v _ s1 h1
    obtain ⟨seg2, p'', hp', v2, hm2⟩ := head_of_leaves rest _ s2 h2
    rw [hp] at hp'
    simp only [List.cons.injEq] at hp'
    have := hk _ hm2
    simp only at this
    rw [← hp'.1, hkey] at this
    exact this rfl
theorem nodup_leavesValue : ∀ (v : Value) (k : Str), uniqueKeysValue v = true →
    ((leavesValue k v).map Prod.fst).Nodup
  | .str _, k, _ => by simp [leavesValue]
  | .map m, k, h => by
    rw [leavesValue]
    rw [uniqueKeysValue] at h
    exact nodup_map_cons _ _ (nodup_leaves m h)
  | .list xs, k, h => by
    rw [leavesValue]
    rw [uniqueKeysValue] at h
    exact nodup_leavesSlice xs k 0 h
  | .null, k, _ => by simp [leavesValue]
  | .bool _, k, _ => by simp [leavesValue]
  | .num _, k, _ => by simp [leavesValue]
theorem nodup_leavesSlice : ∀ (xs : List Value) (k : Str) (i0 : Nat),
    uniqueKeysSlice xs = true → ((leavesSlice k xs i0).map Prod.fst).Nodup
  | [], k, i0, _ => by simp [leavesSlice]
  | v :: rest, k, i0, h => by
    obtain ⟨hv, hr⟩ := (uniqueKeysSlice_cons v rest).mp h
    have ih := nodup_leavesSlice rest k (i0 + 1) hr
    cases v with
    | map m =>
      rw [leavesSlice_cons_map, List.map_append, List.nodup_append]
      rw [uniqueKeysValue] at hv
      refine ⟨nodup_map_cons _ _ (nodup_leaves m hv), ih, ?_⟩
      intro p hp1 hp2
      obtain ⟨⟨p1, s1⟩, h1, rfl⟩ := List.mem_map.mp hp1
      obtain ⟨⟨p2, s2⟩, h2, e2⟩ := List.mem_map.mp hp2
      simp only at e2
      subst e2
      obtain ⟨e, _, he⟩ := List.mem_map.mp h1
      obtain ⟨j, p', hp⟩ := head_of_leavesSlice k rest (i0 + 1) _ s2 h2
      simp only [Prod.mk.injEq] at he
      rw [← he.1] at hp
      simp only [List.cons.injEq, Segment.mk.injEq, Option.some.injEq, true_and] at hp
      omega
    | null => rw [leavesSlice_cons_other _ _ _ _ (by simp)]; exact ih
    | bool _ => rw [leavesSlice_cons_other _ _ _ _ (by simp)]; exact ih
    | num _ => rw [leavesSlice_cons_other _ _ _ _ (by simp)]; exact ih
    | str _ => rw [leavesSlice_cons_other _ _ _ _ (by simp)]; exact ih
    | list _ => rw [leavesSlice_cons_other _ _ _ _ (by simp)]; exact ih
end

/-- C5. Discovery is exact. The catalogue of `findPathFromMap(D, "")` is, list
by list, the reachable string leaves of `D` that classify as a dot-reference or
as a cross-document lookup, each with its path and its classified fields: one
entry per such leaf and no other entry. The reachable leaves are the string
values of mappings reached through mappings and through sequence elements that
are mappings, and in a document whose mappings have no repeated key no position
is listed twice. -/
theorem findPathFromMap_exact (D : Doc) :
    findPathFromMap D [] = catalogue [] (leaves D)
      ∧ (∀ p s, (p, s) ∈ leaves D ↔ Reaches D p s)
      ∧ (uniqueKeys D = true → ((leaves D).map Prod.fst).Nodup) :=
  ⟨findPathFromMap_catalogue D [], mem_leaves_iff D, nodup_leaves D⟩

theorem findPathFromMap_exact_witness :
    ((leaves [("items".toList, .list [.map [("v".toList, .str "\x7b\x7b .x \x7d\x7d".toList)],
        .str "\x7b\x7b .y \x7d\x7d".toList]), ("n".toList, .num 1)]).map Prod.fst).Nodup :=
  (findPathFromMap_exact [("items".toList, .list [.map
      [("v".toList, .str "\x7b\x7b .x \x7d\x7d".toList)],
      .str "\x7b\x7b .y \x7d\x7d".toList]), ("n".toList, .num 1)]).2.2 (by decide)

/-! ### Path strings are joined renderings -/

theorem extendPath_nil (s : Segment) : extendPath [] s = renderSegment s := by
  obtain ⟨k, oi⟩ := s
  cases oi <;> simp [extendPath, renderSegment]

theorem extendPath_of_ne_nil (parent : Str) (s : Segment) (h : parent ≠ []) :
    extendPath parent s = parent ++ " -> ".toList ++ renderSegment s := by
  obtain ⟨k, oi⟩ := s
  cases oi <;> simp [extendPath, renderSegment, h]

theorem joinArrow_concat (rs : List Str) (r : Str) (h : rs ≠ []) :
    joinArrow (rs ++ [r]) = joinArrow rs ++ " -> ".toList ++ r := by
  induction rs with
  | nil => exact absurd rfl h
  | cons a rest ih =>
    cases rest with
    | nil => simp [joinArrow]
    | cons b rest2 =>
      have := ih (by simp)
      simp only [List.cons_append] at this ⊢
      rw [joinArrow, this, joinArrow]
      simp

theorem pathString_join (p : List Segment) :
    ∀ (pre : List Segment), pre ≠ [] → (∀ s ∈ pre ++ p, renderSegment s ≠ []) →
      pathString (joinArrow (pre.map renderSegment)) p
        = joinArrow ((pre ++ p).map renderSegment) := by
  induction p with
  | nil => intro pre _ _; simp [pathString]
  | cons s p ih =>
    intro pre hne hr
    have hp : joinArrow (pre.map renderSegment) ≠ [] := by
      apply joinArrow_ne_nil _ (by simpa using hne)
      intro r hm
      obtain ⟨x, hx, rfl⟩ := List.mem_map.mp hm
      exact hr x (by simp [hx])
    have e : pathString (joinArrow (pre.map renderSegment)) (s :: p)
        = pathString (extendPath (joinArrow (pre.map renderSegment)) s) p := by
      simp [pathString]
    rw [e, extendPath_of_ne_nil _ _ hp, ← joinArrow_concat _ _ (by simpa using hne)]
    have e2 : pre.map renderSegment ++ [renderSegment s] = (pre ++ [s]).map renderSegment := by
      simp
    rw [e2, ih (pre ++ [s]) (by simp) (by simpa using hr)]
    simp

/-- The path string of a position from the root is its segments, rendered and joined. -/
theorem pathString_root (p : List Segment) (hr : ∀ s ∈ p, renderSegment s ≠ []) :
    pathString [] p = joinArrow (p.map renderSegment) := by
  cases p with
  | nil => rfl
  | cons s p =>
    have e : pathString [] (s :: p) = pathString (joinArrow ([s].map renderSegment)) p := by
      simp [pathString, extendPath_nil, joinArrow]
    rw [e, pathString_join p [s] (by simp) (by simpa using hr)]
    simp

/-! ### Sub-documents of a well-formed document -/

theorem goodKeys_mem (m : Doc) (k : Str) (v : Value) (h : goodKeys m = true)
    (hm : (k, v) ∈ m) : goodKey k = true ∧ goodKeysValue v = true := by
  induction m with
  | nil => simp at hm
  | cons a rest ih =>
    obtain ⟨k', v'⟩ := a
    simp only [goodKeys, Bool.and_eq_true] at h
    rcases List.mem_cons.mp hm with e | e
    · cases e; exact ⟨h.1.1, h.1.2⟩
    · exact ih h.2 e

theorem goodKeysSlice_get (xs : List Value) (i : Nat) (v : Value)
    (h : goodKeysSlice xs = true) (hx : xs[i]? = some v) : goodKeysValue v = true := by
  induction xs generalizing i with
  | nil => simp at hx
  | cons a rest ih =>
    simp only [goodKeysSlice, Bool.and_eq_true] at h
    cases i with
    | zero =>
      simp only [List.getElem?_cons_zero, Option.some.injEq] at hx
      subst hx; exact h.1
    | succ j =>
      simp only [List.getElem?_cons_succ] at hx
      exact ih j h.2 hx

theorem uniqueKeys_mem (m : Doc) (k : Str) (v : Value) (h : uniqueKeys m = true)
    (hm : (k, v) ∈ m) : uniqueKeysValue v = true ∧ lookup k m = some v := by
  induction m with
  | nil => simp at hm
  | cons a rest ih =>
    obtain ⟨k', v'⟩ := a
    obtain ⟨hk, hv, hr⟩ := (uniqueKeys_cons k' v' rest).mp h
    rcases List.mem_cons.mp hm with e | e
    · cases e
      exact ⟨hv, by simp [lookup]⟩
    · have hne : k' ≠ k := fun e2 => hk _ e e2.symm
      obtain ⟨h1, h2⟩ := ih hr e
      exact ⟨h1, by simp [lookup, hne, h2]⟩

theorem uniqueKeysSlice_get (xs : List Value) (i : Nat) (v : Value)
    (h : uniqueKeysSlice xs = true) (hx : xs[i]? = some v) : uniqueKeysValue v = true := by
  induction xs generalizing i with
  | nil => simp at hx
  | cons a rest ih =>
    obtain ⟨h1, h2⟩ := (uniqueKeysSlice_cons a rest).mp h
    cases i with
    | zero =>
      simp only [List.getElem?_cons_zero, Option.some.injEq] at hx
      subst hx; exact h1
    | succ j =>
      simp only [List.getElem?_cons_succ] at hx
      exact ih j h2 hx

/-- The position of a reachable leaf consists of good keys. -/
theorem Reaches.goodSegments {m : Doc} {p : List Segment} {s : Str} (r : Reaches m p s) :
    goodKeys m = true → p ≠ [] ∧ ∀ seg ∈ p, goodKey seg.key = true := by
  induction r with
  | leaf hm =>
    intro hg
    exact ⟨by simp, by simpa using (goodKeys_mem _ _ _ hg hm).1⟩
  | inMap hm _ ih =>
    intro hg
    obtain ⟨h1, h2⟩ := goodKeys_mem _ _ _ hg hm
    rw [goodKeysValue] at h2
    refine ⟨by simp, ?_⟩
    intro seg hs
    rcases List.mem_cons.mp hs with e | e
    · subst e; exact h1
    · exact (ih h2).2 seg e
  | inSeq hm hx _ ih =>
    intro hg
    obtain ⟨h1, h2⟩ := goodKeys_mem _ _ _ hg hm
    rw [goodKeysValue] at h2
    have h3 := goodKeysSlice_get _ _ _ h2 hx
    rw [goodKeysValue] at h3
    refine ⟨by simp, ?_⟩
    intro seg hs
    rcases List.mem_cons.mp hs with e | e
    · subst e; exact h1
    · exact (ih h3).2 seg e

/-- Following the tokens of the position of a reachable leaf reaches the leaf. -/
theorem Reaches.follow {m : Doc} {p : List Segment} {s : Str} (r : Reaches m p s) :
    uniqueKeys m = true → follow (flattenSegments p) (.map m) = some (.str s) := by
  induction r with
  | leaf hm =>
    intro hu
    obtain ⟨_, hl⟩ := uniqueKeys_mem _ _ _ hu hm
    simp [flattenSegments, segmentTokens, follow_key, hl, Hulak.follow]
  | inMap hm _ ih =>
    intro hu
    obtain ⟨h1, hl⟩ := uniqueKeys_mem _ _ _ hu hm
    rw [uniqueKeysValue] at h1
    simp only [flattenSegments, segmentTokens, List.cons_append, List.nil_append]
    rw [follow_key, hl]
    exact ih h1
  | @inSeq m0 m' k s xs i p hm hx _ ih =>
    intro hu
    obtain ⟨h1, hl⟩ := uniqueKeys_mem _ _ _ hu hm
    rw [uniqueKeysValue] at h1
    have h2 := uniqueKeysSlice_get _ _ _ h1 hx
    rw [uniqueKeysValue] at h2
    simp only [flattenSegments, segmentTokens, List.cons_append, List.nil_append]
    rw [follow_key, hl]
    simp only []
    rw [follow_idx]
    have hn : ¬ (Int.ofNat i) < 0 := not_lt.mpr (Int.ofNat_nonneg i)
    have ht : (Int.ofNat i).toNat = i := rfl
    simp only [hn, if_false, ht, hx]
    exact ih h2

/-- The path of a reachable leaf in a document with good, unrepeated keys
parses to tokens that lead to the leaf. -/
theorem leaf_path_replays (D : Doc) (hg : goodKeys D = true) (hu : uniqueKeys D = true)
    (p : List Segment) (s : Str) (h : (p, s) ∈ leaves D) :
    parsePath (pathString [] p) = .ok (flattenSegments p)
      ∧ follow (flattenSegments p) (.map D) = some (.str s) := by
  have r := leaves_sound D p s h
  obtain ⟨hne, hk⟩ := r.goodSegments hg
  have hr : ∀ seg ∈ p, renderSegment seg ≠ [] :=
    fun seg hs => (renderSegment_facts seg (hk seg hs)).2.2.2.1
  rw [pathString_root p hr]
  exact ⟨parsePath_render p hne hk, r.follow hu⟩

/-- C6. In a source whose mapping keys are all good keys (not empty, no
whitespace at either end, no `->`, not of the form `name[idx]`) and not
repeated within a mapping, the path of every entry of `findPathFromMap(source,
"")` parses, and following its tokens from the root of the source reaches the
string leaf whose classification gave the entry its KeyName (and FileName). -/
theorem discovered_paths_replay (D : Doc) (hg : goodKeys D = true) (hu : uniqueKeys D = true) :
    (∀ e ∈ (findPathFromMap D []).DotStrings, ∃ toks s,
        parsePath e.Path = .ok toks ∧ follow toks (.map D) = some (.str s)
          ∧ (delimiterLogicAndCleanup s).Typ = actionType.DotString
          ∧ (delimiterLogicAndCleanup s).DotString = e.KeyName)
    ∧ (∀ e ∈ (findPathFromMap D []).GetValueOfs, ∃ toks s,
        parsePath e.Path = .ok toks ∧ follow toks (.map D) = some (.str s)
          ∧ (delimiterLogicAndCleanup s).Typ = actionType.GetValueOf
          ∧ (delimiterLogicAndCleanup s).GetValueOf.getD 1 [] = e.KeyName
          ∧ (delimiterLogicAndCleanup s).GetValueOf.getD 2 [] = e.FileName) := by
  rw [findPathFromMap_catalogue]
  constructor
  · intro e he
    simp only [catalogue, List.mem_filterMap] at he
    obtain ⟨⟨p, s⟩, hm, hd⟩ := he
    obtain ⟨h1, h2⟩ := leaf_path_replays D hg hu p s hm
    unfold dotEntry at hd
    split at hd
    · rename_i ht
      simp only [Option.some.injEq] at hd
      subst hd
      exact ⟨_, s, h1, h2, ht, rfl⟩
    · exact absurd hd (by simp)
  · intro e he
    simp only [catalogue, List.mem_filterMap] at he
    obtain ⟨⟨p, s⟩, hm, hd⟩ := he
    obtain ⟨h1, h2⟩ := leaf_path_replays D hg hu p s hm
    unfold getEntry at hd
    split at hd
    · rename_i ht
      simp only [Option.some.injEq] at hd
      subst hd
      exact ⟨_, s, h1, h2, ht, rfl, rfl⟩
    · exact absurd hd (by simp)

theorem discovered_paths_replay_witness :
    ∃ toks s, parsePath "items[1] -> v".toList = .ok toks
      ∧ follow toks (.map [("items".toList, .list [.num 1, .map
          [("v".toList, .str "\x7b\x7b .x \x7d\x7d".toList)]])]) = some (.str s)
      ∧ (delimiterLogicAndCleanup s).Typ = actionType.DotString
      ∧ (delimiterLogicAndCleanup s).DotString = "x".toList :=
  (discovered_paths_replay [("items".toList, .list [.num 1, .map
    [("v".toList, .str "\x7b\x7b .x \x7d\x7d".toList)]])] (by decide) (by decide)).1
    ⟨"items[1] -> v".toList, "x".toList⟩ (by decide)

/-! ### Single steps -/

theorem setValueAt_null (t : Token) (rest : List Token) (c : Value) :
    setValueAt (t :: rest) .null c = .error Fault.panic := by
  cases t <;> simp [setValueAt]

theorem setValueAt_not_ok (t : Token) (rest : List Token) (cur c : Value)
    (h : slotOk t cur = false) : setValueAt (t :: rest) cur c = .error Fault.panic := by
  cases t with
  | key k =>
    cases cur <;> simp [setValueAt, slotOk] at h ⊢
  | idx i =>
    cases cur with
    | list xs =>
      simp only [slotOk, decide_eq_false_iff_not] at h
      have : i < 0 ∨ (xs.length : Int) ≤ i := by omega
      simp [setValueAt, this]
    | null => simp [setValueAt]
    | bool _ => simp [setValueAt]
    | num _ => simp [setValueAt]
    | str _ => simp [setValueAt]
    | map _ => simp [setValueAt]

theorem child_isSome_of_idx (i : Int) (cur : Value) (h : slotOk (Token.idx i) cur = true) :
    ∃ v, child (Token.idx i) cur = some v := by
  cases cur with
  | list xs =>
    simp only [slotOk, decide_eq_true_eq] at h
    have h1 : ¬ i < 0 := by omega
    have h2 : i.toNat < xs.length := by omega
    exact ⟨xs[i.toNat], by simp [child, h1, h2]⟩
  | null => simp [slotOk] at h
  | bool _ => simp [slotOk] at h
  | num _ => simp [slotOk] at h
  | str _ => simp [slotOk] at h
  | map _ => simp [slotOk] at h

/-- The write at the last token of a path. -/
theorem setValueAt_last (t : Token) (cur c : Value) (h : slotOk t cur = true) :
    setValueAt [t] cur c = .ok (put t (guarded (child t cur) c) cur) := by
  cases t with
  | key k =>
    cases cur <;> simp [setValueAt, slotOk, child, put] at h ⊢
  | idx i =>
    cases cur with
    | list xs =>
      simp only [slotOk, decide_eq_true_eq] at h
      have h0 : ¬ (i < 0 ∨ (xs.length : Int) ≤ i) := by omega
      have h1 : ¬ i < 0 := by omega
      have h3 : ¬ (xs.length : Int) ≤ i := by omega
      simp [setValueAt, h1, h3, child, put]
    | null => simp [slotOk] at h
    | bool _ => simp [slotOk] at h
    | num _ => simp [slotOk] at h
    | str _ => simp [slotOk] at h
    | map _ => simp [slotOk] at h

/-- The descent at a token that is not the last of its path. -/
theorem setValueAt_more (t : Token) (rest : List Token) (cur c : Value)
    (h : slotOk t cur = true) (hr : rest ≠ []) :
    setValueAt (t :: rest) cur c =
      match child t cur with
      | some next =>
        match setValueAt rest next c with
        | .ok next' => .ok (put t next' cur)
        | .error e => .error e
      | none => .error Fault.panic := by
  have he : rest.isEmpty = false := by
    cases rest with
    | nil => exact absurd rfl hr
    | cons _ _ => rfl
  obtain ⟨r0, rs, rfl⟩ := List.exists_cons_of_ne_nil hr
  cases t with
  | key k =>
    cases cur with
    | map m =>
      rw [setValueAt]
      simp only [he, Bool.false_eq_true, if_false, child, put]
      cases hl : lookup k m with
      | some next => rfl
      | none => simp [setValueAt_null]
    | null => simp [slotOk] at h
    | bool _ => simp [slotOk] at h
    | num _ => simp [slotOk] at h
    | str _ => simp [slotOk] at h
    | list _ => simp [slotOk] at h
  | idx i =>
    cases cur with
    | list xs =>
      simp only [slotOk, decide_eq_true_eq] at h
      have h0 : ¬ (i < 0 ∨ (xs.length : Int) ≤ i) := by omega
      have h1 : ¬ i < 0 := by omega
      have h2 : i.toNat < xs.length := by omega
      rw [setValueAt]
      simp only [h0, he, Bool.false_eq_true, if_false, child, put, h1]
      have h3 : ¬ (xs.length : Int) ≤ i := by omega
      have h4 : xs[i.toNat]? = some xs[i.toNat] := by simp [h2]
      rw [h4]
      simp only [h3, or_self, if_false, Option.getD_some]
    | null => simp [slotOk] at h
    | bool _ => simp [slotOk] at h
    | num _ => simp [slotOk] at h
    | str _ => simp [slotOk] at h
    | map _ => simp [slotOk] at h

/-- What a successful write says about its first token. -/
theorem setValueAt_cons_inv (t : Token) (rest : List Token) (cur c v' : Value)
    (h : setValueAt (t :: rest) cur c = .ok v') :
    slotOk t cur = true ∧
      ((rest = [] ∧ v' = put t (guarded (child t cur) c) cur)
        ∨ (rest ≠ [] ∧ ∃ next next', child t cur = some next
            ∧ setValueAt rest next c = .ok next' ∧ v' = put t next' cur)) := by
  have hs : slotOk t cur = true := by
    by_contra hn
    rw [setValueAt_not_ok t rest cur c (by simpa using hn)] at h
    exact absurd h (by simp)
  refine ⟨hs, ?_⟩
  by_cases hr : rest = []
  · subst hr
    rw [setValueAt_last t cur c hs] at h
    exact Or.inl ⟨rfl, by simpa using h.symm⟩
  · right
    refine ⟨hr, ?_⟩
    rw [setValueAt_more t rest cur c hs hr] at h
    cases hc : child t cur with
    | none => rw [hc] at h; exact absurd h (by simp)
    | some next =>
      simp only [hc] at h
      cases hn : setValueAt rest next c with
      | error e => simp only [hn] at h; exact absurd h (by simp)
      | ok next' =>
        simp only [hn, Except.ok.injEq] at h
        exact ⟨next, next', rfl, hn, h.symm⟩

/-! ### Reads and writes at single tokens -/

theorem guarded_idem (o : Option Value) (c : Value) :
    guarded (some (guarded o c)) c = guarded o c := by
  have hc : guarded (some c) c = c := by
    cases c <;> simp [guarded, swapValue, sprintV]
  cases o with
  | none => simpa [guarded] using hc
  | some v =>
    cases v with
    | str s =>
      by_cases e : s = sprintV c
      · simpa [guarded, swapValue, e] using hc
      · simp [guarded, swapValue, e]
    | null => simpa [guarded] using hc
    | bool _ => simpa [guarded] using hc
    | num _ => simpa [guarded] using hc
    | list _ => simpa [guarded] using hc
    | map _ => simpa [guarded] using hc

theorem lookup_setKey_ne (k k' : Str) (y : Value) (m : Doc) (h : k ≠ k') :
    lookup k (setKey k' y m) = lookup k m := by
  induction m with
  | nil =>
    have : ¬ k' = k := fun e => h e.symm
    simp [setKey, lookup, this]
  | cons a rest ih =>
    obtain ⟨a1, a2⟩ := a
    by_cases e : a1 = k'
    · subst e
      have : ¬ a1 = k := fun e => h e.symm
      simp [setKey, lookup, this]
    · by_cases e2 : a1 = k
      · subst e2
        simp [setKey, lookup, e]
      · simp [setKey, lookup, e, e2, ih]

theorem setKey_setKey (k : Str) (x y : Value) (m : Doc) :
    setKey k x (setKey k y m) = setKey k x m := by
  induction m with
  | nil => simp [setKey]
  | cons a rest ih =>
    obtain ⟨a1, a2⟩ := a
    by_cases e : a1 = k
    · simp [setKey, e]
    · simp [setKey, e, ih]

theorem setKey_comm_stable (k k' : Str) (x y : Value) (m : Doc) (h : k ≠ k')
    (hs : setKey k x m = m) : setKey k x (setKey k' y m) = setKey k' y m := by
  induction m with
  | nil => simp [setKey] at hs
  | cons a rest ih =>
    obtain ⟨a1, a2⟩ := a
    by_cases e : a1 = k
    · subst e
      simp only [setKey, if_true, List.cons.injEq, Prod.mk.injEq, true_and, and_true] at hs
      subst hs
      simp [setKey, h]
    · have e' : ¬ a1 = k := e
      simp only [setKey, e', if_false, List.cons.injEq, true_and] at hs
      by_cases e2 : a1 = k'
      · subst e2
        simp [setKey, e', hs]
      · simp [setKey, e', e2, ih hs]

theorem child_put_self (t : Token) (x cur : Value) (h : slotOk t cur = true) :
    child t (put t x cur) = some x := by
  cases t with
  | key k =>
    cases cur <;> simp [slotOk] at h
    simp [child, put, lookup_setKey_self]
  | idx i =>
    cases cur with
    | list xs =>
      simp only [slotOk, decide_eq_true_eq] at h
      have h1 : ¬ i < 0 := by omega
      have h2 : i.toNat < xs.length := by omega
      simp [child, put, h1, h2]
    | null => simp [slotOk] at h
    | bool _ => simp [slotOk] at h
    | num _ => simp [slotOk] at h
    | str _ => simp [slotOk] at h
    | map _ => simp [slotOk] at h

theorem put_put (t : Token) (x y cur : Value) : put t x (put t y cur) = put t x cur := by
  cases t with
  | key k => cases cur <;> simp [put, setKey_setKey]
  | idx i => cases cur <;> simp [put]

theorem slotOk_put (t u : Token) (y cur : Value) : slotOk t (put u y cur) = slotOk t cur := by
  cases t <;> cases u <;> cases cur <;> simp [slotOk, put]

theorem child_put_ne (t u : Token) (y cur : Value) (h : t ≠ u) (hu : slotOk u cur = true) :
    child t (put u y cur) = child t cur := by
  cases t with
  | key k =>
    cases u with
    | key k' =>
      have hk : k ≠ k' := fun e => h (by rw [e])
      cases cur <;> simp [slotOk] at hu
      simp [child, put, lookup_setKey_ne k k' y _ hk]
    | idx j => cases cur <;> simp [child, put]
  | idx i =>
    cases u with
    | key k' => cases cur <;> simp [child, put]
    | idx j =>
      have hij : i ≠ j := fun e => h (by rw [e])
      cases cur with
      | list xs =>
        simp only [slotOk, decide_eq_true_eq] at hu
        by_cases h1 : i < 0
        · simp [child, put, h1]
        · have : j.toNat ≠ i.toNat := by omega
          simp [child, put, h1, List.getElem?_set_ne this]
      | null => simp [slotOk] at hu
      | bool _ => simp [slotOk] at hu
      | num _ => simp [slotOk] at hu
      | str _ => simp [slotOk] at hu
      | map _ => simp [slotOk] at hu

theorem child_of_put_eq (t : Token) (x cur : Value) (h : slotOk t cur = true)
    (hs : put t x cur = cur) : child t cur = some x := by
  have := child_put_self t x cur h
  rw [hs] at this
  exact this

theorem put_comm_stable (t u : Token) (x y cur : Value) (h : t ≠ u)
    (ht : slotOk t cur = true) (hu : slotOk u cur = true) (hs : put t x cur = cur) :
    put t x (put u y cur) = put u y cur := by
  cases t with
  | key k =>
    cases u with
    | key k' =>
      have hk : k ≠ k' := fun e => h (by rw [e])
      cases cur <;> simp [slotOk] at ht
      simp only [put, Value.map.injEq] at hs ⊢
      exact setKey_comm_stable k k' x y _ hk hs
    | idx j => cases cur <;> simp [slotOk] at ht hu
  | idx i =>
    cases u with
    | key k' => cases cur <;> simp [slotOk] at ht hu
    | idx j =>
      have hij : i ≠ j := fun e => h (by rw [e])
      cases cur with
      | list xs =>
        simp only [slotOk, decide_eq_true_eq] at ht hu
        simp only [put, Value.list.injEq] at hs ⊢
        have e : j.toNat ≠ i.toNat := by omega
        rw [List.set_comm y x xs e, hs]
      | null => simp [slotOk] at ht
      | bool _ => simp [slotOk] at ht
      | num _ => simp [slotOk] at ht
      | str _ => simp [slotOk] at ht
      | map _ => simp [slotOk] at ht

/-! ### A write repeated, and a write after a write elsewhere -/

theorem incomparable_cons (t : Token) (p q : List Token) :
    Incomparable (t :: p) (t :: q) ↔ Incomparable p q := by
  simp [Incomparable, List.cons_prefix_cons]

theorem incomparable_ne_nil {p q : List Token} (h : Incomparable p q) : p ≠ [] ∧ q ≠ [] := by
  constructor
  · rintro rfl; exact h.1 (List.nil_prefix)
  · rintro rfl; exact h.2 (List.nil_prefix)

theorem incomparable_symm {p q : List Token} (h : Incomparable p q) : Incomparable q p :=
  ⟨h.2, h.1⟩

/-- A successful write, done again on its own result, succeeds and changes nothing. -/
theorem setValueAt_idem (c : Value) :
    ∀ (p : List Token) (v v' : Value), setValueAt p v c = .ok v' →
      setValueAt p v' c = .ok v' := by
  intro p
  induction p with
  | nil =>
    intro v v' h
    simp only [setValueAt, Except.ok.injEq] at h ⊢
  | cons t rest ih =>
    intro v v' h
    obtain ⟨hs, h1 | h1⟩ := setValueAt_cons_inv t rest v c v' h
    · obtain ⟨rfl, rfl⟩ := h1
      have hs' : slotOk t (put t (guarded (child t v) c) v) = true := by
        rw [slotOk_put]; exact hs
      rw [setValueAt_last t _ c hs', child_put_self t _ v hs, guarded_idem, put_put]
    · obtain ⟨hr, next, next', hc, hn, rfl⟩ := h1
      have hs' : slotOk t (put t next' v) = true := by
        rw [slotOk_put]; exact hs
      rw [setValueAt_more t rest _ c hs' hr, child_put_self t _ v hs]
      simp only [ih next next' hn, put_put]

/-- A value that a write leaves as it is stays so after a successful write at
a path that is incomparable with the first. -/
theorem setValueAt_stable (c c' : Value) :
    ∀ (p q : List Token) (v v' : Value), Incomparable p q →
      setValueAt p v c = .ok v → setValueAt q v c' = .ok v' →
      setValueAt p v' c = .ok v' := by
  intro p
  induction p with
  | nil => intro q v v' hi; exact absurd rfl (incomparable_ne_nil hi).1
  | cons t p' ih =>
    intro q v v' hi hp hq
    cases q with
    | nil => exact absurd rfl (incomparable_ne_nil hi).2
    | cons u q' =>
      obtain ⟨ht, hp1⟩ := setValueAt_cons_inv t p' v c v hp
      obtain ⟨hu, hq1⟩ := setValueAt_cons_inv u q' v c' v' hq
      -- the written value `x` of the stable write and the written value `y` of the other
      obtain ⟨x, hx, hxc⟩ : ∃ x, v = put t x v ∧
          ((p' = [] ∧ x = guarded (child t v) c) ∨ (p' ≠ [] ∧ ∃ next,
            child t v = some next ∧ setValueAt p' next c = .ok x)) := by
        rcases hp1 with ⟨e1, e2⟩ | ⟨e1, next, next', e2, e3, e4⟩
        · exact ⟨_, e2, Or.inl ⟨e1, rfl⟩⟩
        · exact ⟨next', e4, Or.inr ⟨e1, next, e2, e3⟩⟩
      have hcx : child t v = some x := child_of_put_eq t x v ht hx.symm
      obtain ⟨y, hy, hyc⟩ : ∃ y, v' = put u y v ∧
          (q' ≠ [] → ∃ next, child u v = some next ∧ setValueAt q' next c' = .ok y) := by
        rcases hq1 with ⟨e1, e2⟩ | ⟨e1, next, next', e2, e3, e4⟩
        · exact ⟨_, e2, fun hne => absurd e1 hne⟩
        · exact ⟨next', e4, fun _ => ⟨next, e2, e3⟩⟩
      have ht' : slotOk t v' = true := by rw [hy, slotOk_put]; exact ht
      by_cases htu : t = u
      · subst htu
        have hi' := (incomparable_cons t p' q').mp hi
        obtain ⟨hpne, hqne⟩ := incomparable_ne_nil hi'
        obtain ⟨nq, hnq, hsq⟩ := hyc hqne
        rw [hcx] at hnq
        cases hnq
        rcases hxc with ⟨e1, _⟩ | ⟨_, np, hnp, hsp⟩
        · exact absurd e1 hpne
        · rw [hcx] at hnp
          cases hnp
          have := ih q' x y hi' hsp hsq
          rw [setValueAt_more t p' v' c ht' hpne, hy, child_put_self t y v ht]
          simp only [this, put_put]
      · have hcx' : child t v' = some x := by
          rw [hy, child_put_ne t u y v htu hu]; exact hcx
        have hput : put t x v' = v' := by
          rw [hy]; exact put_comm_stable t u x y v htu ht hu hx.symm
        rcases hxc with ⟨e1, e2⟩ | ⟨e1, np, hnp, hsp⟩
        · subst e1
          rw [setValueAt_last t v' c ht', hcx']
          have : guarded (some x) c = x := by
            rw [hcx] at e2
            exact e2.symm
          rw [this, hput]
        · rw [hcx] at hnp
          cases hnp
          rw [setValueAt_more t p' v' c ht' e1, hcx']
          simp only [hsp, hput]

theorem setValueAt_map_result (p : List Token) (d : Doc) (c v' : Value)
    (h : setValueAt p (.map d) c = .ok v') : ∃ d', v' = .map d' := by
  cases p with
  | nil =>
    simp only [setValueAt, Except.ok.injEq] at h
    exact ⟨d, h.symm⟩
  | cons t rest =>
    obtain ⟨hs, h1 | h1⟩ := setValueAt_cons_inv t rest _ c v' h
    · obtain ⟨_, rfl⟩ := h1
      cases t with
      | key k => exact ⟨_, rfl⟩
      | idx i => simp [slotOk] at hs
    · obtain ⟨_, _, next', _, _, rfl⟩ := h1
      cases t with
      | key k => exact ⟨_, rfl⟩
      | idx i => simp [slotOk] at hs

theorem setValueOnAfterMap_ok_iff (p : List Token) (d d' : Doc) (c : Value) :
    setValueOnAfterMap p d c = .ok d' ↔ setValueAt p (.map d) c = .ok (.map d') := by
  unfold setValueOnAfterMap
  cases h : setValueAt p (.map d) c with
  | error e => simp
  | ok v' =>
    obtain ⟨d2, rfl⟩ := setValueAt_map_result p d c v' h
    simp

theorem setValueOnAfterMap_idem (p : List Token) (d d' : Doc) (c : Value)
    (h : setValueOnAfterMap p d c = .ok d') : setValueOnAfterMap p d' c = .ok d' := by
  rw [setValueOnAfterMap_ok_iff] at h ⊢
  exact setValueAt_idem c p _ _ h

theorem setValueOnAfterMap_stable (p q : List Token) (d d' : Doc) (c c' : Value)
    (hi : Incomparable p q) (hp : setValueOnAfterMap p d c = .ok d)
    (hq : setValueOnAfterMap q d c' = .ok d') : setValueOnAfterMap p d' c = .ok d' := by
  rw [setValueOnAfterMap_ok_iff] at hp hq ⊢
  exact setValueAt_stable c c' p q _ _ hi hp hq

theorem applyOps_cons_ok (op : List Token × Value) (rest : List (List Token × Value))
    (d d1 : Doc) (h : applyOps (op :: rest) d = .ok d1) :
    ∃ d', setValueOnAfterMap op.1 d op.2 = .ok d' ∧ applyOps rest d' = .ok d1 := by
  rw [applyOps] at h
  cases hs : setValueOnAfterMap op.1 d op.2 with
  | error e => simp [hs] at h
  | ok d' => simp only [hs] at h; exact ⟨d', rfl, h⟩

theorem applyOps_append (a b : List (List Token × Value)) (d : Doc) :
    applyOps (a ++ b) d =
      match applyOps a d with
      | .ok d' => applyOps b d'
      | .error e => .error e := by
  induction a generalizing d with
  | nil => simp [applyOps]
  | cons op rest ih =>
    simp only [List.cons_append, applyOps]
    cases setValueOnAfterMap op.1 d op.2 with
    | error e => rfl
    | ok d' => exact ih d'

/-- A write that changes nothing still changes nothing after a run of writes
at paths incomparable with its own. -/
theorem applyOps_keeps_stable (p : List Token) (c : Value)
    (ops : List (List Token × Value)) :
    ∀ (d d1 : Doc), (∀ op ∈ ops, Incomparable p op.1) →
      setValueOnAfterMap p d c = .ok d → applyOps ops d = .ok d1 →
      setValueOnAfterMap p d1 c = .ok d1 := by
  induction ops with
  | nil =>
    intro d d1 _ hs h
    simp only [applyOps, Except.ok.injEq] at h
    subst h; exact hs
  | cons op rest ih =>
    intro d d1 hi hs h
    obtain ⟨d', h1, h2⟩ := applyOps_cons_ok op rest d d1 h
    have := setValueOnAfterMap_stable p op.1 d d' c op.2 (hi op (by simp)) hs h1
    exact ih d' d1 (fun o ho => hi o (by simp [ho])) this h2

/-- A run of writes at pairwise incomparable paths, done again on its own
result, succeeds and changes nothing. -/
theorem applyOps_idem (ops : List (List Token × Value)) :
    ∀ (d d1 : Doc), (ops.map Prod.fst).Pairwise Incomparable →
      applyOps ops d = .ok d1 → applyOps ops d1 = .ok d1 := by
  induction ops with
  | nil =>
    intro d d1 _ h
    rfl
  | cons op rest ih =>
    intro d d1 hp h
    obtain ⟨d', h1, h2⟩ := applyOps_cons_ok op rest d d1 h
    simp only [List.map_cons, List.pairwise_cons, List.mem_map, forall_exists_index, and_imp,
      forall_apply_eq_imp_iff₂] at hp
    have hst := applyOps_keeps_stable op.1 op.2 rest d' d1 hp.1
      (setValueOnAfterMap_idem _ _ _ _ h1) h2
    rw [applyOps, hst]
    exact ih d' d1 hp.2 h2

theorem toBool_ok {α : Type} (x : Except Fault α) (h : x.toBool = true) : ∃ a, x = .ok a := by
  cases x with
  | ok a => exact ⟨a, rfl⟩
  | error e => simp [Except.toBool] at h

theorem translateDotStrings_eq_applyOps (secretsMap : Doc) (es : List EachDotStringAction) :
    ∀ d : Doc, (∀ e ∈ es, (parsePath e.Path).toBool = true) →
      translateDotStrings secretsMap es d = applyOps (es.filterMap (dotOp secretsMap)) d := by
  induction es with
  | nil => intro d _; rfl
  | cons e rest ih =>
    intro d hp
    obtain ⟨path, hpath⟩ := toBool_ok _ (hp e (by simp))
    have ih' := fun d' => ih d' (fun x hx => hp x (by simp [hx]))
    rw [translateDotStrings]
    simp only [hpath]
    by_cases h0 : path.length = 0
    · have : dotOp secretsMap e = none := by simp [dotOp, hpath, h0]
      simp only [h0, if_true, List.filterMap_cons, this]
      exact ih' d
    · cases hl : lookup e.KeyName secretsMap with
      | none =>
        have : dotOp secretsMap e = none := by simp [dotOp, hpath, h0, hl]
        simp only [h0, if_false, List.filterMap_cons, this]
        exact ih' d
      | some v =>
        have : dotOp secretsMap e = some (path, v) := by simp [dotOp, hpath, h0, hl]
        simp only [h0, if_false, List.filterMap_cons, this, applyOps]
        cases setValueOnAfterMap path d v with
        | error err => rfl
        | ok d' => exact ih' d'

theorem translateGetValueOfs_eq_applyOps (getValueOf : Str → Str → Value)
    (es : List EachGetValueofAction) :
    ∀ d : Doc, (∀ e ∈ es, (parsePath e.Path).toBool = true) →
      translateGetValueOfs getValueOf es d = applyOps (es.filterMap (getOp getValueOf)) d := by
  induction es with
  | nil => intro d _; rfl
  | cons e rest ih =>
    intro d hp
    obtain ⟨path, hpath⟩ := toBool_ok _ (hp e (by simp))
    have ih' := fun d' => ih d' (fun x hx => hp x (by simp [hx]))
    rw [translateGetValueOfs]
    simp only [hpath]
    by_cases h0 : path.length = 0
    · have : getOp getValueOf e = none := by simp [getOp, hpath, h0]
      simp only [h0, if_true, List.filterMap_cons, this]
      exact ih' d
    · have : getOp getValueOf e = some (path, getValueOf e.KeyName e.FileName) := by
        simp [getOp, hpath, h0]
      simp only [h0, if_false, List.filterMap_cons, this, applyOps]
      cases setValueOnAfterMap path d (getValueOf e.KeyName e.FileName) with
      | error err => rfl
      | ok d' => exact ih' d'

/-- When every discovered path parses, `translateType` is the run of the
writes of its entries, dot-references first. -/
theorem translateType_eq_applyOps (beforeMap afterMap secretsMap : Doc)
    (getValueOf : Str → Str → Value)
    (hd : ∀ e ∈ (findPathFromMap beforeMap []).DotStrings, (parsePath e.Path).toBool = true)
    (hg : ∀ e ∈ (findPathFromMap beforeMap []).GetValueOfs, (parsePath e.Path).toBool = true) :
    translateType beforeMap afterMap secretsMap getValueOf
      = applyOps (((findPathFromMap beforeMap []).DotStrings.filterMap (dotOp secretsMap))
          ++ ((findPathFromMap beforeMap []).GetValueOfs.filterMap (getOp getValueOf)))
          afterMap := by
  unfold translateType
  simp only []
  rw [applyOps_append, translateDotStrings_eq_applyOps secretsMap _ afterMap hd]
  cases applyOps ((findPathFromMap beforeMap []).DotStrings.filterMap (dotOp secretsMap))
      afterMap with
  | error e => rfl
  | ok d' => exact translateGetValueOfs_eq_applyOps getValueOf _ d' hg

/-! ### The paths of distinct leaves are incomparable -/

theorem follow_cons (t : Token) (rest : List Token) (v : Value) :
    follow (t :: rest) v =
      match child t v with
      | some w => follow rest w
      | none => none := by
  cases t with
  | key k =>
    cases v with
    | map m =>
      rw [follow_key]
      simp only [child]
    | null => simp [follow, child]
    | bool _ => simp [follow, child]
    | num _ => simp [follow, child]
    | str _ => simp [follow, child]
    | list _ => simp [follow, child]
  | idx i =>
    cases v with
    | list xs =>
      rw [follow_idx]
      by_cases h : i < 0
      · simp [child, h]
      · simp only [h, if_false, child]
    | null => simp [follow, child]
    | bool _ => simp [follow, child]
    | num _ => simp [follow, child]
    | str _ => simp [follow, child]
    | map _ => simp [follow, child]

theorem follow_append (a b : List Token) :
    ∀ v : Value, follow (a ++ b) v =
      match follow a v with
      | some w => follow b w
      | none => none := by
  induction a with
  | nil => intro v; simp [follow]
  | cons t rest ih =>
    intro v
    simp only [List.cons_append, follow_cons]
    cases child t v with
    | none => rfl
    | some w => exact ih w

theorem follow_str (t : Token) (rest : List Token) (s : Str) :
    follow (t :: rest) (.str s) = none := by
  cases t <;> simp [follow]

/-- Of two token paths that both lead to a string leaf, neither is a proper
prefix of the other. -/
theorem prefix_eq_of_follow_str (a b : List Token) (v : Value) (s s' : Str)
    (ha : follow a v = some (.str s)) (hb : follow b v = some (.str s')) (hp : a <+: b) :
    a = b := by
  obtain ⟨ext, rfl⟩ := hp
  rw [follow_append, ha] at hb
  cases ext with
  | nil => simp
  | cons t r => simp [follow_str] at hb

theorem flattenSegments_cons (s : Segment) (p : List Segment) :
    flattenSegments (s :: p) = segmentTokens s ++ flattenSegments p := by
  rw [flattenSegments]

theorem flattenSegments_head (p : List Segment) (i : Int) (r : List Token) :
    flattenSegments p ≠ Token.idx i :: r := by
  cases p with
  | nil => simp [flattenSegments]
  | cons s p =>
    obtain ⟨k, oi⟩ := s
    cases oi <;> simp [flattenSegments, segmentTokens]

theorem flattenSegments_injective : ∀ (p q : List Segment),
    flattenSegments p = flattenSegments q → p = q := by
  intro p
  induction p with
  | nil =>
    intro q h
    cases q with
    | nil => rfl
    | cons s q =>
      obtain ⟨k, oi⟩ := s
      cases oi <;> simp [flattenSegments, segmentTokens] at h
  | cons s p ih =>
    intro q h
    cases q with
    | nil =>
      obtain ⟨k, oi⟩ := s
      cases oi <;> simp [flattenSegments, segmentTokens] at h
    | cons s' q =>
      obtain ⟨k, oi⟩ := s
      obtain ⟨k', oi'⟩ := s'
      rw [flattenSegments_cons, flattenSegments_cons] at h
      cases oi with
      | none =>
        cases oi' with
        | none =>
          simp only [segmentTokens, List.cons_append, List.nil_append, List.cons.injEq,
            Token.key.injEq] at h
          rw [h.1, ih q h.2]
        | some j =>
          simp only [segmentTokens, List.cons_append, List.nil_append, List.cons.injEq,
            Token.key.injEq] at h
          exact absurd h.2 (flattenSegments_head p _ _)
      | some i =>
        cases oi' with
        | none =>
          simp only [segmentTokens, List.cons_append, List.nil_append, List.cons.injEq,
            Token.key.injEq] at h
          exact absurd h.2.symm (flattenSegments_head q _ _)
        | some j =>
          simp only [segmentTokens, List.cons_append, List.nil_append, List.cons.injEq,
            Token.key.injEq, Token.idx.injEq] at h
          have hij : i = j := by
            have := h.2.1
            simpa using this
          rw [h.1, hij, ih q h.2.2]

/-- The leaves of a document with good, unrepeated keys lie at pairwise
incomparable token paths. -/
theorem leaves_incomparable (D : Doc) (hu : uniqueKeys D = true)
    (x y : List Segment × Str) (hx : x ∈ leaves D) (hy : y ∈ leaves D) (hne : x.1 ≠ y.1) :
    Incomparable (flattenSegments x.1) (flattenSegments y.1) := by
  have fx := (leaves_sound D x.1 x.2 hx).follow hu
  have fy := (leaves_sound D y.1 y.2 hy).follow hu
  constructor
  · intro hp
    exact hne (flattenSegments_injective _ _ (prefix_eq_of_follow_str _ _ _ _ _ fx fy hp))
  · intro hp
    exact hne (flattenSegments_injective _ _
      (prefix_eq_of_follow_str _ _ _ _ _ fy fx hp)).symm

theorem dotOp_of_leaf (D : Doc) (hg : goodKeys D = true) (hu : uniqueKeys D = true)
    (secretsMap : Doc) (x : List Segment × Str) (hx : x ∈ leaves D)
    (b : List Token × Value) (hb : b ∈ (dotEntry [] x).bind (dotOp secretsMap)) :
    b.1 = flattenSegments x.1 ∧ (delimiterLogicAndCleanup x.2).Typ = actionType.DotString := by
  obtain ⟨hparse, _⟩ := leaf_path_replays D hg hu x.1 x.2 hx
  simp only [Option.mem_def, Option.bind_eq_some] at hb
  obtain ⟨e, he, hop⟩ := hb
  unfold dotEntry at he
  split at he
  · rename_i ht
    simp only [Option.some.injEq] at he
    subst he
    unfold dotOp at hop
    simp only [hparse] at hop
    split at hop
    · exact absurd hop (by simp)
    · split at hop
      · simp only [Option.some.injEq] at hop
        subst hop
        exact ⟨rfl, ht⟩
      · exact absurd hop (by simp)
  · exact absurd he (by simp)

theorem getOp_of_leaf (D : Doc) (hg : goodKeys D = true) (hu : uniqueKeys D = true)
    (getValueOf : Str → Str → Value) (x : List Segment × Str) (hx : x ∈ leaves D)
    (b : List Token × Value) (hb : b ∈ (getEntry [] x).bind (getOp getValueOf)) :
    b.1 = flattenSegments x.1 ∧ (delimiterLogicAndCleanup x.2).Typ = actionType.GetValueOf := by
  obtain ⟨hparse, _⟩ := leaf_path_replays D hg hu x.1 x.2 hx
  simp only [Option.mem_def, Option.bind_eq_some] at hb
  obtain ⟨e, he, hop⟩ := hb
  unfold getEntry at he
  split at he
  · rename_i ht
    simp only [Option.some.injEq] at he
    subst he
    unfold getOp at hop
    simp only [hparse] at hop
    split at hop
    · exact absurd hop (by simp)
    · simp only [Option.some.injEq] at hop
      subst hop
      exact ⟨rfl, ht⟩
  · exact absurd he (by simp)

/-- The writes of a run on a source with good, unrepeated keys go to pairwise
incomparable paths. -/
theorem ops_incomparable (D : Doc) (hg : goodKeys D = true) (hu : uniqueKeys D = true)
    (secretsMap : Doc) (getValueOf : Str → Str → Value) :
    ((((findPathFromMap D []).DotStrings.filterMap (dotOp secretsMap))
      ++ ((findPathFromMap D []).GetValueOfs.filterMap (getOp getValueOf))).map
        Prod.fst).Pairwise Incomparable := by
  rw [findPathFromMap_catalogue]
  simp only [catalogue, List.filterMap_filterMap]
  rw [List.pairwise_map, List.pairwise_append]
  have hnd := nodup_leaves D hu
  have hpw : (leaves D).Pairwise
      (fun x y => x ∈ leaves D ∧ y ∈ leaves D ∧ x.1 ≠ y.1) := by
    have h1 : (leaves D).Pairwise (fun x y => x.1 ≠ y.1) := List.pairwise_map.mp hnd
    exact (List.Pairwise.and_mem.mp h1).imp (fun ⟨a, b, c⟩ => ⟨a, b, c⟩)
  refine ⟨?_, ?_, ?_⟩
  · apply List.Pairwise.filterMap _ _ hpw
    intro x y ⟨hx, hy, hne⟩ b hb b' hb'
    rw [(dotOp_of_leaf D hg hu secretsMap x hx b hb).1,
      (dotOp_of_leaf D hg hu secretsMap y hy b' hb').1]
    exact leaves_incomparable D hu x y hx hy hne
  · apply List.Pairwise.filterMap _ _ hpw
    intro x y ⟨hx, hy, hne⟩ b hb b' hb'
    rw [(getOp_of_leaf D hg hu getValueOf x hx b hb).1,
      (getOp_of_leaf D hg hu getValueOf y hy b' hb').1]
    exact leaves_incomparable D hu x y hx hy hne
  · intro a ha b hb
    obtain ⟨x, hx, hxa⟩ := List.mem_filterMap.mp ha
    obtain ⟨y, hy, hyb⟩ := List.mem_filterMap.mp hb
    obtain ⟨e1, t1⟩ := dotOp_of_leaf D hg hu secretsMap x hx a hxa
    obtain ⟨e2, t2⟩ := getOp_of_leaf D hg hu getValueOf y hy b hyb
    rw [e1, e2]
    apply leaves_incomparable D hu x y hx hy
    intro hxy
    have : x = y := List.inj_on_of_nodup_map hnd hx hy hxy
    subst this
    rw [t1] at t2
    exact absurd t2 (by decide)

theorem paths_parse (D : Doc) (hg : goodKeys D = true) (hu : uniqueKeys D = true) :
    (∀ e ∈ (findPathFromMap D []).DotStrings, (parsePath e.Path).toBool = true)
      ∧ (∀ e ∈ (findPathFromMap D []).GetValueOfs, (parsePath e.Path).toBool = true) := by
  rw [findPathFromMap_catalogue]
  constructor
  · intro e he
    simp only [catalogue, List.mem_filterMap] at he
    obtain ⟨x, hx, hd⟩ := he
    unfold dotEntry at hd
    split at hd
    · simp only [Option.some.injEq] at hd
      subst hd
      simp [(leaf_path_replays D hg hu x.1 x.2 hx).1, Except.toBool]
    · exact absurd hd (by simp)
  · intro e he
    simp only [catalogue, List.mem_filterMap] at he
    obtain ⟨x, hx, hd⟩ := he
    unfold getEntry at hd
    split at hd
    · simp only [Option.some.injEq] at hd
      subst hd
      simp [(leaf_path_replays D hg hu x.1 x.2 hx).1, Except.toBool]
    · exact absurd hd (by simp)

/-- C4, as the code has it. For a source whose mapping keys are good keys (not
empty, no whitespace at either end, no `->`, not of the form `name[idx]`) and
not repeated within a mapping, `translateType` is idempotent: whenever a run
on a destination succeeds with a result, the run on that result succeeds and
returns it unchanged, for every destination, table and lookup function. -/
theorem translateType_idempotent (beforeMap d d1 secretsMap : Doc)
    (getValueOf : Str → Str → Value)
    (hg : goodKeys beforeMap = true) (hu : uniqueKeys beforeMap = true)
    (h : translateType beforeMap d secretsMap getValueOf = .ok d1) :
    translateType beforeMap d1 secretsMap getValueOf = .ok d1 := by
  obtain ⟨hp1, hp2⟩ := paths_parse beforeMap hg hu
  rw [translateType_eq_applyOps beforeMap _ secretsMap getValueOf hp1 hp2] at h ⊢
  exact applyOps_idem _ d d1 (ops_incomparable beforeMap hg hu secretsMap getValueOf) h

theorem translateType_idempotent_witness :
    translateType
        [("h".toList, .map [("auth".toList, .str "\x7b\x7b .token \x7d\x7d".toList)]),
          ("n".toList, .list [.map [("v".toList, .str "\x7b\x7b .n \x7d\x7d".toList)]])]
        [("h".toList, .map [("auth".toList, .str "abc".toList)]),
          ("n".toList, .list [.map [("v".toList, .num 42)]])]
        [("token".toList, .str "abc".toList), ("n".toList, .num 42)] (fun _ _ => .null)
      = .ok [("h".toList, .map [("auth".toList, .str "abc".toList)]),
          ("n".toList, .list [.map [("v".toList, .num 42)]])] :=
  translateType_idempotent
    [("h".toList, .map [("auth".toList, .str "\x7b\x7b .token \x7d\x7d".toList)]),
      ("n".toList, .list [.map [("v".toList, .str "\x7b\x7b .n \x7d\x7d".toList)]])]
    [("h".toList, .map [("auth".toList, .str "abc".toList)]),
      ("n".toList, .list [.map [("v".toList, .str "42".toList)]])]
    [("h".toList, .map [("auth".toList, .str "abc".toList)]),
      ("n".toList, .list [.map [("v".toList, .num 42)]])]
    [("token".toList, .str "abc".toList), ("n".toList, .num 42)] (fun _ _ => .null)
    (by decide) (by decide) (by decide)

/-- C4 fails as stated: a source with the keys `a -> b` and `a` yields the
paths `a.b` and `a`; the first run succeeds and replaces the mapping at `a` by
the number, the second run then panics on the path `a.b`. -/
theorem translateType_idempotence_counterexample :
    translateType
        [("a -> b".toList, .str "\x7b\x7b .x \x7d\x7d".toList),
          ("a".toList, .str "\x7b\x7b .y \x7d\x7d".toList)]
        [("a".toList, .map [("b".toList, .str "zz".toList)])]
        [("x".toList, .num 1), ("y".toList, .num 5)] (fun _ _ => .null)
      = .ok [("a".toList, .num 5)]
    ∧ translateType
        [("a -> b".toList, .str "\x7b\x7b .x \x7d\x7d".toList),
          ("a".toList, .str "\x7b\x7b .y \x7d\x7d".toList)]
        [("a".toList, .num 5)]
        [("x".toList, .num 1), ("y".toList, .num 5)] (fun _ _ => .null)
      = .error Fault.panic := by
  decide

/-- C11, as the code has it. A dot followed by an identifier without
whitespace, with any amount of whitespace padding on either side inside the
braces, is classified DotString with exactly that identifier, provided the
identifier does not end in a closing brace directly in front of the closing
delimiter (no padding after it): a third adjacent brace disqualifies the leaf.
The last conjunct is the example of the specification. -/
theorem delimiterLogicAndCleanup_dot_reference (pad1 ident pad2 : Str)
    (h1 : ∀ c ∈ pad1, isSpace c = true) (h2 : ∀ c ∈ pad2, isSpace c = true)
    (hid : ∀ c ∈ ident, isSpace c = false)
    (hbrace : pad2 ≠ [] ∨ ident.getLast? ≠ some '\x7d') :
    delimiterLogicAndCleanup
        ("\x7b\x7b".toList ++ pad1 ++ ".".toList ++ ident ++ pad2 ++ "\x7d\x7d".toList)
      = ⟨actionType.DotString, ident, []⟩
    ∧ delimiterLogicAndCleanup "\x7b\x7b .user \x7d\x7d".toList
      = ⟨actionType.DotString, "user".toList, []⟩ := by
  refine ⟨?_, by decide⟩
  have hlast : (pad1 ++ '.' :: ident ++ pad2).getLast? ≠ some '\x7d' := by
    rcases List.eq_nil_or_concat pad2 with hp | ⟨w, c, hp⟩
    · subst hp
      have hb : ident.getLast? ≠ some '\x7d' := by
        rcases hbrace with h | h
        · exact absurd rfl h
        · exact h
      rcases List.eq_nil_or_concat ident with hi | ⟨i0, c, hi⟩
      · subst hi
        simp only [List.append_nil]
        rw [List.getLast?_concat]
        decide
      · subst hi
        rw [List.concat_eq_append, List.getLast?_concat] at hb
        have e : pad1 ++ '.' :: (i0.concat c) ++ [] = (pad1 ++ '.' :: i0) ++ [c] := by
          simp [List.concat_eq_append]
        rw [e, List.getLast?_concat]
        exact hb
    · subst hp
      have hc := h2 c (by simp [List.concat_eq_append])
      have e : pad1 ++ '.' :: ident ++ w.concat c = (pad1 ++ '.' :: ident ++ w) ++ [c] := by
        simp [List.concat_eq_append]
      rw [e, List.getLast?_concat]
      intro hcc
      simp only [Option.some.injEq] at hcc
      subst hcc
      exact absurd hc (by decide)
  have := delimiterLogicAndCleanup_dot pad1 ident pad2 h1 h2 hid hlast
  have e : "\x7b\x7b".toList ++ pad1 ++ ".".toList ++ ident ++ pad2 ++ "\x7d\x7d".toList
      = '\x7b' :: '\x7b' :: ((pad1 ++ '.' :: ident ++ pad2) ++ ['\x7d', '\x7d']) := by
    simp
  rw [e]
  exact this

theorem delimiterLogicAndCleanup_dot_reference_witness :
    delimiterLogicAndCleanup
        ("\x7b\x7b".toList ++ "\t ".toList ++ ".".toList ++ "api-key".toList ++ []
          ++ "\x7d\x7d".toList)
      = ⟨actionType.DotString, "api-key".toList, []⟩ :=
  (delimiterLogicAndCleanup_dot_reference "\t ".toList "api-key".toList [] (by decide)
    (by decide) (by decide) (by decide)).1

/-- C11 fails as stated: the identifier `a` followed by a closing brace, with
no padding, gives three closing braces in a row and the leaf is Invalid. -/
theorem delimiterLogicAndCleanup_dot_counterexample :
    delimiterLogicAndCleanup
        ("\x7b\x7b".toList ++ [] ++ ".".toList ++ "a\x7d".toList ++ [] ++ "\x7d\x7d".toList)
      = ⟨actionType.Invalid, [], []⟩
    ∧ (∀ c ∈ "a\x7d".toList, isSpace c = false) := by
  decide

/-! ### Cross-document lookups -/

theorem splitSpace_append (a rest : Str) (h : ∀ c ∈ a, c ≠ ' ') :
    splitGo " ".toList 0 (a ++ ' ' :: rest) = a :: splitGo " ".toList 0 rest := by
  induction a with
  | nil =>
    simp only [List.nil_append]
    rw [splitGo_zero]
    have : " ".toList.isPrefixOf (' ' :: rest) = true := by simp [List.isPrefixOf]
    rw [this]
    simp only [if_true]
    rfl
  | cons c a ih =>
    have hc : ¬ c = ' ' := h c (by simp)
    have hc' : ¬ ' ' = c := fun e => hc e.symm
    simp only [List.cons_append]
    rw [splitGo_zero]
    have : " ".toList.isPrefixOf (c :: (a ++ ' ' :: rest)) = false := by
      simp [List.isPrefixOf, hc']
    rw [this]
    simp only [Bool.false_eq_true, if_false]
    rw [ih (fun x hx => h x (by simp [hx]))]
    rfl

theorem not_space_of_isSpace_false (s : Str) (h : ∀ c ∈ s, isSpace c = false) :
    ∀ c ∈ s, c ≠ ' ' := by
  intro c hc e
  subst e
  exact absurd (h _ hc) (by decide)

/-- The classification of `getValueOf` followed by two tokens without
whitespace, all separated by single spaces. -/
theorem delimiterLogicAndCleanup_three (K D : Str)
    (hK : ∀ c ∈ K, isSpace c = false) (hD : ∀ c ∈ D, isSpace c = false) (hDne : D ≠ []) :
    delimiterLogicAndCleanup (getValueOfPlaceholder K D)
      = ⟨actionType.GetValueOf, [],
          ["getValueOf".toList, K.filter (fun c => !isQuote c),
            D.filter (fun c => !isQuote c)]⟩ := by
  have e : getValueOfPlaceholder K D
      = '\x7b' :: '\x7b' :: (([' '] ++ ("getValueOf".toList ++ ' ' :: K ++ ' ' :: D) ++ [' '])
          ++ ['\x7d', '\x7d']) := by
    simp [getValueOfPlaceholder]
  have hhead : ([' '] ++ ("getValueOf".toList ++ ' ' :: K ++ ' ' :: D) ++ [' ']).head?
      ≠ some '\x7b' := by simp
  have hlast : ([' '] ++ ("getValueOf".toList ++ ' ' :: K ++ ' ' :: D) ++ [' ']).getLast?
      ≠ some '\x7d' := by
    rw [List.getLast?_concat]; decide
  have htrim : trimSpace ([' '] ++ ("getValueOf".toList ++ ' ' :: K ++ ' ' :: D) ++ [' '])
      = "getValueOf".toList ++ ' ' :: K ++ ' ' :: D := by
    apply trimSpace_pad [' '] _ [' '] (by decide) (by decide)
    · intro c hc
      simp only [String.toList, List.cons_append, List.head?_cons, Option.some.injEq] at hc
      subst hc; rfl
    · intro c hc
      obtain ⟨d0, dl, hd⟩ : ∃ d0 dl, D = d0 ++ [dl] := by
        rcases List.eq_nil_or_concat D with h | ⟨d0, dl, h⟩
        · exact absurd h hDne
        · exact ⟨d0, dl, by simpa [List.concat_eq_append] using h⟩
      have e2 : "getValueOf".toList ++ ' ' :: K ++ ' ' :: D
          = ("getValueOf".toList ++ ' ' :: K ++ ' ' :: d0) ++ [dl] := by
        rw [hd]; simp
      rw [e2, List.getLast?_concat] at hc
      cases hc
      exact hD c (by rw [hd]; simp)
  have hsplit : stringsSplit ("getValueOf".toList ++ ' ' :: K ++ ' ' :: D) " ".toList
      = ["getValueOf".toList, K, D] := by
    unfold stringsSplit
    have e1 : "getValueOf".toList ++ ' ' :: K ++ ' ' :: D
        = "getValueOf".toList ++ ' ' :: (K ++ ' ' :: D) := by simp
    rw [e1, splitSpace_append "getValueOf".toList (K ++ ' ' :: D) (by decide),
      splitSpace_append K D (not_space_of_isSpace_false K hK),
      splitSpace_single D (not_space_of_isSpace_false D hD)]
  unfold delimiterLogicAndCleanup
  rw [e, stringHasDelimiter_shape]
  simp only [hhead, hlast, or_self, if_false, htrim, hsplit]
  simp [hasPrefix, cleanStrings]

theorem filter_wrapQuote (q : Option Char) (s : Str)
    (hq : ∀ c, q = some c → isQuote c = true) (hs : ∀ c ∈ s, isQuote c = false) :
    (wrapQuote q s).filter (fun c => !isQuote c) = s := by
  have hf : s.filter (fun c => !isQuote c) = s := by
    rw [List.filter_eq_self]
    intro c hc
    simp [hs c hc]
  cases q with
  | none => simpa [wrapQuote] using hf
  | some c =>
    have := hq c rfl
    simp [wrapQuote, List.filter_cons, List.filter_append, this, hf]

theorem wrapQuote_no_space (q : Option Char) (s : Str)
    (hq : ∀ c, q = some c → isQuote c = true) (hs : ∀ c ∈ s, isSpace c = false) :
    ∀ c ∈ wrapQuote q s, isSpace c = false := by
  have hqs : ∀ c, isQuote c = true → isSpace c = false := by
    intro c hc
    simp only [isQuote, Bool.or_eq_true, decide_eq_true_eq] at hc
    rcases hc with (h | h) | h <;> subst h <;> rfl
  cases q with
  | none => simpa [wrapQuote] using hs
  | some c =>
    intro x hx
    simp only [wrapQuote, List.mem_cons, List.mem_append, List.not_mem_nil, or_false] at hx
    rcases hx with (h | h) | h
    · subst h; exact hqs _ (hq _ rfl)
    · exact hs x h
    · subst h; exact hqs _ (hq _ rfl)

/-- C12. `getValueOf`, a key and a non-empty document name, both without
whitespace and without quote characters, each written bare or wrapped in a pair
of double quotes, single quotes or backticks, and separated by single spaces,
are classified GetValueOf with the fields `getValueOf`, the key and the
document name. The last conjunct is the example of the specification. -/
theorem delimiterLogicAndCleanup_getValueOf (key doc : Str) (q1 q2 : Option Char)
    (hd : doc ≠ [])
    (hks : ∀ c ∈ key, isSpace c = false) (hds : ∀ c ∈ doc, isSpace c = false)
    (hkq : ∀ c ∈ key, isQuote c = false) (hdq : ∀ c ∈ doc, isQuote c = false)
    (hq1 : ∀ c, q1 = some c → isQuote c = true) (hq2 : ∀ c, q2 = some c → isQuote c = true) :
    delimiterLogicAndCleanup (getValueOfPlaceholder (wrapQuote q1 key) (wrapQuote q2 doc))
      = ⟨actionType.GetValueOf, [], ["getValueOf".toList, key, doc]⟩
    ∧ delimiterLogicAndCleanup
        "\x7b\x7b getValueOf \x22token\x22 \x27auth.yaml\x27 \x7d\x7d".toList
      = ⟨actionType.GetValueOf, [],
          ["getValueOf".toList, "token".toList, "auth.yaml".toList]⟩ := by
  refine ⟨?_, by decide⟩
  have hne : wrapQuote q2 doc ≠ [] := by
    cases q2 with
    | none => simpa [wrapQuote] using hd
    | some c => simp [wrapQuote]
  rw [delimiterLogicAndCleanup_three _ _ (wrapQuote_no_space q1 key hq1 hks)
    (wrapQuote_no_space q2 doc hq2 hds) hne,
    filter_wrapQuote q1 key hq1 hkq, filter_wrapQuote q2 doc hq2 hdq]

theorem delimiterLogicAndCleanup_getValueOf_witness :
    delimiterLogicAndCleanup
        (getValueOfPlaceholder (wrapQuote (some '\x60') "id".toList)
          (wrapQuote none "users.yml".toList))
      = ⟨actionType.GetValueOf, [], ["getValueOf".toList, "id".toList, "users.yml".toList]⟩ :=
  (delimiterLogicAndCleanup_getValueOf "id".toList "users.yml".toList (some '\x60') none
    (by decide) (by decide) (by decide) (by decide) (by decide)
    (by decide) (by decide)).1

/-- C13 at its failing input. `cleanStrings` deletes the apostrophe inside
`user's`, and the classified key of `{{ getValueOf user's auth.yaml }}` is
`users`: the replacer removes every quote character of a token, not only the
surrounding ones. -/
theorem cleanStrings_interior_quote :
    cleanStrings ["user\x27s".toList] = ["users".toList]
    ∧ delimiterLogicAndCleanup "\x7b\x7b getValueOf user\x27s auth.yaml \x7d\x7d".toList
      = ⟨actionType.GetValueOf, [],
          ["getValueOf".toList, "users".toList, "auth.yaml".toList]⟩
    ∧ ∀ s : Str, cleanStrings [s] = [s.filter (fun c => !isQuote c)] := by
  refine ⟨by decide, by decide, ?_⟩
  intro s
  rfl

theorem splitGo_ne_nil (sep : Str) : ∀ (s : Str) (k : Nat), splitGo sep k s ≠ [] := by
  intro s
  induction s with
  | nil => intro k; simp [splitGo]
  | cons c s ih =>
    intro k
    cases k with
    | succ k => rw [splitGo_succ]; exact ih k
    | zero =>
      rw [splitGo_zero]
      split
      · simp
      · cases h : splitGo sep 0 s with
        | nil => exact absurd h (ih 0)
        | cons a b => simp [consHead]

theorem length_consHead (c : Char) (l : List Str) (h : l ≠ []) :
    (consHead c l).length = l.length := by
  cases l with
  | nil => exact absurd rfl h
  | cons a b => rfl

/-- Splitting on a single space gives one piece more than there are spaces. -/
theorem length_splitSpace (s : Str) :
    (splitGo " ".toList 0 s).length = 1 + s.count ' ' := by
  induction s with
  | nil => rfl
  | cons c s ih =>
    rw [splitGo_zero]
    by_cases hc : c = ' '
    · subst hc
      have : " ".toList.isPrefixOf (' ' :: s) = true := by simp [List.isPrefixOf]
      rw [this]
      simp only [if_true, List.length_cons]
      have e : " ".toList.length - 1 = 0 := rfl
      rw [e, ih]
      simp
      omega
    · have hc' : ¬ ' ' = c := fun e => hc e.symm
      have : " ".toList.isPrefixOf (c :: s) = false := by simp [List.isPrefixOf, hc']
      rw [this]
      simp only [Bool.false_eq_true, if_false]
      rw [length_consHead _ _ (splitGo_ne_nil _ _ _), ih]
      simp [List.count_cons, hc]

theorem count_space_eq_zero (s : Str) (h : ∀ c ∈ s, isSpace c = false) : s.count ' ' = 0 := by
  rw [List.count_eq_zero]
  intro hm
  exact absurd (h _ hm) (by decide)


/-- With separators that do not hold exactly two spaces between them, the
leaf is Invalid. -/
theorem delimiterLogicAndCleanup_separators (sep1 key sep2 doc : Str)
    (hk : ∀ c ∈ key, isSpace c = false) (hd : ∀ c ∈ doc, isSpace c = false)
    (hdne : doc ≠ []) (hcount : (sep1 ++ sep2).count ' ' ≠ 2) :
    delimiterLogicAndCleanup (getValueOfWith sep1 key sep2 doc)
      = ⟨actionType.Invalid, [], []⟩ := by
  have e : getValueOfWith sep1 key sep2 doc
      = '\x7b' :: '\x7b' :: (([' '] ++ ("getValueOf".toList ++ sep1 ++ key ++ sep2 ++ doc)
          ++ [' ']) ++ ['\x7d', '\x7d']) := by
    simp [getValueOfWith]
  have hhead : ([' '] ++ ("getValueOf".toList ++ sep1 ++ key ++ sep2 ++ doc) ++ [' ']).head?
      ≠ some '\x7b' := by simp
  have hlast : ([' '] ++ ("getValueOf".toList ++ sep1 ++ key ++ sep2 ++ doc) ++ [' ']).getLast?
      ≠ some '\x7d' := by
    rw [List.getLast?_concat]; decide
  have htrim : trimSpace ([' '] ++ ("getValueOf".toList ++ sep1 ++ key ++ sep2 ++ doc) ++ [' '])
      = "getValueOf".toList ++ sep1 ++ key ++ sep2 ++ doc := by
    apply trimSpace_pad [' '] _ [' '] (by decide) (by decide)
    · intro c hc
      simp only [String.toList, List.cons_append, List.head?_cons, Option.some.injEq] at hc
      subst hc; rfl
    · intro c hc
      obtain ⟨d0, dl, hd0⟩ : ∃ d0 dl, doc = d0 ++ [dl] := by
        rcases List.eq_nil_or_concat doc with h | ⟨d0, dl, h⟩
        · exact absurd h hdne
        · exact ⟨d0, dl, by simpa [List.concat_eq_append] using h⟩
      have e2 : "getValueOf".toList ++ sep1 ++ key ++ sep2 ++ doc
          = ("getValueOf".toList ++ sep1 ++ key ++ sep2 ++ d0) ++ [dl] := by
        rw [hd0]; simp
      rw [e2, List.getLast?_concat] at hc
      cases hc
      exact hd c (by rw [hd0]; simp)
  have hlen : (stringsSplit ("getValueOf".toList ++ sep1 ++ key ++ sep2 ++ doc)
      " ".toList).length = 1 + (sep1 ++ sep2).count ' ' := by
    unfold stringsSplit
    rw [length_splitSpace]
    simp only [List.count_append, count_space_eq_zero key hk, count_space_eq_zero doc hd]
    have : "getValueOf".toList.count ' ' = 0 := by decide
    omega
  unfold delimiterLogicAndCleanup
  rw [e, stringHasDelimiter_shape]
  simp only [hhead, hlast, or_self, if_false, htrim]
  by_cases h0 : (sep1 ++ sep2).count ' ' = 0
  · have hT : (stringsSplit ("getValueOf".toList ++ sep1 ++ key ++ sep2 ++ doc) " ".toList)
        = ["getValueOf".toList ++ sep1 ++ key ++ sep2 ++ doc] := by
      apply splitSpace_single
      intro c hc he
      subst he
      have : ("getValueOf".toList ++ sep1 ++ key ++ sep2 ++ doc).count ' ' = 0 := by
        simp only [List.count_append, count_space_eq_zero key hk, count_space_eq_zero doc hd]
        have : "getValueOf".toList.count ' ' = 0 := by decide
        simp only [List.count_append] at h0
        omega
      exact absurd hc (List.count_eq_zero.mp this)
    rw [hT]
    simp [hasPrefix]
  · have hl1 : ¬ (stringsSplit ("getValueOf".toList ++ sep1 ++ key ++ sep2 ++ doc)
        " ".toList).length = 1 := by omega
    have hl3 : ¬ (stringsSplit ("getValueOf".toList ++ sep1 ++ key ++ sep2 ++ doc)
        " ".toList).length = 3 := by omega
    simp only [hl1, hl3, decide_False, Bool.false_and, Bool.false_eq_true, if_false, ite_self]

/-- C14, as the code has it. The interior is split on single spaces. With
one space on either side of the key the leaf is GetValueOf with the key and the
document name (quote characters deleted); with separators that do not hold
exactly two spaces between them, such as a tab alone or a double space, the
leaf is Invalid. -/
theorem delimiterLogicAndCleanup_single_spaces (key doc : Str)
    (hk : ∀ c ∈ key, isSpace c = false) (hd : ∀ c ∈ doc, isSpace c = false)
    (hdne : doc ≠ []) :
    delimiterLogicAndCleanup (getValueOfWith " ".toList key " ".toList doc)
      = ⟨actionType.GetValueOf, [],
          ["getValueOf".toList, key.filter (fun c => !isQuote c),
            doc.filter (fun c => !isQuote c)]⟩
    ∧ ∀ sep1 sep2 : Str, (sep1 ++ sep2).count ' ' ≠ 2 →
        delimiterLogicAndCleanup (getValueOfWith sep1 key sep2 doc)
          = ⟨actionType.Invalid, [], []⟩ := by
  constructor
  · have e : getValueOfWith " ".toList key " ".toList doc = getValueOfPlaceholder key doc := by
      simp [getValueOfWith, getValueOfPlaceholder]
    rw [e]
    exact delimiterLogicAndCleanup_three key doc hk hd hdne
  · intro sep1 sep2 hc
    exact delimiterLogicAndCleanup_separators sep1 key sep2 doc hk hd hdne hc

theorem delimiterLogicAndCleanup_single_spaces_witness :
    delimiterLogicAndCleanup
        (getValueOfWith "\t".toList "token".toList " ".toList "auth.yaml".toList)
      = ⟨actionType.Invalid, [], []⟩ :=
  (delimiterLogicAndCleanup_single_spaces "token".toList "auth.yaml".toList
    (by decide) (by decide) (by decide)).2 "\t".toList " ".toList (by decide)

/-- C14 fails as stated: with two spaces between `getValueOf` and the key the
interior splits into four chunks and the leaf is Invalid, while the same leaf
with single spaces is GetValueOf. -/
theorem delimiterLogicAndCleanup_separator_counterexample :
    delimiterLogicAndCleanup
        (getValueOfWith "  ".toList "token".toList " ".toList "auth.yaml".toList)
      = ⟨actionType.Invalid, [], []⟩
    ∧ delimiterLogicAndCleanup
        (getValueOfWith " ".toList "token".toList " ".toList "auth.yaml".toList)
      = ⟨actionType.GetValueOf, [],
          ["getValueOf".toList, "token".toList, "auth.yaml".toList]⟩ := by
  decide

/-! ### Empty discovered paths -/

theorem parsePath_nil : parsePath [] = .error Fault.emptyPath := by decide

theorem translateDotStrings_empty_path (secretsMap : Doc) (es : List EachDotStringAction)
    (h : ∃ e ∈ es, e.Path = []) :
    ∀ d : Doc, ∃ err, translateDotStrings secretsMap es d = .error err := by
  induction es with
  | nil => obtain ⟨e, he, _⟩ := h; simp at he
  | cons a rest ih =>
    intro d
    rw [translateDotStrings]
    cases hp : parsePath a.Path with
    | error err => exact ⟨_, rfl⟩
    | ok path =>
      have hrest : ∃ e ∈ rest, e.Path = [] := by
        obtain ⟨e, he, hpe⟩ := h
        rcases List.mem_cons.mp he with h1 | h1
        · subst h1
          rw [hpe, parsePath_nil] at hp
          exact absurd hp (by simp)
        · exact ⟨e, h1, hpe⟩
      simp only []
      split
      · exact ih hrest d
      · split
        · exact ih hrest d
        · split
          · exact ih hrest _
          · exact ⟨_, rfl⟩

theorem translateGetValueOfs_empty_path (getValueOf : Str → Str → Value)
    (es : List EachGetValueofAction) (h : ∃ e ∈ es, e.Path = []) :
    ∀ d : Doc, ∃ err, translateGetValueOfs getValueOf es d = .error err := by
  induction es with
  | nil => obtain ⟨e, he, _⟩ := h; simp at he
  | cons a rest ih =>
    intro d
    rw [translateGetValueOfs]
    cases hp : parsePath a.Path with
    | error err => exact ⟨_, rfl⟩
    | ok path =>
      have hrest : ∃ e ∈ rest, e.Path = [] := by
        obtain ⟨e, he, hpe⟩ := h
        rcases List.mem_cons.mp he with h1 | h1
        · subst h1
          rw [hpe, parsePath_nil] at hp
          exact absurd hp (by simp)
        · exact ⟨e, h1, hpe⟩
      simp only []
      split
      · exact ih hrest d
      · split
        · exact ih hrest _
        · exact ⟨_, rfl⟩

/-- A placeholder under the top-level key `""` is discovered with the empty path. -/
theorem empty_key_entry (beforeMap : Doc) (s : Str)
    (hm : (([] : Str), Value.str s) ∈ beforeMap)
    (hc : (delimiterLogicAndCleanup s).Typ ≠ actionType.Invalid) :
    (∃ e ∈ (findPathFromMap beforeMap []).DotStrings, e.Path = [])
      ∨ (∃ e ∈ (findPathFromMap beforeMap []).GetValueOfs, e.Path = []) := by
  rw [findPathFromMap_catalogue]
  have hl : (([⟨[], none⟩] : List Segment), s) ∈ leaves beforeMap :=
    mem_leaves_of_mem beforeMap [] (.str s) _ hm (by simp [leavesValue])
  have hpath : pathString [] [(⟨[], none⟩ : Segment)] = [] := by
    simp [pathString, extendPath]
  cases ht : (delimiterLogicAndCleanup s).Typ with
  | Invalid => exact absurd ht hc
  | DotString =>
    left
    refine ⟨⟨[], (delimiterLogicAndCleanup s).DotString⟩, ?_, rfl⟩
    simp only [catalogue, List.mem_filterMap]
    exact ⟨_, hl, by simp [dotEntry, ht, hpath]⟩
  | GetValueOf =>
    right
    refine ⟨⟨[], (delimiterLogicAndCleanup s).GetValueOf.getD 1 [],
      (delimiterLogicAndCleanup s).GetValueOf.getD 2 []⟩, ?_, rfl⟩
    simp only [catalogue, List.mem_filterMap]
    exact ⟨_, hl, by simp [getEntry, ht, hpath]⟩

/-- C15, as the code has it. An empty discovered path is not skipped: with a
placeholder stored under the top-level key `""`, `translateType` never returns
a nil error, for any destination, table and lookup function, and when the
entry is the first of its loop the error is the wrapped `path should not be
empty` of `parsePath`. -/
theorem translateType_empty_path_fails (beforeMap afterMap secretsMap : Doc)
    (getValueOf : Str → Str → Value) (s : Str)
    (hm : (([] : Str), Value.str s) ∈ beforeMap)
    (hc : (delimiterLogicAndCleanup s).Typ ≠ actionType.Invalid) :
    (∃ err, translateType beforeMap afterMap secretsMap getValueOf = .error err)
    ∧ (∀ (k : Str) (rest : List EachDotStringAction),
        translateDotStrings secretsMap (⟨[], k⟩ :: rest) afterMap
          = .error (Fault.inTranslateType Fault.emptyPath))
    ∧ (∀ (k f : Str) (rest : List EachGetValueofAction),
        translateGetValueOfs getValueOf (⟨[], k, f⟩ :: rest) afterMap
          = .error (Fault.inTranslateType Fault.emptyPath)) := by
  refine ⟨?_, ?_, ?_⟩
  · unfold translateType
    simp only []
    rcases empty_key_entry beforeMap s hm hc with h | h
    · obtain ⟨err, he⟩ := translateDotStrings_empty_path secretsMap _ h afterMap
      exact ⟨err, by rw [he]⟩
    · cases hd : translateDotStrings secretsMap (findPathFromMap beforeMap []).DotStrings
          afterMap with
      | error err => exact ⟨err, rfl⟩
      | ok d' =>
        obtain ⟨err, he⟩ := translateGetValueOfs_empty_path getValueOf _ h d'
        exact ⟨err, by simp only [he]⟩
  · intro k rest
    rw [translateDotStrings]
    simp only [parsePath_nil]
  · intro k f rest
    rw [translateGetValueOfs]
    simp only [parsePath_nil]

theorem translateType_empty_path_fails_witness :
    ∃ err, translateType
        [("a".toList, .str "\x7b\x7b .y \x7d\x7d".toList),
          ([], .str "\x7b\x7b getValueOf k f \x7d\x7d".toList)]
        [("a".toList, .str "7".toList), ([], .str "x".toList)]
        [("y".toList, .num 7)] (fun _ _ => .null) = .error err :=
  (translateType_empty_path_fails
    [("a".toList, .str "\x7b\x7b .y \x7d\x7d".toList),
      ([], .str "\x7b\x7b getValueOf k f \x7d\x7d".toList)]
    [("a".toList, .str "7".toList), ([], .str "x".toList)]
    [("y".toList, .num 7)] (fun _ _ => .null) "\x7b\x7b getValueOf k f \x7d\x7d".toList
    (by decide) (by decide)).1

/-- C15 fails as stated: with a dot-reference under the top-level key `""`
`translateType` returns the error of `parsePath`, not a nil error, and the
other placeholder is not resolved. -/
theorem translateType_empty_path_counterexample :
    translateType
        [([], .str "\x7b\x7b .x \x7d\x7d".toList),
          ("a".toList, .str "\x7b\x7b .y \x7d\x7d".toList)]
        [([], .str "1".toList), ("a".toList, .str "7".toList)]
        [("x".toList, .num 1), ("y".toList, .num 7)] (fun _ _ => .null)
      = .error (Fault.inTranslateType Fault.emptyPath) := by
  decide

/-! ### Paths that miss the destination -/

theorem slotOk_of_child (t : Token) (cur w : Value) (h : child t cur = some w) :
    slotOk t cur = true := by
  cases t with
  | key k => cases cur <;> simp [child, slotOk] at h ⊢
  | idx i =>
    cases cur with
    | list xs =>
      simp only [child] at h
      by_cases hi : i < 0
      · simp [hi] at h
      · simp only [hi, if_false] at h
        obtain ⟨hlt, _⟩ := List.getElem?_eq_some_iff.mp h
        simp only [slotOk, decide_eq_true_eq]
        omega
    | null => simp [child] at h
    | bool _ => simp [child] at h
    | num _ => simp [child] at h
    | str _ => simp [child] at h
    | map _ => simp [child] at h

theorem setKey_absent (k : Str) (v : Value) (m : Doc) (h : lookup k m = none) :
    setKey k v m = m ++ [(k, v)] := by
  induction m with
  | nil => rfl
  | cons a rest ih =>
    obtain ⟨a1, a2⟩ := a
    by_cases e : a1 = k
    · simp [lookup, e] at h
    · simp only [lookup, e, if_false] at h
      simp [setKey, e, ih h]

/-- A token before the last that cannot be followed makes the write panic. -/
theorem setValueAt_panic_inner (c : Value) :
    ∀ (path : List Token) (cur : Value), follow path.dropLast cur = none →
      setValueAt path cur c = .error Fault.panic := by
  intro path
  induction path with
  | nil => intro cur h; simp [follow] at h
  | cons t rest ih =>
    intro cur h
    cases rest with
    | nil => simp [follow] at h
    | cons t' r =>
      have hd : (t :: t' :: r).dropLast = t :: (t' :: r).dropLast := by simp
      rw [hd, follow_cons] at h
      by_cases hs : slotOk t cur = true
      · rw [setValueAt_more t (t' :: r) cur c hs (by simp)]
        cases hc : child t cur with
        | none => rfl
        | some w =>
          rw [hc] at h
          simp only [] at h
          simp only [ih w h]
      · exact setValueAt_not_ok t _ cur c (by simpa using hs)

/-- A last token that cannot be applied to the value reached makes the write panic. -/
theorem setValueAt_panic_last (c : Value) (t : Token) :
    ∀ (init : List Token) (cur w : Value), follow init cur = some w → slotOk t w = false →
      setValueAt (init ++ [t]) cur c = .error Fault.panic := by
  intro init
  induction init with
  | nil =>
    intro cur w h hs
    simp only [follow, Option.some.injEq] at h
    subst h
    exact setValueAt_not_ok t [] cur c hs
  | cons u r ih =>
    intro cur w h hs
    rw [follow_cons] at h
    cases hc : child u cur with
    | none => rw [hc] at h; exact absurd h (by simp)
    | some x =>
      rw [hc] at h
      simp only [] at h
      have hu := slotOk_of_child u cur x hc
      rw [List.cons_append, setValueAt_more u (r ++ [t]) cur c hu (by simp), hc]
      simp only [ih x w h hs]

/-- A last string token whose key is absent from the mapping reached adds the key. -/
theorem setValueAt_insert (c : Value) (k : Str) :
    ∀ (init : List Token) (cur : Value) (m : Doc), follow init cur = some (.map m) →
      lookup k m = none →
      ∃ cur', setValueAt (init ++ [Token.key k]) cur c = .ok cur'
        ∧ follow init cur' = some (.map (m ++ [(k, c)])) := by
  intro init
  induction init with
  | nil =>
    intro cur m h hl
    simp only [follow, Option.some.injEq] at h
    subst h
    refine ⟨.map (m ++ [(k, c)]), ?_, by simp [follow]⟩
    rw [List.nil_append, setValueAt_last _ _ _ (by simp [slotOk])]
    simp [child, put, hl, guarded, setKey_absent k c m hl]
  | cons u r ih =>
    intro cur m h hl
    rw [follow_cons] at h
    cases hc : child u cur with
    | none => rw [hc] at h; exact absurd h (by simp)
    | some x =>
      rw [hc] at h
      simp only [] at h
      have hu := slotOk_of_child u cur x hc
      obtain ⟨x', hs, hf⟩ := ih x m h hl
      refine ⟨put u x' cur, ?_, ?_⟩
      · rw [List.cons_append, setValueAt_more u (r ++ [Token.key k]) cur c hu (by simp), hc]
        simp only [hs]
      · rw [follow_cons, child_put_self u x' cur hu]
        exact hf

/-- C16, as the code has it. A token before the last that names an absent key
or index, and a last token that names an absent index or does not fit the
value reached, make `setValueOnAfterMap` panic. A last string token whose key
is absent from the mapping reached does not: the call returns normally and
the mapping has the key added, with the candidate as its value. -/
theorem setValueOnAfterMap_misaligned (afterMap : Doc) (c : Value) :
    (∀ path : List Token, follow path.dropLast (.map afterMap) = none →
        setValueOnAfterMap path afterMap c = .error Fault.panic)
    ∧ (∀ (init : List Token) (t : Token) (w : Value),
        follow init (.map afterMap) = some w → slotOk t w = false →
        setValueOnAfterMap (init ++ [t]) afterMap c = .error Fault.panic)
    ∧ (∀ (init : List Token) (k : Str) (m : Doc),
        follow init (.map afterMap) = some (.map m) → lookup k m = none →
        ∃ d', setValueOnAfterMap (init ++ [Token.key k]) afterMap c = .ok d'
          ∧ follow init (.map d') = some (.map (m ++ [(k, c)]))) := by
  refine ⟨?_, ?_, ?_⟩
  · intro path h
    simp [setValueOnAfterMap, setValueAt_panic_inner c path _ h]
  · intro init t w h hs
    simp [setValueOnAfterMap, setValueAt_panic_last c t init _ w h hs]
  · intro init k m h hl
    obtain ⟨cur', hs, hf⟩ := setValueAt_insert c k init _ m h hl
    obtain ⟨d', rfl⟩ := setValueAt_map_result _ _ _ _ hs
    exact ⟨d', (setValueOnAfterMap_ok_iff _ _ _ _).mpr hs, hf⟩

theorem setValueOnAfterMap_misaligned_witness :
    setValueOnAfterMap [Token.key "a".toList, Token.key "b".toList, Token.key "c".toList]
        [("a".toList, .map [("x".toList, .num 1)])] (.num 5) = .error Fault.panic :=
  (setValueOnAfterMap_misaligned [("a".toList, .map [("x".toList, .num 1)])] (.num 5)).1
    [Token.key "a".toList, Token.key "b".toList, Token.key "c".toList] (by decide)

/-- C16 fails as stated: the key `b` named by the last token is absent from
the destination, and the call returns normally with `b` added. -/
theorem setValueOnAfterMap_insert_counterexample :
    lookup "b".toList [("a".toList, .num 1)] = none
    ∧ setValueOnAfterMap [Token.key "b".toList] [("a".toList, .num 1)] (.num 5)
      = .ok [("a".toList, .num 1), ("b".toList, .num 5)] := by
  decide

/-! ### The frame of a write -/

/-- A write leaves every location at an incomparable path as it was. -/
theorem setValueAt_frame (c : Value) :
    ∀ (p q : List Token) (v v' : Value), setValueAt p v c = .ok v' → Incomparable p q →
      follow q v' = follow q v := by
  intro p
  induction p with
  | nil => intro q v v' _ hi; exact absurd rfl (incomparable_ne_nil hi).1
  | cons t rest ih =>
    intro q v v' h hi
    cases q with
    | nil => exact absurd rfl (incomparable_ne_nil hi).2
    | cons u q' =>
      obtain ⟨hs, h1⟩ := setValueAt_cons_inv t rest v c v' h
      by_cases htu : u = t
      · subst htu
        have hi' := (incomparable_cons u rest q').mp hi
        rcases h1 with ⟨e1, _⟩ | ⟨_, next, next', hc, hn, hv⟩
        · exact absurd e1 (incomparable_ne_nil hi').1
        · subst hv
          rw [follow_cons, follow_cons, child_put_self u next' v hs, hc]
          exact ih q' next next' hn hi'
      · obtain ⟨y, hy⟩ : ∃ y, v' = put t y v := by
          rcases h1 with ⟨_, e2⟩ | ⟨_, _, next', _, _, e4⟩
          · exact ⟨_, e2⟩
          · exact ⟨next', e4⟩
        rw [follow_cons, follow_cons, hy, child_put_ne u t y v htu hs]

/-- Along the path of a successful write, each container is the old one with
one slot written: the slot of the next token. -/
theorem setValueAt_container (c : Value) (t : Token) (r : List Token) :
    ∀ (q : List Token) (v v' w : Value), setValueAt (q ++ t :: r) v c = .ok v' →
      follow q v = some w →
      slotOk t w = true ∧ (r ≠ [] → (child t w).isSome = true)
        ∧ ∃ y, follow q v' = some (put t y w) := by
  intro q
  induction q with
  | nil =>
    intro v v' w h hf
    simp only [follow, Option.some.injEq] at hf
    subst hf
    obtain ⟨hs, h1⟩ := setValueAt_cons_inv t r v c v' h
    refine ⟨hs, ?_, ?_⟩
    · intro hr
      rcases h1 with ⟨e1, _⟩ | ⟨_, next, _, hc, _, _⟩
      · exact absurd e1 hr
      · simp [hc]
    · rcases h1 with ⟨_, e2⟩ | ⟨_, _, next', _, _, e4⟩
      · exact ⟨guarded (child t v) c, by simp [follow, e2]⟩
      · exact ⟨next', by simp [follow, e4]⟩
  | cons u q2 ih =>
    intro v v' w h hf
    rw [List.cons_append] at h
    obtain ⟨hs, h1⟩ := setValueAt_cons_inv u (q2 ++ t :: r) v c v' h
    rcases h1 with ⟨e1, _⟩ | ⟨_, next, next', hc, hn, hv⟩
    · simp at e1
    · rw [follow_cons, hc] at hf
      simp only [] at hf
      obtain ⟨a, b, y, hy⟩ := ih next next' w hn hf
      refine ⟨a, b, y, ?_⟩
      rw [hv, follow_cons, child_put_self u next' v hs]
      exact hy

theorem lookup_setKey_isSome (k k' : Str) (y : Value) (m : Doc) :
    (lookup k' (setKey k y m)).isSome = ((lookup k' m).isSome || decide (k' = k)) := by
  by_cases h : k' = k
  · subst h
    simp [lookup_setKey_self]
  · simp [lookup_setKey_ne k' k y m h, h]

/-- C18. The frame of `setValueOnAfterMap`. When the call returns normally,
every location at a path that is neither a prefix nor an extension of the
written path holds the value it held before. Along the written path every
sequence keeps its length, and every mapping keeps its keys: no key
disappears, and the only key that can appear is the one named by the last
token, in the mapping that holds the written slot. The result of the embedding
is the destination after the in-place write. -/
theorem setValueOnAfterMap_frame (path : List Token) (afterMap d' : Doc) (c : Value)
    (h : setValueOnAfterMap path afterMap c = .ok d') :
    (∀ q : List Token, Incomparable path q →
        follow q (.map d') = follow q (.map afterMap))
    ∧ (∀ (q : List Token) (t : Token) (r : List Token) (xs : List Value),
        path = q ++ t :: r → follow q (.map afterMap) = some (.list xs) →
        ∃ xs', follow q (.map d') = some (.list xs') ∧ xs'.length = xs.length)
    ∧ (∀ (q : List Token) (t : Token) (r : List Token) (m : Doc),
        path = q ++ t :: r → follow q (.map afterMap) = some (.map m) →
        ∃ m', follow q (.map d') = some (.map m')
          ∧ (∀ k, (lookup k m).isSome = true → (lookup k m').isSome = true)
          ∧ (∀ k, (lookup k m').isSome = true →
              (lookup k m).isSome = true ∨ (r = [] ∧ t = Token.key k))) := by
  rw [setValueOnAfterMap_ok_iff] at h
  refine ⟨?_, ?_, ?_⟩
  · intro q hi
    exact setValueAt_frame c path q _ _ h hi
  · intro q t r xs hp hf
    subst hp
    obtain ⟨hs, _, y, hy⟩ := setValueAt_container c t r q _ _ _ h hf
    cases t with
    | key k => simp [slotOk] at hs
    | idx i => exact ⟨_, hy, by simp⟩
  · intro q t r m hp hf
    subst hp
    obtain ⟨hs, hr, y, hy⟩ := setValueAt_container c t r q _ _ _ h hf
    cases t with
    | idx i => simp [slotOk] at hs
    | key k =>
      refine ⟨setKey k y m, hy, ?_, ?_⟩
      · intro k' hk
        rw [lookup_setKey_isSome, hk]
        rfl
      · intro k' hk
        rw [lookup_setKey_isSome] at hk
        by_cases e : k' = k
        · subst e
          by_cases hre : r = []
          · exact Or.inr ⟨hre, rfl⟩
          · left
            simpa [child] using hr hre
        · left
          simpa [e] using hk

theorem setValueOnAfterMap_frame_witness :
    follow [Token.key "b".toList] (.map [("a".toList, .list [.num 7, .str "y".toList]),
        ("b".toList, .str "x".toList)])
      = follow [Token.key "b".toList] (.map [("a".toList, .list [.str "7".toList,
          .str "y".toList]), ("b".toList, .str "x".toList)]) :=
  (setValueOnAfterMap_frame [Token.key "a".toList, Token.idx 0]
    [("a".toList, .list [.str "7".toList, .str "y".toList]), ("b".toList, .str "x".toList)]
    [("a".toList, .list [.num 7, .str "y".toList]), ("b".toList, .str "x".toList)]
    (.num 7) (by decide)).1 [Token.key "b".toList] (by decide)

/-! ### The shape of parsed paths -/

theorem parseSegments_ok (arrayKey : Str → Bool × Str × Int) (segs : List Str) :
    ∀ (i : Nat) (keys toks : List Token), parseSegments arrayKey segs i keys = .ok toks →
      toks = keys ++ allToks arrayKey segs := by
  induction segs with
  | nil =>
    intro i keys toks h
    simp only [parseSegments, Except.ok.injEq] at h
    simp [allToks, h]
  | cons seg rest ih =>
    intro i keys toks h
    rw [parseSegments] at h
    by_cases hb : trimSpace seg = []
    · simp [hb] at h
    · simp only [hb, if_false] at h
      by_cases ha : (arrayKey (trimSpace seg)).1 = true
      · simp only [ha, if_true] at h
        rw [ih _ _ _ h]
        simp [allToks, segmentToks, ha]
      · simp only [ha, Bool.false_eq_true, if_false] at h
        rw [ih _ _ _ h]
        simp [allToks, segmentToks, ha]

theorem keyedFrom_allToks (arrayKey : Str → Bool × Str × Int) (segs : List Str) :
    ∀ b : Bool, keyedFrom b (allToks arrayKey segs) = true := by
  induction segs with
  | nil => intro b; rfl
  | cons seg rest ih =>
    intro b
    by_cases ha : (arrayKey (trimSpace seg)).1 = true
    · simp [allToks, segmentToks, ha, keyedFrom, ih]
    · simp [allToks, segmentToks, ha, keyedFrom, ih]

theorem length_allToks (arrayKey : Str → Bool × Str × Int) (segs : List Str) :
    (allToks arrayKey segs).length
      = segs.length + segs.countP (fun s => (arrayKey (trimSpace s)).1) := by
  induction segs with
  | nil => rfl
  | cons seg rest ih =>
    by_cases ha : (arrayKey (trimSpace seg)).1 = true
    · simp [allToks, segmentToks, ha, ih, List.countP_cons]
      omega
    · simp [allToks, segmentToks, ha, ih, List.countP_cons]
      omega

theorem allToks_head (arrayKey : Str → Bool × Str × Int) (segs : List Str) (h : segs ≠ []) :
    ∃ k rest, allToks arrayKey segs = Token.key k :: rest := by
  cases segs with
  | nil => exact absurd rfl h
  | cons seg rest =>
    by_cases ha : (arrayKey (trimSpace seg)).1 = true
    · exact ⟨(arrayKey (trimSpace seg)).2.1,
        Token.idx (arrayKey (trimSpace seg)).2.2 :: allToks arrayKey rest,
        by simp [allToks, segmentToks, ha]⟩
    · exact ⟨trimSpace seg, allToks arrayKey rest, by simp [allToks, segmentToks, ha]⟩

/-- C20. The shape of every successful `parsePath` result, whatever the
array-key matcher: the token list is not empty, starts with a string token,
has every integer token immediately after a string token, and its length is
the number of `->`-separated segments plus the number of segments the matcher
recognises. So after a successful parse the `len(path) == 0` branch of
`translateType` is never taken. -/
theorem parsePath_shape (arrayKey : Str → Bool × Str × Int) (p : Str) (toks : List Token)
    (h : parsePathWith arrayKey p = .ok toks) :
    toks ≠ []
    ∧ (∃ k rest, toks = Token.key k :: rest)
    ∧ keyedFrom false toks = true
    ∧ toks.length = (stringsSplit p "->".toList).length
        + (stringsSplit p "->".toList).countP (fun s => (arrayKey (trimSpace s)).1)
    ∧ (∀ toks', parsePath p = .ok toks' → ¬ toks'.length = 0) := by
  have key : ∀ (ak : Str → Bool × Str × Int) (ts : List Token),
      parsePathWith ak p = .ok ts → ts = allToks ak (stringsSplit p "->".toList) := by
    intro ak ts hp
    unfold parsePathWith at hp
    split at hp
    · exact absurd hp (by simp)
    · simpa using parseSegments_ok ak _ 0 [] ts hp
  have hne : stringsSplit p "->".toList ≠ [] := splitGo_ne_nil _ _ _
  have e := key arrayKey toks h
  obtain ⟨k, rest, hk⟩ := allToks_head arrayKey _ hne
  refine ⟨?_, ?_, ?_, ?_, ?_⟩
  · rw [e, hk]; simp
  · exact ⟨k, rest, by rw [e, hk]⟩
  · rw [e]; exact keyedFrom_allToks arrayKey _ false
  · rw [e]; exact length_allToks arrayKey _
  · intro toks' hp
    have e' := key ParseArrayKey toks' hp
    obtain ⟨k', rest', hk'⟩ := allToks_head ParseArrayKey _ hne
    rw [e', hk']
    simp

theorem parsePath_shape_witness :
    [Token.key "a".toList, Token.key "b".toList, Token.idx 2, Token.key "c".toList].length
      = (stringsSplit "a -> b[2] -> c".toList "->".toList).length
        + (stringsSplit "a -> b[2] -> c".toList "->".toList).countP
            (fun s => (ParseArrayKey (trimSpace s)).1) :=
  (parsePath_shape ParseArrayKey "a -> b[2] -> c".toList
    [Token.key "a".toList, Token.key "b".toList, Token.idx 2, Token.key "c".toList]
    (by decide)).2.2.2.1

/-! ### Writes at present, incomparable slots commute -/

theorem setKey_comm (k k' : Str) (x y : Value) (m : Doc) (h : k ≠ k')
    (hk : (lookup k m).isSome = true) (hk' : (lookup k' m).isSome = true) :
    setKey k x (setKey k' y m) = setKey k' y (setKey k x m) := by
  induction m with
  | nil => simp [lookup] at hk
  | cons a rest ih =>
    obtain ⟨a1, a2⟩ := a
    by_cases e : a1 = k
    · subst e
      have e' : ¬ a1 = k' := h
      simp [setKey, e', h]
    · by_cases e2 : a1 = k'
      · subst e2
        simp [setKey, e]
      · simp only [lookup, e, e2, if_false] at hk hk'
        simp [setKey, e, e2, ih hk hk']

theorem put_comm (t u : Token) (x y v : Value) (h : t ≠ u)
    (ht : (child t v).isSome = true) (hu : (child u v).isSome = true) :
    put t x (put u y v) = put u y (put t x v) := by
  cases t with
  | key k =>
    cases u with
    | key k' =>
      have hk : k ≠ k' := fun e => h (by rw [e])
      cases v <;> simp [child] at ht hu
      simp only [put, Value.map.injEq]
      exact setKey_comm k k' x y _ hk (by simpa using ht) (by simpa using hu)
    | idx j => cases v <;> simp [child] at ht hu
  | idx i =>
    cases u with
    | key k' => cases v <;> simp [child] at ht hu
    | idx j =>
      have hij : i ≠ j := fun e => h (by rw [e])
      cases v with
      | list xs =>
        have hi : ¬ i < 0 := by
          intro hn; simp [child, hn] at ht
        have hj : ¬ j < 0 := by
          intro hn; simp [child, hn] at hu
        have e : j.toNat ≠ i.toNat := by omega
        simp only [put, Value.list.injEq]
        exact List.set_comm y x xs e
      | null => simp [child] at ht
      | bool _ => simp [child] at ht
      | num _ => simp [child] at ht
      | str _ => simp [child] at ht
      | map _ => simp [child] at ht

/-- The write below a present slot depends only on what the slot holds. -/
theorem setValueAt_present (c : Value) (t : Token) (p' : List Token) (x a : Value)
    (hf : follow p' x = some a) :
    ∃ X, ∀ v0, slotOk t v0 = true → child t v0 = some x →
      setValueAt (t :: p') v0 c = .ok (put t X v0) := by
  by_cases hp : p' = []
  · subst hp
    refine ⟨guarded (some x) c, ?_⟩
    intro v0 hs hc
    rw [setValueAt_last t v0 c hs, hc]
  · obtain ⟨X, hX, _⟩ := setValueAt_follow c p' x a hp hf
    refine ⟨X, ?_⟩
    intro v0 hs hc
    rw [setValueAt_more t p' v0 c hs hp, hc]
    simp only [hX]

theorem follow_cons_inv (t : Token) (rest : List Token) (v a : Value)
    (h : follow (t :: rest) v = some a) :
    ∃ x, child t v = some x ∧ follow rest x = some a := by
  rw [follow_cons] at h
  cases hc : child t v with
  | none => rw [hc] at h; exact absurd h (by simp)
  | some x => rw [hc] at h; exact ⟨x, rfl, h⟩

/-- Two writes at incomparable paths that both address existing slots succeed
in either order, with the same result. -/
theorem setValueAt_comm (c c' : Value) :
    ∀ (p q : List Token) (v a b : Value), Incomparable p q →
      follow p v = some a → follow q v = some b →
      ∃ v1 v2 w, setValueAt p v c = .ok v1 ∧ setValueAt q v c' = .ok v2
        ∧ setValueAt q v1 c' = .ok w ∧ setValueAt p v2 c = .ok w := by
  intro p
  induction p with
  | nil => intro q v a b hi; exact absurd rfl (incomparable_ne_nil hi).1
  | cons t p' ih =>
    intro q v a b hi hp hq
    cases q with
    | nil => exact absurd rfl (incomparable_ne_nil hi).2
    | cons u q' =>
      obtain ⟨x, hcx, hfx⟩ := follow_cons_inv t p' v a hp
      obtain ⟨y, hcy, hfy⟩ := follow_cons_inv u q' v b hq
      have hst := slotOk_of_child t v x hcx
      have hsu := slotOk_of_child u v y hcy
      by_cases htu : t = u
      · subst htu
        rw [hcx] at hcy
        cases hcy
        have hi' := (incomparable_cons t p' q').mp hi
        obtain ⟨hpne, hqne⟩ := incomparable_ne_nil hi'
        obtain ⟨v1, v2, w, h1, h2, h3, h4⟩ := ih q' x a b hi' hfx hfy
        refine ⟨put t v1 v, put t v2 v, put t w v, ?_, ?_, ?_, ?_⟩
        · rw [setValueAt_more t p' v c hst hpne, hcx]
          simp only [h1]
        · rw [setValueAt_more t q' v c' hst hqne, hcx]
          simp only [h2]
        · rw [setValueAt_more t q' _ c' (by rw [slotOk_put]; exact hst) hqne,
            child_put_self t v1 v hst]
          simp only [h3, put_put]
        · rw [setValueAt_more t p' _ c (by rw [slotOk_put]; exact hst) hpne,
            child_put_self t v2 v hst]
          simp only [h4, put_put]
      · obtain ⟨X, hX⟩ := setValueAt_present c t p' x a hfx
        obtain ⟨Y, hY⟩ := setValueAt_present c' u q' y b hfy
        have hut : u ≠ t := fun e => htu e.symm
        refine ⟨put t X v, put u Y v, put u Y (put t X v), hX v hst hcx, hY v hsu hcy, ?_, ?_⟩
        · exact hY _ (by rw [slotOk_put]; exact hsu)
            (by rw [child_put_ne u t X v hut hst]; exact hcy)
        · rw [hX _ (by rw [slotOk_put]; exact hst)
            (by rw [child_put_ne t u Y v htu hsu]; exact hcx)]
          rw [put_comm t u X Y v htu (by simp [hcx]) (by simp [hcy])]

theorem setValueOnAfterMap_comm (p q : List Token) (d : Doc) (c c' : Value)
    (hi : Incomparable p q) (hp : present d p = true) (hq : present d q = true) :
    ∃ d1 d2 w, setValueOnAfterMap p d c = .ok d1 ∧ setValueOnAfterMap q d c' = .ok d2
      ∧ setValueOnAfterMap q d1 c' = .ok w ∧ setValueOnAfterMap p d2 c = .ok w := by
  obtain ⟨a, ha⟩ := Option.isSome_iff_exists.mp hp
  obtain ⟨b, hb⟩ := Option.isSome_iff_exists.mp hq
  obtain ⟨v1, v2, w, h1, h2, h3, h4⟩ := setValueAt_comm c c' p q (.map d) a b hi ha hb
  obtain ⟨d1, rfl⟩ := setValueAt_map_result _ _ _ _ h1
  obtain ⟨d2, rfl⟩ := setValueAt_map_result _ _ _ _ h2
  obtain ⟨w', rfl⟩ := setValueAt_map_result _ _ _ _ h3
  exact ⟨d1, d2, w', (setValueOnAfterMap_ok_iff _ _ _ _).mpr h1,
    (setValueOnAfterMap_ok_iff _ _ _ _).mpr h2, (setValueOnAfterMap_ok_iff _ _ _ _).mpr h3,
    (setValueOnAfterMap_ok_iff _ _ _ _).mpr h4⟩

theorem present_after (p q : List Token) (d d' : Doc) (c : Value)
    (h : setValueOnAfterMap p d c = .ok d') (hi : Incomparable p q) :
    present d' q = present d q := by
  rw [setValueOnAfterMap_ok_iff] at h
  unfold present
  rw [setValueAt_frame c p q _ _ h hi]

theorem applyOps_swap (a b : List Token × Value) (rest : List (List Token × Value)) (d : Doc)
    (hi : Incomparable a.1 b.1) (ha : present d a.1 = true) (hb : present d b.1 = true) :
    applyOps (a :: b :: rest) d = applyOps (b :: a :: rest) d := by
  obtain ⟨d1, d2, w, h1, h2, h3, h4⟩ := setValueOnAfterMap_comm a.1 b.1 d a.2 b.2 hi ha hb
  simp only [applyOps, h1, h2, h3, h4]

/-- A run of writes at pairwise incomparable paths that all address existing
slots does not depend on the order of the writes. -/
theorem applyOps_perm {ops ops' : List (List Token × Value)} (hperm : ops.Perm ops') :
    ∀ d : Doc, (ops.map Prod.fst).Pairwise Incomparable →
      (∀ op ∈ ops, present d op.1 = true) → applyOps ops d = applyOps ops' d := by
  induction hperm with
  | nil => intro d _ _; rfl
  | @cons x l1 l2 _ ih =>
    intro d hpw hpr
    simp only [List.map_cons, List.pairwise_cons, List.mem_map, forall_exists_index, and_imp,
      forall_apply_eq_imp_iff₂] at hpw
    simp only [applyOps]
    cases hs : setValueOnAfterMap x.1 d x.2 with
    | error e => rfl
    | ok d' =>
      simp only []
      apply ih d' hpw.2
      intro op hop
      rw [present_after x.1 op.1 d d' x.2 hs (hpw.1 op hop)]
      exact hpr op (by simp [hop])
  | swap x y l =>
    intro d hpw hpr
    simp only [List.map_cons, List.pairwise_cons, List.mem_cons, List.mem_map,
      forall_eq_or_imp] at hpw
    exact applyOps_swap y x l d hpw.1.1 (hpr y (by simp)) (hpr x (by simp))
  | @trans l1 l2 l3 h12 _ ih1 ih2 =>
    intro d hpw hpr
    rw [ih1 d hpw hpr]
    apply ih2 d
    · have hsym : ∀ a b : List Token, Incomparable a b → Incomparable b a :=
        fun _ _ h => incomparable_symm h
      exact ((h12.map Prod.fst).pairwise_iff (fun {a b} h => hsym a b h)).mp hpw
    · intro op hop
      exact hpr op (h12.mem_iff.mpr hop)

/-- A run of writes that all address existing slots at pairwise incomparable
paths succeeds. -/
theorem applyOps_ok (ops : List (List Token × Value)) :
    ∀ d : Doc, (ops.map Prod.fst).Pairwise Incomparable →
      (∀ op ∈ ops, present d op.1 = true) → ∃ d1, applyOps ops d = .ok d1 := by
  induction ops with
  | nil => intro d _ _; exact ⟨d, rfl⟩
  | cons x rest ih =>
    intro d hpw hpr
    simp only [List.map_cons, List.pairwise_cons, List.mem_map, forall_exists_index, and_imp,
      forall_apply_eq_imp_iff₂] at hpw
    obtain ⟨a, ha⟩ := Option.isSome_iff_exists.mp (hpr x (by simp))
    obtain ⟨d', hs⟩ : ∃ d', setValueOnAfterMap x.1 d x.2 = .ok d' := by
      by_cases hx : x.1 = []
      · exact ⟨d, by rw [hx]; simp [setValueOnAfterMap, setValueAt]⟩
      · obtain ⟨m', hm, _⟩ := setValueOnAfterMap_follow x.1 d x.2 a hx ha
        exact ⟨m', hm⟩
    have := ih d' hpw.2 (by
      intro op hop
      rw [present_after x.1 op.1 d d' x.2 hs (hpw.1 op hop)]
      exact hpr op (by simp [hop]))
    obtain ⟨d1, h1⟩ := this
    exact ⟨d1, by simp only [applyOps, hs, h1]⟩

/-! ### Independence of the order of discovery -/

theorem discoveredOps_present (D d secretsMap : Doc) (getValueOf : Str → Str → Value)
    (hg : goodKeys D = true) (hu : uniqueKeys D = true) (ha : aligned D d = true) :
    ∀ op ∈ discoveredOps D secretsMap getValueOf, present d op.1 = true := by
  intro op hop
  unfold discoveredOps at hop
  rw [findPathFromMap_catalogue] at hop
  simp only [catalogue, List.filterMap_filterMap, List.mem_append, List.mem_filterMap] at hop
  simp only [aligned, List.all_eq_true, Bool.or_eq_true, decide_eq_true_eq] at ha
  rcases hop with ⟨x, hx, hb⟩ | ⟨x, hx, hb⟩
  · obtain ⟨e, ht⟩ := dotOp_of_leaf D hg hu secretsMap x hx op hb
    rcases ha x hx with h | h
    · rw [ht] at h; exact absurd h (by decide)
    · rw [e]; exact h
  · obtain ⟨e, ht⟩ := getOp_of_leaf D hg hu getValueOf x hx op hb
    rcases ha x hx with h | h
    · rw [ht] at h; exact absurd h (by decide)
    · rw [e]; exact h

theorem translateType_eq_discoveredOps (D d secretsMap : Doc) (getValueOf : Str → Str → Value)
    (hg : goodKeys D = true) (hu : uniqueKeys D = true) :
    translateType D d secretsMap getValueOf
      = applyOps (discoveredOps D secretsMap getValueOf) d := by
  obtain ⟨hp1, hp2⟩ := paths_parse D hg hu
  exact translateType_eq_applyOps D d secretsMap getValueOf hp1 hp2

/-- Sources with the same reachable leaves have the same leaves up to order. -/
theorem leaves_perm (D D' : Doc) (hu : uniqueKeys D = true) (hu' : uniqueKeys D' = true)
    (h : ∀ p s, Reaches D' p s ↔ Reaches D p s) : (leaves D').Perm (leaves D) := by
  rw [List.perm_ext_iff_of_nodup (List.Nodup.of_map _ (nodup_leaves D' hu'))
    (List.Nodup.of_map _ (nodup_leaves D hu))]
  intro x
  obtain ⟨p, s⟩ := x
  rw [mem_leaves_iff, mem_leaves_iff]
  exact h p s

theorem discoveredOps_perm (D D' secretsMap : Doc) (getValueOf : Str → Str → Value)
    (hu : uniqueKeys D = true) (hu' : uniqueKeys D' = true)
    (h : ∀ p s, Reaches D' p s ↔ Reaches D p s) :
    (discoveredOps D secretsMap getValueOf).Perm (discoveredOps D' secretsMap getValueOf) := by
  have hl := (leaves_perm D D' hu hu' h).symm
  unfold discoveredOps
  rw [findPathFromMap_catalogue, findPathFromMap_catalogue]
  simp only [catalogue]
  exact (((hl.filterMap _).filterMap _)).append ((hl.filterMap _).filterMap _)

/-- C19. `translateType` does not depend on the order of discovery. For a
source whose mapping keys are good keys, not repeated within a mapping, and a
destination aligned with it, the run succeeds, and its result is the result of
doing the discovered writes in any order: with the two lists of the catalogue
permuted in any way, with the getValueOf entries processed before or after the
dot-references, and from any source that has the same reachable leaves (the
same mappings iterated in another order). -/
theorem translateType_order_independent (D d secretsMap : Doc)
    (getValueOf : Str → Str → Value)
    (hg : goodKeys D = true) (hu : uniqueKeys D = true) (ha : aligned D d = true) :
    (∃ d1, translateType D d secretsMap getValueOf = .ok d1)
    ∧ (∀ ops' : List (List Token × Value),
        ops'.Perm (discoveredOps D secretsMap getValueOf) →
        applyOps ops' d = translateType D d secretsMap getValueOf)
    ∧ (∀ (ds' : List EachDotStringAction) (gs' : List EachGetValueofAction),
        ds'.Perm (findPathFromMap D []).DotStrings →
        gs'.Perm (findPathFromMap D []).GetValueOfs →
        (match translateDotStrings secretsMap ds' d with
          | .ok d' => translateGetValueOfs getValueOf gs' d'
          | .error e => .error e) = translateType D d secretsMap getValueOf
        ∧ (match translateGetValueOfs getValueOf gs' d with
          | .ok d' => translateDotStrings secretsMap ds' d'
          | .error e => .error e) = translateType D d secretsMap getValueOf)
    ∧ (∀ D' : Doc, goodKeys D' = true → uniqueKeys D' = true →
        (∀ p s, Reaches D' p s ↔ Reaches D p s) →
        translateType D' d secretsMap getValueOf
          = translateType D d secretsMap getValueOf) := by
  have hpw := ops_incomparable D hg hu secretsMap getValueOf
  have hpr := discoveredOps_present D d secretsMap getValueOf hg hu ha
  have hrun := translateType_eq_discoveredOps D d secretsMap getValueOf hg hu
  obtain ⟨hp1, hp2⟩ := paths_parse D hg hu
  have hany : ∀ ops' : List (List Token × Value),
      ops'.Perm (discoveredOps D secretsMap getValueOf) →
      applyOps ops' d = translateType D d secretsMap getValueOf := by
    intro ops' hperm
    rw [hrun]
    exact (applyOps_perm hperm.symm d hpw hpr).symm
  refine ⟨?_, hany, ?_, ?_⟩
  · rw [hrun]
    exact applyOps_ok _ d hpw hpr
  · intro ds' gs' hds hgs
    have e1 : ∀ d0, translateDotStrings secretsMap ds' d0
        = applyOps (ds'.filterMap (dotOp secretsMap)) d0 := fun d0 =>
      translateDotStrings_eq_applyOps secretsMap ds' d0
        (fun e he => hp1 e (hds.mem_iff.mp he))
    have e2 : ∀ d0, translateGetValueOfs getValueOf gs' d0
        = applyOps (gs'.filterMap (getOp getValueOf)) d0 := fun d0 =>
      translateGetValueOfs_eq_applyOps getValueOf gs' d0
        (fun e he => hp2 e (hgs.mem_iff.mp he))
    constructor
    · have key := hany _ ((hds.filterMap (dotOp secretsMap)).append
        (hgs.filterMap (getOp getValueOf)))
      rw [applyOps_append] at key
      rw [e1 d]
      simp only [e2]
      cases h : applyOps (ds'.filterMap (dotOp secretsMap)) d with
      | error e => rw [h] at key; exact key
      | ok d' => rw [h] at key; exact key
    · have key := hany _ (List.perm_append_comm.trans
        ((hds.filterMap (dotOp secretsMap)).append (hgs.filterMap (getOp getValueOf))))
      rw [applyOps_append] at key
      rw [e2 d]
      simp only [e1]
      cases h : applyOps (gs'.filterMap (getOp getValueOf)) d with
      | error e => rw [h] at key; exact key
      | ok d' => rw [h] at key; exact key
  · intro D' hg' hu' hre
    rw [translateType_eq_discoveredOps D' d secretsMap getValueOf hg' hu']
    exact hany _ (discoveredOps_perm D D' secretsMap getValueOf hu hu' hre).symm

theorem translateType_order_independent_witness :
    applyOps [([Token.key "n".toList, Token.idx 0, Token.key "v".toList], .num 42),
        ([Token.key "h".toList, Token.key "auth".toList], .str "abc".toList)]
        [("h".toList, .map [("auth".toList, .str "abc".toList)]),
          ("n".toList, .list [.map [("v".toList, .str "42".toList)]])]
      = translateType
        [("h".toList, .map [("auth".toList, .str "\x7b\x7b .token \x7d\x7d".toList)]),
          ("n".toList, .list [.map [("v".toList, .str "\x7b\x7b .n \x7d\x7d".toList)]])]
        [("h".toList, .map [("auth".toList, .str "abc".toList)]),
          ("n".toList, .list [.map [("v".toList, .str "42".toList)]])]
        [("token".toList, .str "abc".toList), ("n".toList, .num 42)] (fun _ _ => .null) :=
  (translateType_order_independent
    [("h".toList, .map [("auth".toList, .str "\x7b\x7b .token \x7d\x7d".toList)]),
      ("n".toList, .list [.map [("v".toList, .str "\x7b\x7b .n \x7d\x7d".toList)]])]
    [("h".toList, .map [("auth".toList, .str "abc".toList)]),
      ("n".toList, .list [.map [("v".toList, .str "42".toList)]])]
    [("token".toList, .str "abc".toList), ("n".toList, .num 42)] (fun _ _ => .null)
    (by decide) (by decide) (by decide)).2.1
    [([Token.key "n".toList, Token.idx 0, Token.key "v".toList], .num 42),
      ([Token.key "h".toList, Token.key "auth".toList], .str "abc".toList)]
    (by decide)

theorem toLower_toLower (c : Char) : c.toLower.toLower = c.toLower := by
  unfold Char.toLower
  simp only []
  by_cases h : c.toNat ≥ 65 ∧ c.toNat ≤ 90
  · rw [if_pos h]
    obtain ⟨h1, h2⟩ := h
    generalize c.toNat = n at h1 h2
    interval_cases n <;> decide
  · rw [if_neg h, if_neg h]

theorem stringsToLower_idem (f : Char → Char) (hf : ∀ c, f (f c) = f c) (s : Str) :
    stringsToLower f (stringsToLower f s) = stringsToLower f s := by
  unfold stringsToLower
  rw [List.map_map]
  exact List.map_congr_left (fun c _ => hf c)

/-- The value the loop stores for the entry `(k, v)`. -/
theorem convertLoop_cons (f : Char → Char) (k : Str) (v : Value) (rest : List (Str × Value))
    (acc : Doc) :
    convertLoop f ((k, v) :: rest) acc
      = convertLoop f rest (setKey (loweredKey f k)
          (if k = "variables".toList then v else convertValue f v) acc) := by
  rw [convertLoop]
  unfold loweredKey
  by_cases h : k = "variables".toList
  · rw [if_pos h, if_pos h, if_pos h]
  · rw [if_neg h, if_neg h, if_neg h]

theorem loweredKeys_cons (f : Char → Char) (k : Str) (v : Value) (rest : List (Str × Value)) :
    loweredKeys f ((k, v) :: rest) = true ↔
      ((k = "variables".toList ∨ (stringsToLower f k = k ∧ loweredKeysValue f v = true))
        ∧ loweredKeys f rest = true) := by
  rw [loweredKeys]
  simp only [Bool.and_eq_true, Bool.or_eq_true, decide_eq_true_eq]

theorem loweredKeys_setKey (f : Char → Char) (k : Str) (v : Value) (acc : Doc)
    (hacc : loweredKeys f acc = true)
    (hk : k = "variables".toList ∨ (stringsToLower f k = k ∧ loweredKeysValue f v = true)) :
    loweredKeys f (setKey k v acc) = true := by
  induction acc with
  | nil =>
    rw [setKey, loweredKeys_cons]
    exact ⟨hk, rfl⟩
  | cons a rest ih =>
    obtain ⟨a1, a2⟩ := a
    rw [loweredKeys_cons] at hacc
    rw [setKey]
    by_cases h : a1 = k
    · rw [if_pos h, loweredKeys_cons]
      exact ⟨hk, hacc.2⟩
    · rw [if_neg h, loweredKeys_cons]
      exact ⟨hacc.1, ih hacc.2⟩

mutual
theorem loweredKeys_convertLoop (f : Char → Char) (hf : ∀ c, f (f c) = f c) :
    ∀ (m : List (Str × Value)) (acc : Doc), loweredKeys f acc = true →
      loweredKeys f (convertLoop f m acc) = true
  | [], acc, hacc => by rw [convertLoop]; exact hacc
  | (k, v) :: rest, acc, hacc => by
    rw [convertLoop]
    by_cases h : k = "variables".toList
    · rw [if_pos h]
      exact loweredKeys_convertLoop f hf rest _ (loweredKeys_setKey f k v acc hacc (Or.inl h))
    · rw [if_neg h]
      exact loweredKeys_convertLoop f hf rest _
        (loweredKeys_setKey f _ _ acc hacc
          (Or.inr ⟨stringsToLower_idem f hf k, loweredKeysValue_convertValue f hf v⟩))
theorem loweredKeysValue_convertValue (f : Char → Char) (hf : ∀ c, f (f c) = f c) :
    ∀ v : Value, loweredKeysValue f (convertValue f v) = true
  | .map m => by
    rw [convertValue, loweredKeysValue]
    exact loweredKeys_convertLoop f hf m [] rfl
  | .null => rfl
  | .bool _ => rfl
  | .num _ => rfl
  | .str _ => rfl
  | .list _ => rfl
end

/-- A key that no remaining entry is stored under keeps its value. -/
theorem lookup_convertLoop_of_not_mem (f : Char → Char) (k : Str) :
    ∀ (m : List (Str × Value)) (acc : Doc),
      k ∉ m.map (fun e => loweredKey f e.1) →
      lookup k (convertLoop f m acc) = lookup k acc
  | [], acc, _ => by rw [convertLoop]
  | (k0, v0) :: rest, acc, h => by
    rw [convertLoop_cons]
    simp only [List.map_cons, List.mem_cons, not_or] at h
    rw [lookup_convertLoop_of_not_mem f k rest _ h.2]
    exact lookup_setKey_ne _ _ _ _ h.1

/-- With no two entries stored under one key, each entry is found in the
result under its key. -/
theorem lookup_convertLoop_of_mem (f : Char → Char) (k : Str) (v : Value) :
    ∀ (m : List (Str × Value)) (acc : Doc),
      (m.map (fun e => loweredKey f e.1)).Nodup → (k, v) ∈ m →
      lookup (loweredKey f k) (convertLoop f m acc)
        = some (if k = "variables".toList then v else convertValue f v)
  | [], _, _, hm => by cases hm
  | (k0, v0) :: rest, acc, hnd, hm => by
    rw [convertLoop_cons]
    simp only [List.map_cons, List.nodup_cons] at hnd
    rcases List.mem_cons.mp hm with h | h
    · have hk : k = k0 := congrArg Prod.fst h
      have hv : v = v0 := congrArg Prod.snd h
      subst hk; subst hv
      rw [lookup_convertLoop_of_not_mem f _ rest _ hnd.1]
      exact lookup_setKey_self _ _ _
    · exact lookup_convertLoop_of_mem f k v rest _ hnd.2 h

/-- What `ConvertKeysToLowerCase` does achieve, in support of C17. For a
lowercasing of runes that is idempotent: every key of the result reached
through mappings only and not under a key `variables` is `variables` or is
unchanged by lowercasing; when no two keys of `m` are stored under one key,
the result holds under `lowercase(k)` the converted value of `m[k]` for every
key `k` other than `variables`, and under `variables` the value of that key
unchanged; the converted value of a mapping is its conversion, while the type
switch has no case for a sequence, which is stored as it is. -/
theorem ConvertKeysToLowerCase_lowers (toLowerRune : Char → Char) (m : Doc)
    (hidem : ∀ c, toLowerRune (toLowerRune c) = toLowerRune c) :
    loweredKeys toLowerRune (ConvertKeysToLowerCase toLowerRune m) = true
    ∧ ((m.map (fun e => loweredKey toLowerRune e.1)).Nodup →
        (∀ k v, (k, v) ∈ m → k ≠ "variables".toList →
          lookup (stringsToLower toLowerRune k) (ConvertKeysToLowerCase toLowerRune m)
            = some (convertValue toLowerRune v))
        ∧ (∀ v, ("variables".toList, v) ∈ m →
          lookup "variables".toList (ConvertKeysToLowerCase toLowerRune m) = some v))
    ∧ (∀ m' : Doc, convertValue toLowerRune (.map m')
        = .map (ConvertKeysToLowerCase toLowerRune m'))
    ∧ (∀ xs : List Value, convertValue toLowerRune (.list xs) = .list xs) := by
  refine ⟨loweredKeys_convertLoop toLowerRune hidem m [] rfl, ?_, ?_, ?_⟩
  · intro hnd
    constructor
    · intro k v hm hk
      have h := lookup_convertLoop_of_mem toLowerRune k v m [] hnd hm
      unfold loweredKey at h
      rw [if_neg hk, if_neg hk] at h
      exact h
    · intro v hm
      have h := lookup_convertLoop_of_mem toLowerRune "variables".toList v m [] hnd hm
      unfold loweredKey at h
      rw [if_pos rfl, if_pos rfl] at h
      exact h
  · intro m'
    rw [convertValue]
    rfl
  · intro xs
    rw [convertValue]

theorem ConvertKeysToLowerCase_lowers_witness :
    loweredKeys Char.toLower
        (ConvertKeysToLowerCase Char.toLower
          [("Headers".toList, .map [("Content-Type".toList, .str "JSON".toList)]),
            ("variables".toList, .map [("userID".toList, .num 7)])]) = true
    ∧ lookup "headers".toList
        (ConvertKeysToLowerCase Char.toLower
          [("Headers".toList, .map [("Content-Type".toList, .str "JSON".toList)]),
            ("variables".toList, .map [("userID".toList, .num 7)])])
      = some (.map [("content-type".toList, .str "JSON".toList)])
    ∧ lookup "variables".toList
        (ConvertKeysToLowerCase Char.toLower
          [("Headers".toList, .map [("Content-Type".toList, .str "JSON".toList)]),
            ("variables".toList, .map [("userID".toList, .num 7)])])
      = some (.map [("userID".toList, .num 7)]) :=
  have T := ConvertKeysToLowerCase_lowers Char.toLower
    [("Headers".toList, .map [("Content-Type".toList, .str "JSON".toList)]),
      ("variables".toList, .map [("userID".toList, .num 7)])] toLower_toLower
  ⟨T.1,
    (T.2.1 (by decide)).1 "Headers".toList
      (.map [("Content-Type".toList, .str "JSON".toList)]) (by decide) (by decide),
    (T.2.1 (by decide)).2 (.map [("userID".toList, .num 7)]) (by decide)⟩

/-- C17 at its failing input. `ConvertKeysToLowerCase` of `A: [B: 1]` lowercases
the key `A` and returns the sequence under it as it is: the key `B` of the
mapping that is an element of the sequence is not lowercase in the result,
against the claim and against the doc comment of the function (all keys,
recursively). -/
theorem ConvertKeysToLowerCase_sequence_key :
    ConvertKeysToLowerCase Char.toLower
        [("A".toList, .list [.map [("B".toList, .num 1)]])]
      = [("a".toList, .list [.map [("B".toList, .num 1)]])]
    ∧ stringsToLower Char.toLower "B".toList ≠ "B".toList
    ∧ stringsToLower Char.toLower "B".toList = "b".toList := by
  decide

end Hulak
